import Mathlib

/-!
# Reliable datagram transfer of `lab_2/udp/udp.go`

A shallow embedding of the packet codec (`BuildPacket`, `ParsePacket`), of the
stop-and-wait sender (`Upload`), of the receiver (`Download`) and of the
command exchange (`SendCommandWithResponse`), followed by the properties
proved about them.

Conventions of the embedding.

* A byte is a `Fin 256`; a `[]byte` is a `List Byte`.  A `nil` slice is told
  apart from an empty one only where the code does so (the second result of
  `ParsePacket`), there the slice is an `Option (List Byte)`.
* A `uint32` is a `Nat` below `2 ^ 32`; `seq++` is written `(seq + 1) % 2 ^ 32`.
* A run-time panic (index or slice bound out of range, negative count of
  `strings.Repeat`) is the value `none` of the helper that would raise it, and
  the exit `Exit.panic` of a function.
* A `float64` is the rational number it stands for; an operation on `float64`
  is the exact operation followed by the rounding `float64`.
* A file is the list of its bytes; `file.Read(buffer)` fills the buffer as far
  as the unread part of the file goes and reports `io.EOF` once nothing is
  left.
* The network is a parameter of the sender (a value of `UDPConn`) and a trace
  of read results for the receiver, so that lost, late and foreign datagrams
  can all be expressed; real time is not modelled, a read deadline that
  passes is a read that fails.
* Logging prints text only and is left out.  Of `printProgress` the text is
  left out and the panic is kept.  `Download` calls it with the total 0, where
  it always returns (`printProgress_zero`), so the receiver carries no trace
  of that call.
-/

namespace udp

/-! ## Data model -/

/-- One octet. -/
abbrev Byte := Fin 256

/-- The printed form of a UDP address, `addr.String()`. -/
abbrev Addr := String

/-- Constant `ChunkSize` of the package. -/
def ChunkSize : Nat := 8192

/-- Constant `MaxRetries` of the package. -/
def MaxRetries : Nat := 5

/-- The three ASCII bytes of the string "EOF". -/
def EOF : List Byte := [69, 79, 70]

/-- The low octet of a number, the conversion `byte(v)`. -/
def toByte (v : Nat) : Byte := ⟨v % 256, Nat.mod_lt _ (by decide)⟩

/-- Big-endian encoding of a `uint32`, as done by `binary.BigEndian.PutUint32`
and by `binary.Write(buf, binary.BigEndian, seq)`: most significant byte first. -/
def PutUint32 (v : Nat) : List Byte :=
  [toByte (v / 2 ^ 24), toByte (v / 2 ^ 16), toByte (v / 2 ^ 8), toByte v]

/-- Decoding `binary.BigEndian.Uint32(b)`: reads `b[0..3]`; `none` is the panic
raised when `b` has fewer than four bytes. -/
def Uint32 : List Byte → Option Nat
  | b0 :: b1 :: b2 :: b3 :: _ =>
      some (b0.val * 2 ^ 24 + b1.val * 2 ^ 16 + b2.val * 2 ^ 8 + b3.val)
  | _ => none

/-- The slice expression `b[lo:hi]`; `none` is the panic raised unless
`lo ≤ hi ≤ len(b)`. -/
def slice (b : List Byte) (lo hi : Nat) : Option (List Byte) :=
  if lo ≤ hi ∧ hi ≤ b.length then some ((b.take hi).drop lo) else none

/-- Function `BuildPacket`: the big-endian sequence number followed by the data. -/
def BuildPacket (seq : Nat) (data : List Byte) : List Byte :=
  PutUint32 seq ++ data

/-- Function `ParsePacket`.  The outer `Option` is `none` when the body panics;
the inner one tells the `nil` payload of the short-input branch from a
payload that is a (possibly empty) slice of the packet. -/
def ParsePacket (packet : List Byte) : Option (Nat × Option (List Byte)) :=
  if packet.length < 4 then some (0, none)
  else
    match slice packet 0 4 with
    | none => none
    | some hdr =>
      match Uint32 hdr with
      | none => none
      | some seq =>
        match slice packet 4 packet.length with
        | none => none
        | some data => some (seq, some data)

/-! ## The receiver -/

/-- The error values the functions of the package return. -/
inductive GoErr where
  | openFile
  | createFile
  | readTimeout
  | maxRetries
  deriving DecidableEq, Repr

/-- How a call ends: `return nil`, `return err`, a run-time panic, or (for the
fuelled sender loop only) the fuel running out before the loop ends. -/
inductive Exit where
  | nil
  | error (e : GoErr)
  | panic
  | unfinished
  deriving DecidableEq, Repr

/-- Result of `file.Write(data)`: success, or an error after `n` bytes of the
data reached the file. -/
inductive WriteResult where
  | ok
  | short (n : Nat)
  deriving DecidableEq, Repr

/-- What the environment supplies to one iteration of the loop of `Download`:
the result of `conn.ReadFromUDP(buffer)`, an error or the source address
with the filled part `buffer[:n]`, and how `file.Write` behaves should this
iteration call it. -/
inductive ReadEvent where
  | failed
  | datagram (remote : Addr) (buf : List Byte) (wr : WriteResult)
  deriving DecidableEq, Repr

/-- The variables of `Download` that outlive an iteration: the bytes written
to the file, `expectedSeq`, and the calls `conn.WriteToUDP(ack, addr)` made so
far, oldest first. -/
structure RecvState where
  file : List Byte
  expectedSeq : Nat
  acks : List (List Byte × Addr)
  deriving DecidableEq, Repr

/-- How one iteration of a loop hands over: to the next iteration, out of the
loop by `break`, out of the function by `return err`, or by a panic. -/
inductive LoopStep where
  | next (s : RecvState)
  | stop (s : RecvState)
  | fail (s : RecvState)
  | panic (s : RecvState)
  deriving DecidableEq, Repr

/-- The state after sending the acknowledgment of `seq` to `addr`. -/
def sendAck (s : RecvState) (seq : Nat) (addr : Addr) : RecvState :=
  { s with acks := s.acks ++ [(PutUint32 seq, addr)] }

/-- The body of the `for` loop of `Download` (one read and what follows it). -/
def downloadBody (addr : Addr) (s : RecvState) : ReadEvent → LoopStep
  | .failed => .fail s
  | .datagram remote buf wr =>
    if remote ≠ addr then .next s
    else
      match ParsePacket buf with
      | none => .panic s
      | some (seq, data) =>
        if seq = 0 ∧ data = none then .next s
        else
          let payload := data.getD []
          if payload = EOF then .stop (sendAck s seq addr)
          else if seq = s.expectedSeq then
            match wr with
            | .short n => .next { s with file := s.file ++ payload.take n }
            | .ok =>
              .next (sendAck { s with file := s.file ++ payload,
                                      expectedSeq := (s.expectedSeq + 1) % 2 ^ 32 } seq addr)
          else if seq < s.expectedSeq then .next (sendAck s seq addr)
          else .next s

/-- What a call of `Download` leaves behind: the final variables, how it
returned, and the part of the trace it never read. -/
structure DownloadResult where
  state : RecvState
  exit : Exit
  rest : List ReadEvent
  deriving DecidableEq, Repr

/-- The `for` loop of `Download` over the reads of a trace.  After the last
entry nothing more arrives, so the read deadline passes and the next read
fails. -/
def downloadLoop (addr : Addr) : RecvState → List ReadEvent → DownloadResult
  | s, [] => { state := s, exit := .error .readTimeout, rest := [] }
  | s, ev :: tr =>
    match downloadBody addr s ev with
    | .next s1 => downloadLoop addr s1 tr
    | .stop s1 => { state := s1, exit := .nil, rest := tr }
    | .fail s1 => { state := s1, exit := .error .readTimeout, rest := tr }
    | .panic s1 => { state := s1, exit := .panic, rest := tr }

/-- The variables of `Download` on entry to its loop. -/
def recvInit : RecvState := { file := [], expectedSeq := 0, acks := [] }

/-- Function `Download`.  `created` tells whether `os.Create(savePath)`
succeeds; `addr` is the expected peer. -/
def Download (created : Bool) (addr : Addr) (trace : List ReadEvent) : DownloadResult :=
  if created then downloadLoop addr recvInit trace
  else { state := recvInit, exit := .error .createFile, rest := trace }

/-! ## The progress bar -/

/-- Rounding of a rational number to the nearest integer, a tie going to the
even one. -/
def roundEven (x : ℚ) : ℤ :=
  if x - ⌊x⌋ < 1 / 2 then ⌊x⌋
  else if 1 / 2 < x - ⌊x⌋ then ⌊x⌋ + 1
  else if ⌊x⌋ % 2 = 0 then ⌊x⌋ else ⌊x⌋ + 1

/-- The `float64` nearest to a rational number, as the conversion
`float64(v)` and every operation on `float64` round: to 53 significant bits,
a tie going to the even significand.  The exponent is left unbounded; the
quotients and products of `int64` quantities that `printProgress` forms are
far inside the range of the normal numbers. -/
def float64 (q : ℚ) : ℚ :=
  if q = 0 then 0
  else roundEven (q / 2 ^ (Int.log 2 |q| - 52)) * 2 ^ (Int.log 2 |q| - 52)

/-- The conversion `int(f)` of a `float64`: the fraction is dropped.  Beyond
the range of `int` the result of the conversion depends on the machine; it is
then never a number from 0 to 50, so what `printProgress` makes of it, a
panic, does not depend on it. -/
def toInt (f : ℚ) : Int := if 0 ≤ f then ⌊f⌋ else ⌈f⌉

/-- Function `strings.Repeat`; `none` is its panic on a negative count. -/
def Repeat (s : String) (count : Int) : Option String :=
  if count < 0 then none else some (String.join (List.replicate count.toNat s))

/-- Function `printProgress`.  The arguments of `fmt.Printf` are evaluated, the
two calls of `strings.Repeat` among them, and the line is printed; `none` is
a panic of one of these calls, the printed text is left out. -/
def printProgress (current total : Nat) : Option Unit :=
  let percent : ℚ :=
    if 0 < total then float64 (float64 (float64 current / float64 total) * 100) else 0
  let barWidth : Int := 50
  let filled : Int := toInt (float64 (float64 (percent / 100) * float64 barWidth))
  match Repeat "=" filled, Repeat " " (barWidth - filled) with
  | some _, some _ => some ()
  | _, _ => none

/-! ## The sender -/

/-- The two socket operations `Upload` uses, over a world `W` that stands for
the network.  `WriteToUDP b addr` reports whether the send succeeded;
`ReadFromUDP n` reads one datagram into a buffer of `n` bytes and gives the
filled part of the buffer with the source address, or `none` on an error
(the deadline passed). -/
structure UDPConn (W : Type) where
  WriteToUDP : List Byte → Addr → W → Bool × W
  ReadFromUDP : Nat → W → Option (List Byte × Addr) × W

/-- The variables of `Upload` that outlive an iteration: `seq`, `sent`, and
the calls `printProgress(sent, totalSize)` made so far, oldest first, the one
that panicked included. -/
structure SendState where
  seq : Nat
  sent : Nat
  progress : List (Nat × Nat)
  deriving DecidableEq, Repr

/-- How a loop of `Upload` ends: normally, by a panic, or by lack of fuel. -/
inductive Flow where
  | ok
  | panic
  | unfinished
  deriving DecidableEq, Repr

/-- The loop labelled `retry` of `Upload`, with its number of iterations left
as first numeric argument (`MaxRetries - i`).  `ackBuf` is the part of the
four-byte buffer filled by the read, so `n` is its length.  On a matching
acknowledgment `sent` grows by that `n`, `printProgress` is called, and only
when it returns is `seq` incremented. -/
def retryLoop {W : Type} (conn : UDPConn W) (addr : Addr) (packet : List Byte)
    (totalSize : Nat) : Nat → SendState → W → Flow × SendState × W
  | 0, st, w => (.ok, st, w)
  | k + 1, st, w =>
    match conn.WriteToUDP packet addr w with
    | (false, w1) => retryLoop conn addr packet totalSize k st w1
    | (true, w1) =>
      match conn.ReadFromUDP 4 w1 with
      | (none, w2) => retryLoop conn addr packet totalSize k st w2
      | (some (ackBuf, _), w2) =>
        if 4 ≤ ackBuf.length then
          match Uint32 (ackBuf.take 4) with
          | none => (.panic, st, w2)
          | some ackSeq =>
            if ackSeq = st.seq then
              match printProgress (st.sent + ackBuf.length) totalSize with
              | none =>
                (.panic, { seq := st.seq,
                           sent := st.sent + ackBuf.length,
                           progress := st.progress ++ [(st.sent + ackBuf.length, totalSize)] }, w2)
              | some _ =>
                (.ok, { seq := (st.seq + 1) % 2 ^ 32,
                        sent := st.sent + ackBuf.length,
                        progress := st.progress ++ [(st.sent + ackBuf.length, totalSize)] }, w2)
            else retryLoop conn addr packet totalSize k st w2
        else retryLoop conn addr packet totalSize k st w2

/-- The outer `for` loop of `Upload` over the unread part of the file.  A read
fills the buffer with the next `ChunkSize` bytes, or with all that is left
when that is less; at the end of the file it reports `io.EOF` and the loop
breaks.  The first argument is fuel. -/
def uploadLoop {W : Type} (conn : UDPConn W) (addr : Addr) (totalSize : Nat) :
    Nat → List Byte → SendState → W → Flow × SendState × W
  | _, [], st, w => (.ok, st, w)
  | 0, _ :: _, st, w => (.unfinished, st, w)
  | fuel + 1, b :: bs, st, w =>
    let chunk := (b :: bs).take ChunkSize
    match retryLoop conn addr (BuildPacket st.seq chunk) totalSize MaxRetries st w with
    | (.ok, st1, w1) => uploadLoop conn addr totalSize fuel ((b :: bs).drop ChunkSize) st1 w1
    | r => r

/-- What a call of `Upload` leaves behind. -/
structure UploadResult (W : Type) where
  exit : Exit
  state : SendState
  world : W

/-- Function `Upload`.  `file` is the content of the file at `filePath`, or
`none` when `os.Open` fails. -/
def Upload {W : Type} (conn : UDPConn W) (file : Option (List Byte)) (addr : Addr) (w : W) :
    UploadResult W :=
  match file with
  | none => { exit := .error .openFile, state := { seq := 0, sent := 0, progress := [] }, world := w }
  | some content =>
    match uploadLoop conn addr content.length content.length content
        { seq := 0, sent := 0, progress := [] } w with
    | (.ok, st, w1) =>
      { exit := .nil, state := st, world := (conn.WriteToUDP (BuildPacket st.seq EOF) addr w1).2 }
    | (.panic, st, w1) => { exit := .panic, state := st, world := w1 }
    | (.unfinished, st, w1) => { exit := .unfinished, state := st, world := w1 }

/-! ## A lossless channel between `Upload` and `Download` -/

/-- The network between one sender and one receiver: the packets the sender
wrote to the receiver, oldest first, and how many of the acknowledgments of
the receiver the sender has read. -/
structure Link where
  wire : List (List Byte)
  taken : Nat
  deriving DecidableEq, Repr

/-- What the receiver reads when every packet on the wire arrives once, in
order, from `peer`, into its buffer of `ChunkSize + 4` bytes, and every
write to its file succeeds. -/
def Link.trace (peer : Addr) (l : Link) : List ReadEvent :=
  l.wire.map (fun p => ReadEvent.datagram peer (p.take (ChunkSize + 4)) WriteResult.ok)

/-- The socket of the sender on the lossless channel.  The sender has address
`peer`, the receiver `dst` and runs `Download` with expected peer `peer`.  A
write to `dst` puts the packet on the wire; a read returns the oldest
acknowledgment of the receiver not read yet, cut to the buffer, and fails
when there is none. -/
def lossless (peer dst : Addr) : UDPConn Link where
  WriteToUDP := fun p a l => if a = dst then (true, { l with wire := l.wire ++ [p] }) else (true, l)
  ReadFromUDP := fun n l =>
    match ((Download true peer (l.trace peer)).state.acks.map Prod.fst).drop l.taken with
    | [] => (none, l)
    | ack :: _ => (some (ack.take n, dst), { l with taken := l.taken + 1 })

/-- Running `Upload` of a file, from address `peer` to address `dst`, against
`Download` on the lossless channel. -/
def transfer (peer dst : Addr) (content : List Byte) : UploadResult Link :=
  Upload (lossless peer dst) (some content) dst { wire := [], taken := 0 }

/-! ## Vocabulary of the statements -/

/-- A trace entry that is not a datagram from an address other than `addr`:
a failed read, or a datagram whose source is `addr`. -/
def notForeign (addr : Addr) : ReadEvent → Bool
  | .failed => true
  | .datagram remote _ _ => decide (remote = addr)

/-- The entry is a datagram, not a failed read. -/
def isDatagram : ReadEvent → Bool
  | .failed => false
  | .datagram _ _ _ => true

/-- The entry is a datagram from `addr` of at least four bytes whose payload
is the three bytes "EOF". -/
def isEOFFrom (addr : Addr) : ReadEvent → Bool
  | .failed => false
  | .datagram remote buf _ => decide (remote = addr ∧ 4 ≤ buf.length ∧ buf.drop 4 = EOF)

/-- No write of the entry to the file fails. -/
def writeOk : ReadEvent → Bool
  | .failed => true
  | .datagram _ _ wr => decide (wr = WriteResult.ok)

/-- The datagram from `addr` that carries the packet `(seq, data)`, at an
iteration whose write succeeds. -/
def packetFrom (addr : Addr) (p : Nat × List Byte) : ReadEvent :=
  .datagram addr (BuildPacket p.1 p.2) .ok

/-- The trace of the `n` packets numbered `0, 1, ..., n - 1` with an empty
payload, all from `addr`. -/
def countTrace (addr : Addr) (n : Nat) : List ReadEvent :=
  (List.range n).map (fun i => packetFrom addr (i, []))

/-- The number of reads that return data from a file of the given content:
its length divided by `ChunkSize`, rounded up. -/
def numChunks (src : List Byte) : Nat := (src.length + ChunkSize - 1) / ChunkSize

/-- The `i`-th chunk of a file: its bytes from offset `i * ChunkSize` on, up to
`ChunkSize` of them. -/
def chunkAt (src : List Byte) (i : Nat) : List Byte := (src.drop (i * ChunkSize)).take ChunkSize

/-- The consecutive chunks of a file. -/
def chunks (src : List Byte) : List (List Byte) := (List.range (numChunks src)).map (chunkAt src)

/-- The chunks of a file as packets numbered from `seq0` on, modulo `2 ^ 32`. -/
def packetsFrom (seq0 : Nat) (src : List Byte) : List (List Byte) :=
  (List.range (numChunks src)).map (fun i => BuildPacket ((seq0 + i) % 2 ^ 32) (chunkAt src i))

/-- The receiver at the other end of the link, run on what has been sent. -/
def Link.receiver (peer : Addr) (l : Link) : DownloadResult := Download true peer (l.trace peer)

/-- The receiver at the other end of the link is waiting for the packet with
the sequence number of the sender, and the sender has read every
acknowledgment sent so far. -/
def Synced (peer : Addr) (l : Link) (st : SendState) : Prop :=
  (l.receiver peer).exit = .error .readTimeout ∧
  (l.receiver peer).state.expectedSeq = st.seq ∧
  l.taken = (l.receiver peer).state.acks.length

/-- The state an iteration hands over. -/
def LoopStep.state : LoopStep → RecvState
  | .next s => s
  | .stop s => s
  | .fail s => s
  | .panic s => s

/-! ## The command channel -/

/-- Constant `MaxPacketSize` of the package. -/
def MaxPacketSize : Nat := 1024 * 128

/-- What a call of `SendCommandWithResponse` returns, the bytes of the response
string and the error, with the network it leaves behind. -/
structure CommandResult (W : Type) where
  response : List Byte
  exit : Exit
  world : W

/-- The `for` loop of `SendCommandWithResponse` with its number of iterations
left (`MaxRetries - i`), followed by the `return` after the loop.  The
command is the bytes `[]byte(cmd)`; the response is `string(buffer[:n])`. -/
def sendCommandLoop {W : Type} (conn : UDPConn W) (addr : Addr) (cmd : List Byte) :
    Nat → W → CommandResult W
  | 0, w => { response := [], exit := .error .maxRetries, world := w }
  | k + 1, w =>
    match conn.WriteToUDP cmd addr w with
    | (false, w1) => sendCommandLoop conn addr cmd k w1
    | (true, w1) =>
      match conn.ReadFromUDP MaxPacketSize w1 with
      | (none, w2) => sendCommandLoop conn addr cmd k w2
      | (some (buf, _), w2) => { response := buf, exit := .nil, world := w2 }

/-- Function `SendCommandWithResponse`.  Its parameter `timeout` only sets the
read deadline and has no counterpart here. -/
def SendCommandWithResponse {W : Type} (conn : UDPConn W) (addr : Addr) (cmd : List Byte)
    (w : W) : CommandResult W :=
  sendCommandLoop conn addr cmd MaxRetries w

/-! ## A scripted network -/

/-- One call of a socket operation with its result: `WriteToUDP(b, addr)` and
whether it succeeded, or `ReadFromUDP` into a buffer of `n` bytes and what it
returned. -/
inductive NetCall where
  | write (b : List Byte) (addr : Addr) (ok : Bool)
  | read (n : Nat) (got : Option (List Byte × Addr))
  deriving DecidableEq, Repr

/-- A network that follows a script: the results of the coming calls of
`WriteToUDP` (once the list is used up they succeed), what the coming calls
of `ReadFromUDP` meet, a datagram with its source address or a deadline that
passes (once the list is used up the deadline passes), and the calls made so
far, oldest first. -/
structure Net where
  sends : List Bool
  reads : List (Option (List Byte × Addr))
  log : List NetCall
  deriving DecidableEq, Repr

/-- The part of a datagram that a read into a buffer of `n` bytes returns. -/
def cut (n : Nat) (d : List Byte × Addr) : List Byte × Addr := (d.1.take n, d.2)

/-- The socket on a scripted network. -/
def scripted : UDPConn Net where
  WriteToUDP := fun b a w =>
    (w.sends.headD true,
      { w with sends := w.sends.tail, log := w.log ++ [.write b a (w.sends.headD true)] })
  ReadFromUDP := fun n w =>
    ((w.reads.headD none).map (cut n),
      { w with reads := w.reads.tail,
               log := w.log ++ [.read n ((w.reads.headD none).map (cut n))] })

/-- The call is a `WriteToUDP`. -/
def NetCall.isWrite : NetCall → Bool
  | .write _ _ _ => true
  | .read _ _ => false

/-- The number of calls of `WriteToUDP` in a list of calls. -/
def countWrites (calls : List NetCall) : Nat := calls.countP NetCall.isWrite

/-- The bytes and destinations of the calls of `WriteToUDP` in a list of calls. -/
def writesOf : List NetCall → List (List Byte × Addr)
  | [] => []
  | .write b a _ :: cs => (b, a) :: writesOf cs
  | .read _ _ :: cs => writesOf cs

/-- The bytes read are an acknowledgment of `seq`: at least four bytes, the
first four of which decode to `seq`. -/
def ackOf (seq : Nat) (buf : List Byte) : Prop := 4 ≤ buf.length ∧ Uint32 (buf.take 4) = some seq

instance (seq : Nat) (buf : List Byte) : Decidable (ackOf seq buf) := by
  unfold ackOf
  exact inferInstance

/-- The call is a read that returned an acknowledgment of `seq`. -/
def NetCall.isAckOf (seq : Nat) : NetCall → Bool
  | .write _ _ _ => false
  | .read _ none => false
  | .read _ (some (buf, _)) => decide (ackOf seq buf)

/-- What `Upload` does for one chunk of the file: the sequence number it gives
the chunk, the chunk, the socket calls it makes for it, and whether it read
an acknowledgment of that sequence number. -/
structure Round where
  seq : Nat
  chunk : List Byte
  calls : List NetCall
  acked : Bool
  deriving DecidableEq, Repr

/-- The number of rounds that ended with an acknowledgment. -/
def countAcked (rounds : List Round) : Nat := rounds.countP (fun r => r.acked)

/-! ## A channel that loses one acknowledgment -/

/-- The list with its element at index `j` repeated once, right after itself. -/
def dupAt {α : Type} (j : Nat) (xs : List α) : List α := xs.take (j + 1) ++ xs.drop j

/-- The socket of the sender on a channel that delivers every datagram but one:
the acknowledgment that `Download` sends as its `j`-th (counting from 0)
never arrives.  Otherwise as `lossless`. -/
def dropAck (peer dst : Addr) (j : Nat) : UDPConn Link where
  WriteToUDP := fun p a l => if a = dst then (true, { l with wire := l.wire ++ [p] }) else (true, l)
  ReadFromUDP := fun n l =>
    match (((Download true peer (l.trace peer)).state.acks.map Prod.fst).eraseIdx j).drop
        l.taken with
    | [] => (none, l)
    | ack :: _ => (some (ack.take n, dst), { l with taken := l.taken + 1 })

/-- Running `Upload` of a file, from address `peer` to address `dst`, against
`Download` on the channel that loses the `j`-th acknowledgment. -/
def transferDropAck (peer dst : Addr) (j : Nat) (content : List Byte) : UploadResult Link :=
  Upload (dropAck peer dst j) (some content) dst { wire := [], taken := 0 }

/-- The empty script with an empty log: every send succeeds, no datagram ever
arrives. -/
def silent : Net := { sends := [], reads := [], log := [] }

/-! ## Vocabulary of the statements on the sender -/

/-- The variables of `Upload` after a chunk is acknowledged by a read that
filled the four-byte buffer and the progress is printed. -/
def advance (total : Nat) (st : SendState) : SendState :=
  { seq := (st.seq + 1) % 2 ^ 32, sent := st.sent + 4,
    progress := st.progress ++ [(st.sent + 4, total)] }

/-- The variables of `Upload` when a chunk is acknowledged by a read that
filled the four-byte buffer and `printProgress` panics: `sent` has grown,
`seq` has not. -/
def report (total : Nat) (st : SendState) : SendState :=
  { seq := st.seq, sent := st.sent + 4, progress := st.progress ++ [(st.sent + 4, total)] }

/-- How the loop `retry` ends and what it leaves of the variables: unchanged
when no acknowledgment of `seq` was read; otherwise advanced when
`printProgress` returns, and a panic when it does not. -/
def roundEnd (total : Nat) (st : SendState) (acked : Bool) : Flow × SendState :=
  if acked = true then
    match printProgress (st.sent + 4) total with
    | some _ => (.ok, advance total st)
    | none => (.panic, report total st)
  else (.ok, st)

/-- A run of the loop `retry` on the scripted network, with `k` iterations
left, for the packet `pkt` in the state `st`: it ends after the socket calls
`calls`; these are sends of `pkt` and reads into four bytes, with at most `k`
sends; either the last call is the only read of an acknowledgment of `st.seq`
and the loop ends as `roundEnd` says, or there are exactly `k` sends, no
acknowledgment of `st.seq` is read and the state is as before. -/
def RetryRun (addr : Addr) (pkt : List Byte) (total k : Nat) (st : SendState) (w : Net)
    (calls : List NetCall) (acked : Bool) (w1 : Net) : Prop :=
  retryLoop scripted addr pkt total k st w
    = ((roundEnd total st acked).1, (roundEnd total st acked).2, w1) ∧
  w1.log = w.log ++ calls ∧
  (∀ c ∈ calls, (∃ ok, c = .write pkt addr ok) ∨ (∃ got, c = .read 4 got)) ∧
  countWrites calls ≤ k ∧
  (acked = true → 1 ≤ countWrites calls ∧
    ∃ pre buf a, calls = pre ++ [.read 4 (some (buf, a))] ∧ ackOf st.seq buf ∧
      ∀ c ∈ pre, c.isAckOf st.seq = false) ∧
  (acked = false → countWrites calls = k ∧ ∀ c ∈ calls, c.isAckOf st.seq = false)

/-- The shape of a round of `Upload` for the destination `addr`: its socket
calls are sends of the packet made of its sequence number and its chunk and
reads into four bytes; there are between 1 and `MaxRetries` sends; when the
round is acknowledged its last call is a read of an acknowledgment of its
sequence number and no earlier call is; when it is not, there are
`MaxRetries` sends and no call is such a read. -/
def RoundOk (addr : Addr) (r : Round) : Prop :=
  (∀ c ∈ r.calls,
    (∃ ok, c = .write (BuildPacket r.seq r.chunk) addr ok) ∨ (∃ got, c = .read 4 got)) ∧
  1 ≤ countWrites r.calls ∧ countWrites r.calls ≤ MaxRetries ∧
  (r.acked = true →
    ∃ pre buf a, r.calls = pre ++ [.read 4 (some (buf, a))] ∧ ackOf r.seq buf ∧
      ∀ c ∈ pre, c.isAckOf r.seq = false) ∧
  (r.acked = false →
    countWrites r.calls = MaxRetries ∧ ∀ c ∈ r.calls, c.isAckOf r.seq = false)

/-- The acknowledgment `Download` sends to `peer` for a packet it accepts or
has accepted: the first four bytes of the packet. -/
def ackFor (peer : Addr) (p : List Byte) : List Byte × Addr := (p.take 4, peer)

/-- On the channel that loses the `j`-th acknowledgment: the receiver is
waiting for the packet with the sequence number of the sender, it has
acknowledged every packet on the wire, the sender has read every
acknowledgment that reached it, and as long as the loss has not happened the
sequence number is the number of packets sent, modulo `2 ^ 32`. -/
def SyncedDrop (peer : Addr) (j : Nat) (l : Link) (st : SendState) : Prop :=
  (l.receiver peer).exit = .error .readTimeout ∧
  (l.receiver peer).state.expectedSeq = st.seq ∧
  (l.receiver peer).state.acks = l.wire.map (ackFor peer) ∧
  l.taken = ((l.wire.map (fun p => p.take 4)).eraseIdx j).length ∧
  (l.wire.length ≤ j → st.seq = l.wire.length % 2 ^ 32)

/-- What `n` packets already sent leave of the repetition at index `j`: the
packets `xs` still to send, with the one at index `j - n` repeated when the
`j`-th packet is still to come. -/
def wireAfter {α : Type} (j n : Nat) (xs : List α) : List α :=
  if n ≤ j then dupAt (j - n) xs else xs

/-! ## The packet codec -/

theorem PutUint32_length (v : Nat) : (PutUint32 v).length = 4 := rfl

theorem Uint32_PutUint32_append (v : Nat) (hv : v < 2 ^ 32) (tl : List Byte) :
    Uint32 (PutUint32 v ++ tl) = some v := by
  simp only [PutUint32, Uint32, toByte, List.cons_append, List.nil_append, Option.some.injEq]
  omega

theorem Uint32_PutUint32 (v : Nat) (hv : v < 2 ^ 32) : Uint32 (PutUint32 v) = some v := by
  have h := Uint32_PutUint32_append v hv []
  simpa using h

theorem BuildPacket_length (seq : Nat) (data : List Byte) :
    (BuildPacket seq data).length = 4 + data.length := by
  simp [BuildPacket, PutUint32_length]

theorem ParsePacket_BuildPacket (seq : Nat) (hseq : seq < 2 ^ 32) (data : List Byte) :
    ParsePacket (BuildPacket seq data) = some (seq, some data) := by
  have hlen := BuildPacket_length seq data
  have h1 : slice (BuildPacket seq data) 0 4 = some (PutUint32 seq) := by
    simp [slice, hlen, BuildPacket, List.take_append_of_le_length, PutUint32_length,
      List.take_of_length_le]
  have h2 : slice (BuildPacket seq data) 4 (BuildPacket seq data).length = some data := by
    have ht : (PutUint32 seq ++ data).take (4 + data.length) = PutUint32 seq ++ data :=
      List.take_of_length_le (by simp [PutUint32_length])
    simp [slice, BuildPacket, PutUint32_length, ht]
  have h3 : ¬ (BuildPacket seq data).length < 4 := by omega
  simp only [ParsePacket, h3, if_false, h1, h2, Uint32_PutUint32 seq hseq]

/-- A buffer of at least four bytes parses, without panic, to a sequence number
below `2 ^ 32` and a payload that is not `nil`; the buffer is the encoding of
the two. -/
theorem ParsePacket_of_long (buf : List Byte) (h : 4 ≤ buf.length) :
    ∃ seq data, ParsePacket buf = some (seq, some data) ∧ seq < 2 ^ 32 ∧
      buf = BuildPacket seq data := by
  match buf, h with
  | b0 :: b1 :: b2 :: b3 :: tl, _ =>
    refine ⟨b0.val * 2 ^ 24 + b1.val * 2 ^ 16 + b2.val * 2 ^ 8 + b3.val, tl, ?_, ?_, ?_⟩
    · simp [ParsePacket, slice, Uint32]
    · have := b0.isLt; have := b1.isLt; have := b2.isLt; have := b3.isLt
      omega
    · have := b0.isLt; have := b1.isLt; have := b2.isLt; have := b3.isLt
      simp only [BuildPacket, PutUint32, toByte, List.cons_append, List.nil_append,
        List.cons.injEq, and_true]
      refine ⟨Fin.ext ?_, Fin.ext ?_, Fin.ext ?_, Fin.ext ?_⟩ <;> simp only <;> omega

theorem ParsePacket_of_short (buf : List Byte) (h : buf.length < 4) :
    ParsePacket buf = some (0, none) := by
  simp [ParsePacket, h]

/-- C2: decoding undoes encoding.  For every `uint32` value `seq` and every
byte sequence `data`, `ParsePacket (BuildPacket seq data)` returns, without
panic, the pair of `seq` and the non-nil payload `data`. -/
theorem C2_parse_build (seq : Nat) (hseq : seq < 2 ^ 32) (data : List Byte) :
    ParsePacket (BuildPacket seq data) = some (seq, some data) :=
  ParsePacket_BuildPacket seq hseq data

/-- Instance of C2 at the empty payload with `seq = 0`. -/
theorem C2_parse_build_witness :
    (0 : Nat) < 2 ^ 32 ∧ ParsePacket (BuildPacket 0 []) = some (0, some []) :=
  ⟨by decide, C2_parse_build 0 (by decide) []⟩

/-- C3: the layout of a packet.  For every `uint32` value `seq` and every
`data`, `BuildPacket seq data` has length `4 + len(data)` and is four bytes
`b0 b1 b2 b3` followed by `data` unchanged, where `b0` is the most
significant octet of `seq` and `b3` the least, so that the four bytes read
big-endian give back `seq`. -/
theorem C3_packet_layout (seq : Nat) (hseq : seq < 2 ^ 32) (data : List Byte) :
    (BuildPacket seq data).length = 4 + data.length ∧
    (BuildPacket seq data).drop 4 = data ∧
    ∃ b0 b1 b2 b3 : Byte,
      BuildPacket seq data = b0 :: b1 :: b2 :: b3 :: data ∧
      b0.val = seq / 2 ^ 24 ∧ b1.val = seq / 2 ^ 16 % 256 ∧
      b2.val = seq / 2 ^ 8 % 256 ∧ b3.val = seq % 256 ∧
      b0.val * 2 ^ 24 + b1.val * 2 ^ 16 + b2.val * 2 ^ 8 + b3.val = seq := by
  refine ⟨BuildPacket_length seq data, by simp [BuildPacket, PutUint32], ?_⟩
  refine ⟨toByte (seq / 2 ^ 24), toByte (seq / 2 ^ 16), toByte (seq / 2 ^ 8), toByte seq,
    rfl, ?_, rfl, rfl, rfl, ?_⟩
  · simp only [toByte]; omega
  · simp only [toByte]; omega

/-- Instance of C3 at `seq = 0x01020304` with a two-byte payload. -/
theorem C3_packet_layout_witness :
    (16909060 : Nat) < 2 ^ 32 ∧ (BuildPacket 16909060 [7, 9]).length = 4 + 2 ∧
    BuildPacket 16909060 [7, 9] = [1, 2, 3, 4, 7, 9] :=
  ⟨by decide, (C3_packet_layout 16909060 (by decide) [7, 9]).1, by decide⟩

/-- C4: `ParsePacket` never panics, and it returns the malformed indication
(`seq` 0 with a `nil` payload) exactly when its input has fewer than four
bytes.  The four-byte packet of `seq` 0 with an empty payload parses to `seq`
0 with a non-nil empty payload, and `Download` does not drop it: coming from
the expected peer it is acknowledged, as the packet expected next when
`expectedSeq` is 0 and as an old packet otherwise. -/
theorem C4_parse_total :
    (∀ packet : List Byte, ∃ seq data, ParsePacket packet = some (seq, data) ∧
      ((seq = 0 ∧ data = none) ↔ packet.length < 4)) ∧
    ParsePacket (BuildPacket 0 []) = some (0, some []) ∧
    (∀ (addr : Addr) (s : RecvState),
      downloadBody addr s (.datagram addr (BuildPacket 0 []) .ok) =
        .next (sendAck (if s.expectedSeq = 0 then { s with expectedSeq := 1 } else s) 0 addr)) := by
  refine ⟨?_, by decide, ?_⟩
  · intro packet
    by_cases h : packet.length < 4
    · exact ⟨0, none, ParsePacket_of_short packet h, by simp [h]⟩
    · obtain ⟨seq, data, hp, -, -⟩ := ParsePacket_of_long packet (by omega)
      exact ⟨seq, some data, hp, by simp [h]⟩
  · intro addr s
    have hp : ParsePacket (BuildPacket 0 []) = some (0, some []) := by decide
    by_cases h0 : s.expectedSeq = 0
    · simp [downloadBody, hp, EOF, h0, sendAck]
    · have : 0 < s.expectedSeq := Nat.pos_of_ne_zero h0
      simp [downloadBody, hp, EOF, h0, sendAck, Ne.symm h0, this]

/-! ## One iteration of the receiver -/

theorem downloadBody_foreign (addr : Addr) (s : RecvState) (remote : Addr) (buf : List Byte)
    (wr : WriteResult) (h : remote ≠ addr) :
    downloadBody addr s (.datagram remote buf wr) = .next s := by
  simp [downloadBody, h]

theorem downloadBody_short (addr : Addr) (s : RecvState) (buf : List Byte)
    (wr : WriteResult) (h : buf.length < 4) :
    downloadBody addr s (.datagram addr buf wr) = .next s := by
  simp [downloadBody, ParsePacket_of_short buf h]

theorem downloadBody_parsed (addr : Addr) (s : RecvState) (buf : List Byte) (wr : WriteResult)
    (seq : Nat) (data : List Byte) (hp : ParsePacket buf = some (seq, some data)) :
    downloadBody addr s (.datagram addr buf wr) =
      if data = EOF then .stop (sendAck s seq addr)
      else if seq = s.expectedSeq then
        match wr with
        | .short n => .next { s with file := s.file ++ data.take n }
        | .ok => .next (sendAck { s with file := s.file ++ data,
                                         expectedSeq := (s.expectedSeq + 1) % 2 ^ 32 } seq addr)
      else if seq < s.expectedSeq then .next (sendAck s seq addr)
      else .next s := by
  simp [downloadBody, hp]

theorem ParsePacket_some_inv (buf : List Byte) (seq : Nat) (data : List Byte)
    (hp : ParsePacket buf = some (seq, some data)) :
    4 ≤ buf.length ∧ seq < 2 ^ 32 ∧ buf = BuildPacket seq data := by
  by_cases h : buf.length < 4
  · rw [ParsePacket_of_short buf h] at hp
    simp at hp
  · obtain ⟨seq1, data1, hp1, hlt, hb⟩ := ParsePacket_of_long buf (by omega)
    rw [hp1] at hp
    simp only [Option.some.injEq, Prod.mk.injEq] at hp
    obtain ⟨rfl, rfl⟩ := hp
    exact ⟨by omega, hlt, hb⟩

theorem downloadBody_eof (addr : Addr) (s : RecvState) (buf : List Byte) (wr : WriteResult)
    (seq : Nat) (hp : ParsePacket buf = some (seq, some EOF)) :
    downloadBody addr s (.datagram addr buf wr) = .stop (sendAck s seq addr) := by
  rw [downloadBody_parsed addr s buf wr seq EOF hp]
  simp

theorem downloadBody_accept (addr : Addr) (s : RecvState) (buf : List Byte)
    (seq : Nat) (data : List Byte) (hp : ParsePacket buf = some (seq, some data))
    (hd : data ≠ EOF) (hs : seq = s.expectedSeq) :
    downloadBody addr s (.datagram addr buf .ok) =
      .next { file := s.file ++ data, expectedSeq := (s.expectedSeq + 1) % 2 ^ 32,
              acks := s.acks ++ [(PutUint32 seq, addr)] } := by
  rw [downloadBody_parsed addr s buf .ok seq data hp]
  simp [hd, hs, sendAck]

theorem downloadBody_write_failed (addr : Addr) (s : RecvState) (buf : List Byte)
    (seq : Nat) (data : List Byte) (n : Nat) (hp : ParsePacket buf = some (seq, some data))
    (hd : data ≠ EOF) (hs : seq = s.expectedSeq) :
    downloadBody addr s (.datagram addr buf (.short n)) =
      .next { s with file := s.file ++ data.take n } := by
  rw [downloadBody_parsed addr s buf (.short n) seq data hp]
  simp [hd, hs]

theorem downloadBody_old (addr : Addr) (s : RecvState) (buf : List Byte) (wr : WriteResult)
    (seq : Nat) (data : List Byte) (hp : ParsePacket buf = some (seq, some data))
    (hd : data ≠ EOF) (hs : seq < s.expectedSeq) :
    downloadBody addr s (.datagram addr buf wr) = .next (sendAck s seq addr) := by
  rw [downloadBody_parsed addr s buf wr seq data hp]
  simp [hd, hs, Nat.ne_of_lt hs]

theorem downloadBody_gap (addr : Addr) (s : RecvState) (buf : List Byte) (wr : WriteResult)
    (seq : Nat) (data : List Byte) (hp : ParsePacket buf = some (seq, some data))
    (hd : data ≠ EOF) (hs : s.expectedSeq < seq) :
    downloadBody addr s (.datagram addr buf wr) = .next s := by
  rw [downloadBody_parsed addr s buf wr seq data hp]
  simp [hd, Nat.ne_of_gt hs, Nat.not_lt_of_gt hs]

/-! ## The receiver over a trace -/

theorem downloadLoop_next (addr : Addr) (s s1 : RecvState) (ev : ReadEvent)
    (tr : List ReadEvent) (h : downloadBody addr s ev = .next s1) :
    downloadLoop addr s (ev :: tr) = downloadLoop addr s1 tr := by
  simp [downloadLoop, h]

theorem downloadLoop_stop (addr : Addr) (s s1 : RecvState) (ev : ReadEvent)
    (tr : List ReadEvent) (h : downloadBody addr s ev = .stop s1) :
    downloadLoop addr s (ev :: tr) = { state := s1, exit := .nil, rest := tr } := by
  simp [downloadLoop, h]

/-- The packets a run of the loop accepts: a subsequence of the trace, numbered
consecutively from `expectedSeq`, whose payloads make up what the run adds to
the file. -/
theorem downloadLoop_accepted (addr : Addr) (trace : List ReadEvent)
    (hw : ∀ ev ∈ trace, writeOk ev = true) :
    ∀ s : RecvState, s.expectedSeq < 2 ^ 32 →
      ∃ acc : List (Nat × List Byte),
        (acc.map (packetFrom addr)).Sublist trace ∧
        (∀ i p, acc[i]? = some p → p.1 = (s.expectedSeq + i) % 2 ^ 32 ∧ p.2 ≠ EOF) ∧
        (downloadLoop addr s trace).state.expectedSeq = (s.expectedSeq + acc.length) % 2 ^ 32 ∧
        (downloadLoop addr s trace).state.file = s.file ++ (acc.map Prod.snd).flatten := by
  induction trace with
  | nil =>
    intro s hs
    exact ⟨[], by simp, by simp, by simp only [downloadLoop, List.length_nil]; omega,
      by simp [downloadLoop]⟩
  | cons ev tr ih =>
    have hw1 : ∀ e ∈ tr, writeOk e = true := fun e he => hw e (List.mem_cons_of_mem _ he)
    have ih1 := ih hw1
    intro s hs
    -- an iteration that changes neither the file nor `expectedSeq`
    have skip : ∀ s1 : RecvState, downloadBody addr s ev = .next s1 →
        s1.file = s.file → s1.expectedSeq = s.expectedSeq →
        ∃ acc : List (Nat × List Byte),
          (acc.map (packetFrom addr)).Sublist (ev :: tr) ∧
          (∀ i p, acc[i]? = some p → p.1 = (s.expectedSeq + i) % 2 ^ 32 ∧ p.2 ≠ EOF) ∧
          (downloadLoop addr s (ev :: tr)).state.expectedSeq
            = (s.expectedSeq + acc.length) % 2 ^ 32 ∧
          (downloadLoop addr s (ev :: tr)).state.file = s.file ++ (acc.map Prod.snd).flatten := by
      intro s1 hb hf he
      obtain ⟨acc, h1, h2, h3, h4⟩ := ih1 s1 (by omega)
      refine ⟨acc, List.Sublist.cons _ h1, ?_, ?_, ?_⟩
      · intro i p hi
        have := h2 i p hi
        rw [he] at this
        exact this
      · rw [downloadLoop_next addr s s1 ev tr hb, h3, he]
      · rw [downloadLoop_next addr s s1 ev tr hb, h4, hf]
    -- an iteration after which the loop is left
    have leave : ∀ r : DownloadResult, downloadLoop addr s (ev :: tr) = r →
        r.state.file = s.file → r.state.expectedSeq = s.expectedSeq →
        ∃ acc : List (Nat × List Byte),
          (acc.map (packetFrom addr)).Sublist (ev :: tr) ∧
          (∀ i p, acc[i]? = some p → p.1 = (s.expectedSeq + i) % 2 ^ 32 ∧ p.2 ≠ EOF) ∧
          (downloadLoop addr s (ev :: tr)).state.expectedSeq
            = (s.expectedSeq + acc.length) % 2 ^ 32 ∧
          (downloadLoop addr s (ev :: tr)).state.file = s.file ++ (acc.map Prod.snd).flatten := by
      intro r hr hf he
      refine ⟨[], by simp, by simp, ?_, ?_⟩
      · rw [hr, he]; simp only [List.length_nil]; omega
      · rw [hr, hf]; simp
    cases ev with
    | failed =>
      exact leave { state := s, exit := .error .readTimeout, rest := tr }
        (by simp [downloadLoop, downloadBody]) rfl rfl
    | datagram remote buf wr =>
      have hwr : wr = .ok := by
        have := hw (.datagram remote buf wr) (List.mem_cons_self _ _)
        simpa [writeOk] using this
      subst hwr
      by_cases hr : remote = addr
      · subst hr
        by_cases hlen : buf.length < 4
        · exact skip s (downloadBody_short remote s buf _ hlen) rfl rfl
        · obtain ⟨seq, data, hp, hlt, hb⟩ := ParsePacket_of_long buf (by omega)
          by_cases hd : data = EOF
          · subst hd
            exact leave _ (downloadLoop_stop remote s _ _ tr
              (downloadBody_eof remote s buf _ seq hp)) rfl rfl
          · rcases Nat.lt_trichotomy seq s.expectedSeq with hlt1 | heq | hgt
            · exact skip _ (downloadBody_old remote s buf _ seq data hp hd hlt1) rfl rfl
            · have hb1 := downloadBody_accept remote s buf seq data hp hd heq
              obtain ⟨acc, h1, h2, h3, h4⟩ := ih1 _
                (show (RecvState.mk (s.file ++ data) ((s.expectedSeq + 1) % 2 ^ 32)
                  (s.acks ++ [(PutUint32 seq, remote)])).expectedSeq < 2 ^ 32 from
                  Nat.mod_lt _ (by decide))
              refine ⟨(seq, data) :: acc, ?_, ?_, ?_, ?_⟩
              · have : packetFrom remote (seq, data) = .datagram remote buf .ok := by
                  simp [packetFrom, hb]
                rw [List.map_cons, this]
                exact List.Sublist.cons₂ _ h1
              · intro i p hi
                cases i with
                | zero =>
                  simp only [List.getElem?_cons_zero, Option.some.injEq] at hi
                  subst hi
                  exact ⟨by simp only [heq]; omega, hd⟩
                | succ j =>
                  simp only [List.getElem?_cons_succ] at hi
                  obtain ⟨h5, h6⟩ := h2 j p hi
                  refine ⟨?_, h6⟩
                  rw [h5]
                  simp only
                  omega
              · rw [downloadLoop_next remote s _ _ tr hb1, h3]
                simp only [List.length_cons]
                omega
              · rw [downloadLoop_next remote s _ _ tr hb1, h4]
                simp
            · exact skip s (downloadBody_gap remote s buf _ seq data hp hd hgt) rfl rfl
      · exact skip s (downloadBody_foreign addr s remote buf _ hr) rfl rfl

theorem isEOFFrom_iff (addr remote : Addr) (buf : List Byte) (wr : WriteResult) :
    isEOFFrom addr (.datagram remote buf wr) = true ↔
      remote = addr ∧ ∃ seq, ParsePacket buf = some (seq, some EOF) := by
  constructor
  · intro h
    simp only [isEOFFrom, decide_eq_true_eq] at h
    obtain ⟨h1, h2, h3⟩ := h
    obtain ⟨seq, data, hp, -, hb⟩ := ParsePacket_of_long buf h2
    have : data = EOF := by
      rw [hb] at h3
      simpa [BuildPacket, PutUint32] using h3
    subst this
    exact ⟨h1, seq, hp⟩
  · rintro ⟨h1, seq, hp⟩
    obtain ⟨h2, -, hb⟩ := ParsePacket_some_inv buf seq EOF hp
    simp only [isEOFFrom, decide_eq_true_eq]
    refine ⟨h1, h2, ?_⟩
    rw [hb]
    simp [BuildPacket, PutUint32]

/-- A datagram that is not an "EOF" packet of the peer keeps the loop going;
what it changes is at most: the file grows, `expectedSeq` moves, and
acknowledgments addressed to the peer are added. -/
theorem downloadBody_datagram_next (addr : Addr) (s : RecvState) (remote : Addr)
    (buf : List Byte) (wr : WriteResult)
    (h : isEOFFrom addr (.datagram remote buf wr) = false) :
    ∃ s1, downloadBody addr s (.datagram remote buf wr) = .next s1 := by
  by_cases hr : remote = addr
  · subst hr
    by_cases hlen : buf.length < 4
    · exact ⟨s, downloadBody_short remote s buf wr hlen⟩
    · obtain ⟨seq, data, hp, -, -⟩ := ParsePacket_of_long buf (by omega)
      have hd : data ≠ EOF := by
        intro hd
        subst hd
        have := (isEOFFrom_iff remote remote buf wr).2 ⟨rfl, seq, hp⟩
        rw [h] at this
        exact Bool.false_ne_true this
      rcases Nat.lt_trichotomy seq s.expectedSeq with hlt | heq | hgt
      · exact ⟨_, downloadBody_old remote s buf wr seq data hp hd hlt⟩
      · cases wr with
        | ok => exact ⟨_, downloadBody_accept remote s buf seq data hp hd heq⟩
        | short n => exact ⟨_, downloadBody_write_failed remote s buf seq data n hp hd heq⟩
      · exact ⟨_, downloadBody_gap remote s buf wr seq data hp hd hgt⟩
  · exact ⟨s, downloadBody_foreign addr s remote buf wr hr⟩

/-- Every iteration leaves the acknowledgments sent so far in place and adds
at most one, addressed to the expected peer. -/
theorem downloadBody_acks (addr : Addr) (s : RecvState) (ev : ReadEvent) :
    (downloadBody addr s ev).state.acks = s.acks ∨
      ∃ seq, (downloadBody addr s ev).state.acks = s.acks ++ [(PutUint32 seq, addr)] := by
  cases ev with
  | failed => left; simp [downloadBody, LoopStep.state]
  | datagram remote buf wr =>
    by_cases hr : remote = addr
    · subst hr
      by_cases hlen : buf.length < 4
      · left; simp [downloadBody_short remote s buf wr hlen, LoopStep.state]
      · obtain ⟨seq, data, hp, -, -⟩ := ParsePacket_of_long buf (by omega)
        by_cases hd : data = EOF
        · subst hd
          right
          exact ⟨seq, by simp [downloadBody_eof remote s buf wr seq hp, LoopStep.state, sendAck]⟩
        · rcases Nat.lt_trichotomy seq s.expectedSeq with hlt | heq | hgt
          · right
            exact ⟨seq, by
              simp [downloadBody_old remote s buf wr seq data hp hd hlt, LoopStep.state, sendAck]⟩
          · cases wr with
            | ok =>
              right
              exact ⟨seq, by
                simp [downloadBody_accept remote s buf seq data hp hd heq, LoopStep.state]⟩
            | short n =>
              left
              simp [downloadBody_write_failed remote s buf seq data n hp hd heq, LoopStep.state]
          · left
            simp [downloadBody_gap remote s buf wr seq data hp hd hgt, LoopStep.state]
    · left; simp [downloadBody_foreign addr s remote buf wr hr, LoopStep.state]

theorem downloadLoop_cons (addr : Addr) (s : RecvState) (ev : ReadEvent) (tr : List ReadEvent) :
    downloadLoop addr s (ev :: tr) =
      match downloadBody addr s ev with
      | .next s1 => downloadLoop addr s1 tr
      | .stop s1 => { state := s1, exit := .nil, rest := tr }
      | .fail s1 => { state := s1, exit := .error .readTimeout, rest := tr }
      | .panic s1 => { state := s1, exit := .panic, rest := tr } := rfl

theorem downloadLoop_acks_addr (addr : Addr) (trace : List ReadEvent) :
    ∀ s : RecvState, (∀ a ∈ s.acks, a.2 = addr) →
      ∀ a ∈ (downloadLoop addr s trace).state.acks, a.2 = addr := by
  induction trace with
  | nil => intro s hs; simpa [downloadLoop] using hs
  | cons ev tr ih =>
    intro s hs
    have hb : ∀ a ∈ (downloadBody addr s ev).state.acks, a.2 = addr := by
      intro a ha
      rcases downloadBody_acks addr s ev with h | ⟨seq, h⟩
      · rw [h] at ha; exact hs a ha
      · rw [h] at ha
        rcases List.mem_append.1 ha with h1 | h1
        · exact hs a h1
        · simp only [List.mem_singleton] at h1
          rw [h1]
    rw [downloadLoop_cons]
    cases hstep : downloadBody addr s ev with
    | next s1 => rw [hstep] at hb; exact ih s1 hb
    | stop s1 => rw [hstep] at hb; exact hb
    | fail s1 => rw [hstep] at hb; exact hb
    | panic s1 => rw [hstep] at hb; exact hb

/-- Datagrams from other addresses do not show in a run of the loop: removing
them from the trace changes neither the final state nor the way the loop is
left, and the unread part of the trace loses just its foreign datagrams. -/
theorem downloadLoop_filter (addr : Addr) (trace : List ReadEvent) :
    ∀ s : RecvState,
      (downloadLoop addr s (trace.filter (notForeign addr))).state
          = (downloadLoop addr s trace).state ∧
      (downloadLoop addr s (trace.filter (notForeign addr))).exit
          = (downloadLoop addr s trace).exit ∧
      (downloadLoop addr s (trace.filter (notForeign addr))).rest
          = (downloadLoop addr s trace).rest.filter (notForeign addr) := by
  induction trace with
  | nil => intro s; simp [downloadLoop]
  | cons ev tr ih =>
    intro s
    by_cases hk : notForeign addr ev = true
    · rw [List.filter_cons_of_pos hk, downloadLoop_cons, downloadLoop_cons]
      cases hstep : downloadBody addr s ev with
      | next s1 => exact ih s1
      | stop s1 => exact ⟨rfl, rfl, rfl⟩
      | fail s1 => exact ⟨rfl, rfl, rfl⟩
      | panic s1 => exact ⟨rfl, rfl, rfl⟩
    · rw [List.filter_cons_of_neg hk]
      cases ev with
      | failed => simp [notForeign] at hk
      | datagram remote buf wr =>
        have hr : remote ≠ addr := by simpa [notForeign] using hk
        rw [downloadLoop_next addr s s _ tr (downloadBody_foreign addr s remote buf wr hr)]
        exact ih s

/-- A run of the loop over datagrams none of which is an "EOF" packet of the
peer reads them all and goes on with what follows. -/
theorem downloadLoop_append (addr : Addr) (pre tr : List ReadEvent)
    (hpre : ∀ ev ∈ pre, isDatagram ev = true ∧ isEOFFrom addr ev = false) :
    ∀ s : RecvState,
      downloadLoop addr s (pre ++ tr) = downloadLoop addr (downloadLoop addr s pre).state tr := by
  induction pre with
  | nil => intro s; simp [downloadLoop]
  | cons ev pre ih =>
    intro s
    have ih1 := ih (fun e he => hpre e (List.mem_cons_of_mem _ he))
    obtain ⟨h1, h2⟩ := hpre ev (List.mem_cons_self _ _)
    cases ev with
    | failed => simp [isDatagram] at h1
    | datagram remote buf wr =>
      obtain ⟨s1, hs1⟩ := downloadBody_datagram_next addr s remote buf wr h2
      rw [List.cons_append, downloadLoop_next addr s s1 _ _ hs1,
        downloadLoop_next addr s s1 _ _ hs1]
      exact ih1 s1

/-- A run of the loop over datagrams none of which is an "EOF" packet of the
peer reads them all and ends when the read deadline passes. -/
theorem downloadLoop_waiting (addr : Addr) (trace : List ReadEvent)
    (h : ∀ ev ∈ trace, isDatagram ev = true ∧ isEOFFrom addr ev = false) :
    ∀ s : RecvState, (downloadLoop addr s trace).exit = .error .readTimeout ∧
      (downloadLoop addr s trace).rest = [] := by
  induction trace with
  | nil => intro s; exact ⟨rfl, rfl⟩
  | cons ev tr ih =>
    intro s
    have ih1 := ih (fun e he => h e (List.mem_cons_of_mem _ he))
    obtain ⟨h1, h2⟩ := h ev (List.mem_cons_self _ _)
    cases ev with
    | failed => simp [isDatagram] at h1
    | datagram remote buf wr =>
      obtain ⟨s1, hs1⟩ := downloadBody_datagram_next addr s remote buf wr h2
      rw [downloadLoop_next addr s s1 _ _ hs1]
      exact ih1 s1

/-- Fed the packets numbered `0` to `n - 1` in order, the loop accepts each of
them; its counter is then `n` reduced modulo `2 ^ 32`. -/
theorem downloadLoop_countTrace (addr : Addr) (n : Nat) (hn : n ≤ 2 ^ 32) :
    (downloadLoop addr recvInit (countTrace addr n)).state =
      { file := [], expectedSeq := n % 2 ^ 32,
        acks := (List.range n).map (fun i => (PutUint32 i, addr)) } := by
  induction n with
  | zero => simp [countTrace, downloadLoop, recvInit]
  | succ n ih =>
    have hlt : n < 2 ^ 32 := by omega
    have hpre : ∀ ev ∈ countTrace addr n, isDatagram ev = true ∧ isEOFFrom addr ev = false := by
      intro ev hev
      simp only [countTrace, List.mem_map, List.mem_range] at hev
      obtain ⟨i, -, rfl⟩ := hev
      simp [packetFrom, isDatagram, isEOFFrom, BuildPacket, PutUint32, EOF]
    have happ : countTrace addr (n + 1) = countTrace addr n ++ [packetFrom addr (n, [])] := by
      simp [countTrace, List.range_succ]
    rw [happ, downloadLoop_append addr _ _ hpre, ih (by omega)]
    have hb := downloadBody_accept addr
      { file := [], expectedSeq := n % 2 ^ 32,
        acks := (List.range n).map (fun i => (PutUint32 i, addr)) }
      (BuildPacket n []) n [] (ParsePacket_BuildPacket n hlt []) (by decide)
      (by simp only; omega)
    rw [packetFrom, downloadLoop_next addr _ _ _ _ hb]
    have hm : n % 2 ^ 32 = n := Nat.mod_eq_of_lt hlt
    simp [downloadLoop, List.range_succ, hm]

/-! ## Chunks of a file -/

theorem numChunks_nil : numChunks [] = 0 := by decide

theorem numChunks_cons (b : Byte) (bs : List Byte) :
    numChunks (b :: bs) = numChunks ((b :: bs).drop ChunkSize) + 1 := by
  simp only [numChunks, List.length_drop, List.length_cons, ChunkSize]
  omega

theorem chunkAt_zero (src : List Byte) : chunkAt src 0 = src.take ChunkSize := by
  simp [chunkAt]

theorem chunkAt_succ (src : List Byte) (i : Nat) :
    chunkAt src (i + 1) = chunkAt (src.drop ChunkSize) i := by
  simp only [chunkAt, List.drop_drop]
  congr 2
  rw [Nat.succ_mul]
  omega

theorem chunks_nil : chunks [] = [] := by decide

theorem chunks_cons (b : Byte) (bs : List Byte) :
    chunks (b :: bs) = (b :: bs).take ChunkSize :: chunks ((b :: bs).drop ChunkSize) := by
  unfold chunks
  rw [numChunks_cons b bs, List.range_succ_eq_map, List.map_cons, List.map_map, chunkAt_zero]
  refine congrArg _ (List.map_congr_left ?_)
  intro i _
  simp only [Function.comp, chunkAt_succ]

theorem packetsFrom_nil (seq0 : Nat) : packetsFrom seq0 [] = [] := by
  simp [packetsFrom, numChunks_nil]

theorem packetsFrom_cons (seq0 : Nat) (h0 : seq0 < 2 ^ 32) (b : Byte) (bs : List Byte) :
    packetsFrom seq0 (b :: bs) =
      BuildPacket seq0 ((b :: bs).take ChunkSize) ::
        packetsFrom ((seq0 + 1) % 2 ^ 32) ((b :: bs).drop ChunkSize) := by
  unfold packetsFrom
  rw [numChunks_cons b bs, List.range_succ_eq_map, List.map_cons, List.map_map, chunkAt_zero,
    Nat.add_zero, Nat.mod_eq_of_lt h0]
  refine congrArg _ (List.map_congr_left ?_)
  intro i _
  have hi : (seq0 + (i + 1)) % 2 ^ 32 = ((seq0 + 1) % 2 ^ 32 + i) % 2 ^ 32 := by omega
  simp only [Function.comp, chunkAt_succ, Nat.succ_eq_add_one, hi]

theorem chunks_flatten_aux (n : Nat) : ∀ src : List Byte, src.length ≤ n →
    (chunks src).flatten = src := by
  induction n with
  | zero =>
    intro src h
    have : src = [] := List.length_eq_zero.1 (by omega)
    subst this
    simp [chunks_nil]
  | succ n ih =>
    intro src h
    cases src with
    | nil => simp [chunks_nil]
    | cons b bs =>
      rw [chunks_cons, List.flatten_cons,
        ih ((b :: bs).drop ChunkSize)
          (by simp only [List.length_drop, List.length_cons, ChunkSize] at *; omega)]
      exact List.take_append_drop _ _

theorem chunks_flatten (src : List Byte) : (chunks src).flatten = src :=
  chunks_flatten_aux src.length src (Nat.le_refl _)

theorem chunkAt_length_le (src : List Byte) (i : Nat) : (chunkAt src i).length ≤ ChunkSize := by
  simp only [chunkAt, List.length_take]
  omega

/-- Every chunk but the last is full. -/
theorem chunkAt_length_full (src : List Byte) (i : Nat) (h : i + 1 < numChunks src) :
    (chunkAt src i).length = ChunkSize := by
  simp only [numChunks, ChunkSize] at h
  simp only [chunkAt, List.length_take, List.length_drop, ChunkSize]
  omega

/-- A chunk of the file that is the three bytes "EOF" is the whole unread part. -/
theorem drop_of_take_eq_EOF (rest : List Byte) (h : rest.take ChunkSize = EOF) :
    rest.drop ChunkSize = [] := by
  have hl : (rest.take ChunkSize).length = 3 := by rw [h]; rfl
  simp only [List.length_take, ChunkSize] at hl
  apply List.drop_eq_nil_of_le
  simp only [ChunkSize]
  omega

/-! ## The progress bar never longer than its line -/

theorem roundEven_near (x : ℚ) : |(roundEven x : ℚ) - x| ≤ 1 / 2 := by
  have h1 := Int.floor_le x
  have h2 := Int.lt_floor_add_one x
  unfold roundEven
  split
  · rw [abs_le]; constructor <;> linarith
  · split
    · rw [abs_le]; push_cast; constructor <;> linarith
    · split
      · rw [abs_le]; constructor <;> linarith
      · rw [abs_le]; push_cast; constructor <;> linarith

theorem float64_zero : float64 0 = 0 := by simp [float64]

theorem round_scaled_near (q u : ℚ) (hu : 0 < u) (h4 : u ≤ q / 2 ^ 52) :
    |(roundEven (q / u) : ℚ) * u - q| ≤ q / 2 ^ 53 := by
  have hr := roundEven_near (q / u)
  have hmul : (roundEven (q / u) : ℚ) * u - q = ((roundEven (q / u) : ℚ) - q / u) * u := by
    field_simp
  rw [hmul, abs_mul, abs_of_pos hu]
  have h3 : |(roundEven (q / u) : ℚ) - q / u| * u ≤ 1 / 2 * u :=
    mul_le_mul_of_nonneg_right hr (le_of_lt hu)
  calc |(roundEven (q / u) : ℚ) - q / u| * u ≤ 1 / 2 * u := h3
    _ ≤ 1 / 2 * (q / 2 ^ 52) := by linarith
    _ = q / 2 ^ 53 := by ring

/-- The relative error of a rounding to `float64` is at most `2 ^ (-53)`. -/
theorem float64_near (q : ℚ) (hq : 0 < q) : |float64 q - q| ≤ q / 2 ^ 53 := by
  have hne : q ≠ 0 := ne_of_gt hq
  have hlog : (2 : ℚ) ^ (Int.log 2 |q|) ≤ |q| := by
    have := Int.zpow_log_le_self (R := ℚ) (b := 2) (r := |q|) (by norm_num) (abs_pos.2 hne)
    exact_mod_cast this
  rw [abs_of_pos hq] at hlog
  have hu2 : (2 : ℚ) ^ (Int.log 2 |q| - 52) = 2 ^ (Int.log 2 |q|) / 2 ^ 52 := by
    rw [zpow_sub₀ (by norm_num)]
    norm_cast
  simp only [float64, hne, if_false]
  apply round_scaled_near q _ (zpow_pos (by norm_num) _)
  rw [hu2, abs_of_pos hq]
  exact div_le_div_of_nonneg_right hlog (by positivity)

theorem float64_le (q : ℚ) (hq : 0 ≤ q) : float64 q ≤ q * (1001 / 1000) := by
  rcases eq_or_lt_of_le hq with h | h
  · rw [← h, float64_zero]; norm_num
  · have := (abs_le.1 (float64_near q h)).2
    have h2 : q / 2 ^ 53 ≤ q * (1 / 1000) := by
      rw [div_eq_mul_one_div]
      exact mul_le_mul_of_nonneg_left (by norm_num) hq
    linarith

theorem le_float64 (q : ℚ) (hq : 0 ≤ q) : q * (999 / 1000) ≤ float64 q := by
  rcases eq_or_lt_of_le hq with h | h
  · rw [← h, float64_zero]; norm_num
  · have := (abs_le.1 (float64_near q h)).1
    have h2 : q / 2 ^ 53 ≤ q * (1 / 1000) := by
      rw [div_eq_mul_one_div]
      exact mul_le_mul_of_nonneg_left (by norm_num) hq
    linarith

theorem float64_nonneg (q : ℚ) (hq : 0 ≤ q) : 0 ≤ float64 q :=
  le_trans (mul_nonneg hq (by norm_num)) (le_float64 q hq)


theorem toInt_of_nonneg (f : ℚ) (h : 0 ≤ f) : toInt f = ⌊f⌋ := by simp [toInt, h]

theorem float64_le_of_le (q m : ℚ) (h0 : 0 ≤ q) (h : q ≤ m) :
    float64 q ≤ m * (1001 / 1000) :=
  le_trans (float64_le q h0) (mul_le_mul_of_nonneg_right h (by norm_num))

theorem le_float64_of_le (q m : ℚ) (h0 : 0 ≤ m) (h : m ≤ q) :
    m * (999 / 1000) ≤ float64 q :=
  le_trans (mul_le_mul_of_nonneg_right h (by norm_num)) (le_float64 q (le_trans h0 h))

/-- The length of the bar before its conversion to an integer, when `c` is at
most `t`: roundings included, it stays below 51. -/
theorem bar_small (c t : ℚ) (hc : 0 ≤ c) (ht : 0 < t) (h : c ≤ t) :
    0 ≤ float64 (float64 (float64 (float64 (float64 c / float64 t) * 100) / 100) * float64 50) ∧
    float64 (float64 (float64 (float64 (float64 c / float64 t) * 100) / 100) * float64 50)
      < 51 := by
  have hA0 := float64_nonneg c hc
  have hA := float64_le c hc
  have hB := le_float64 t (le_of_lt ht)
  have hBpos : 0 < float64 t := lt_of_lt_of_le (mul_pos ht (by norm_num)) hB
  have hq0 : 0 ≤ float64 c / float64 t := div_nonneg hA0 (le_of_lt hBpos)
  have hq : float64 c / float64 t ≤ 1001 / 999 := by
    rw [div_le_iff₀ hBpos]
    nlinarith
  have hR1 := float64_le_of_le _ _ hq0 hq
  have hR10 := float64_nonneg _ hq0
  have hp0 : 0 ≤ float64 (float64 c / float64 t) * 100 := mul_nonneg hR10 (by norm_num)
  have hP := float64_le_of_le _ (1001 / 999 * (1001 / 1000) * 100) hp0 (by linarith)
  have hP0 := float64_nonneg _ hp0
  have hr0 : 0 ≤ float64 (float64 (float64 c / float64 t) * 100) / 100 :=
    div_nonneg hP0 (by norm_num)
  have hR2 := float64_le_of_le _ (1001 / 999 * (1001 / 1000) * 100 * (1001 / 1000) / 100) hr0
    (by rw [div_le_div_iff_of_pos_right (by norm_num)]; exact hP)
  have hR20 := float64_nonneg _ hr0
  have hF := float64_le 50 (by norm_num)
  have hF0 := float64_nonneg 50 (by norm_num)
  have hv0 : 0 ≤ float64 (float64 (float64 (float64 c / float64 t) * 100) / 100) * float64 50 :=
    mul_nonneg hR20 hF0
  have hV := float64_le_of_le _
    (1001 / 999 * (1001 / 1000) * 100 * (1001 / 1000) / 100 * (1001 / 1000) * (50 * (1001 / 1000)))
    hv0 (mul_le_mul hR2 hF hF0 (by norm_num))
  refine ⟨float64_nonneg _ hv0, lt_of_le_of_lt hV (by norm_num)⟩

/-- The length of the bar before its conversion to an integer, when `c` is at
least `21 / 20` of `t`: roundings included, it is at least 51. -/
theorem bar_large (c t : ℚ) (ht : 0 < t) (h : 21 * t ≤ 20 * c) :
    51 ≤ float64 (float64 (float64 (float64 (float64 c / float64 t) * 100) / 100) * float64 50) := by
  have hc : 0 ≤ c := by linarith
  have hA := le_float64 c hc
  have hB := float64_le t (le_of_lt ht)
  have hB0 := le_float64 t (le_of_lt ht)
  have hBpos : 0 < float64 t := lt_of_lt_of_le (mul_pos ht (by norm_num)) hB0
  have hq : 21 / 20 * (999 / 1001) ≤ float64 c / float64 t := by
    rw [le_div_iff₀ hBpos]
    nlinarith
  have hR1 := le_float64_of_le _ _ (by norm_num) hq
  have hP := le_float64_of_le (float64 (float64 c / float64 t) * 100)
    (21 / 20 * (999 / 1001) * (999 / 1000) * 100) (by norm_num) (by linarith)
  have hR2 := le_float64_of_le (float64 (float64 (float64 c / float64 t) * 100) / 100)
    (21 / 20 * (999 / 1001) * (999 / 1000) * 100 * (999 / 1000) / 100) (by norm_num)
    (by rw [div_le_div_iff_of_pos_right (by norm_num)]; exact hP)
  have hF := le_float64 50 (by norm_num)
  have hV := le_float64_of_le
    (float64 (float64 (float64 (float64 c / float64 t) * 100) / 100) * float64 50)
    (21 / 20 * (999 / 1001) * (999 / 1000) * 100 * (999 / 1000) / 100 * (999 / 1000)
      * (50 * (999 / 1000)))
    (by norm_num) (mul_le_mul hR2 hF (by norm_num) (le_trans (by norm_num) hR2))
  exact le_trans (by norm_num) hV

/-- A bar of a length from 0 to 50, fraction dropped, and the blanks after it:
both calls of `strings.Repeat` return. -/
theorem bar_fits (v : ℚ) (h0 : 0 ≤ v) (h1 : v < 51) :
    (match Repeat "=" (toInt v), Repeat " " ((50 : Int) - toInt v) with
      | some _, some _ => some ()
      | _, _ => none) = some () := by
  have hf0 : (0 : Int) ≤ ⌊v⌋ := Int.floor_nonneg.2 h0
  have hf1 : ⌊v⌋ ≤ (50 : Int) := by
    have : ⌊v⌋ < (51 : Int) := Int.floor_lt.2 (by exact_mod_cast h1)
    omega
  rw [toInt_of_nonneg v h0]
  have a1 : ¬ ⌊v⌋ < 0 := by omega
  have a2 : ¬ (50 : Int) - ⌊v⌋ < 0 := by omega
  simp only [Repeat, a1, a2, if_false]

/-- With the total 0 the bar is empty and `printProgress` returns. -/
theorem printProgress_zero (current : Nat) : printProgress current 0 = some () := by
  unfold printProgress
  simp only [Nat.lt_irrefl, if_false, zero_div, float64_zero, zero_mul]
  exact bar_fits 0 (le_refl _) (by norm_num)

/-- The bar and the rest of the line fit: when `current` is at most `total`,
`printProgress` returns. -/
theorem printProgress_ok (current total : Nat) (h : current ≤ total) :
    printProgress current total = some () := by
  by_cases ht : 0 < total
  · have hb := bar_small current total (Nat.cast_nonneg _) (by exact_mod_cast ht)
      (by exact_mod_cast h)
    unfold printProgress
    simp only [ht, if_true, Int.cast_ofNat]
    exact bar_fits _ hb.1 hb.2
  · have h0 : total = 0 := by omega
    subst h0
    exact printProgress_zero current

/-- The bar does not fit: when `current` is at least `21 / 20` of a positive
`total`, `strings.Repeat` is called with a negative count and
`printProgress` panics. -/
theorem printProgress_panic (current total : Nat) (ht : 0 < total)
    (h : 21 * total ≤ 20 * current) : printProgress current total = none := by
  have hb := bar_large current total (by exact_mod_cast ht) (by exact_mod_cast h)
  have h0 : (0 : ℚ) ≤ float64 (float64 (float64 (float64
      (float64 current / float64 total) * 100) / 100) * float64 50) := le_trans (by norm_num) hb
  have hf : (51 : Int) ≤ ⌊float64 (float64 (float64 (float64
      (float64 current / float64 total) * 100) / 100) * float64 50)⌋ :=
    Int.le_floor.2 (by exact_mod_cast hb)
  unfold printProgress
  simp only [ht, if_true, Int.cast_ofNat]
  rw [toInt_of_nonneg _ h0]
  have a2 : (50 : Int) - ⌊float64 (float64 (float64 (float64
      (float64 current / float64 total) * 100) / 100) * float64 50)⌋ < 0 := by omega
  simp only [Repeat, a2, if_true]
  split <;> simp_all

/-! ## The sender, whatever the network does -/

theorem Uint32_take_isSome (b : List Byte) (h : 4 ≤ b.length) :
    ∃ v, Uint32 (b.take 4) = some v := by
  match b, h with
  | b0 :: b1 :: b2 :: b3 :: tl, _ => exact ⟨_, rfl⟩

/-- The variables after a round that reads the acknowledgment, when the
progress fits its line. -/
theorem roundEnd_ok (total : Nat) (st : SendState) (h : st.sent + 4 ≤ total) :
    roundEnd total st true = (.ok, advance total st) := by
  simp only [roundEnd, if_true, printProgress_ok _ _ h]

/-- A round that reads the acknowledgment when `sent` has passed the total:
`printProgress` panics and `seq` stays. -/
theorem roundEnd_panic (total : Nat) (st : SendState) (ht : 0 < total)
    (h : 21 * total ≤ 20 * (st.sent + 4)) :
    roundEnd total st true = (.panic, report total st) := by
  simp only [roundEnd, if_true, printProgress_panic _ _ ht h]

theorem roundEnd_false (total : Nat) (st : SendState) :
    roundEnd total st false = (.ok, st) := rfl

/-- Four bytes per chunk never pass the length of a file that is empty or has
at least four bytes. -/
theorem numChunks_fits (src : List Byte) (h : src.length = 0 ∨ 4 ≤ src.length) :
    4 * numChunks src ≤ src.length := by
  simp only [numChunks, ChunkSize]
  omega

/-- The retry loop ends, normally or by the panic of `printProgress`: it never
lacks fuel, and the decoding of an acknowledgment is guarded by the test
`n >= 4` and cannot panic. -/
theorem retryLoop_flow {W : Type} (conn : UDPConn W) (addr : Addr) (packet : List Byte)
    (total : Nat) : ∀ (k : Nat) (st : SendState) (w : W),
      (retryLoop conn addr packet total k st w).1 ≠ .unfinished := by
  intro k
  induction k with
  | zero => intro st w; simp [retryLoop]
  | succ k ih =>
    intro st w
    rw [retryLoop]
    split
    · exact ih _ _
    · split
      · exact ih _ _
      · rename_i ackBuf _ _ _
        split
        · rename_i hlen
          obtain ⟨v, hv⟩ := Uint32_take_isSome ackBuf hlen
          rw [hv]
          simp only
          split
          · split <;> simp
          · exact ih _ _
        · exact ih _ _

/-- With fuel no less than the length of the unread part, the outer loop of
`Upload` ends, normally or by a panic, whatever the network does. -/
theorem uploadLoop_flow {W : Type} (conn : UDPConn W) (addr : Addr) (total : Nat) :
    ∀ (fuel : Nat) (rest : List Byte) (st : SendState) (w : W), rest.length ≤ fuel →
      (uploadLoop conn addr total fuel rest st w).1 ≠ .unfinished := by
  intro fuel
  induction fuel with
  | zero =>
    intro rest st w h
    have : rest = [] := List.length_eq_zero.1 (by omega)
    subst this
    simp [uploadLoop]
  | succ fuel ih =>
    intro rest st w h
    cases rest with
    | nil => simp [uploadLoop]
    | cons b bs =>
      have hr := retryLoop_flow conn addr (BuildPacket st.seq ((b :: bs).take ChunkSize)) total
        MaxRetries st w
      have hlen1 : ((b :: bs).drop ChunkSize).length ≤ fuel := by
        simp only [List.length_drop, List.length_cons, ChunkSize] at *
        omega
      simp only [uploadLoop]
      generalize retryLoop conn addr (BuildPacket st.seq ((b :: bs).take ChunkSize)) total
        MaxRetries st w = r at hr
      obtain ⟨f, st1, w1⟩ := r
      cases f with
      | ok => exact ih _ _ _ hlen1
      | panic => simp
      | unfinished => exact absurd rfl hr

/-- Once the file is open, `Upload` returns `nil` or panics, whatever the
network does: the fuel of the model never runs out. -/
theorem Upload_exit {W : Type} (conn : UDPConn W) (content : List Byte) (addr : Addr)
    (w : W) :
    (Upload conn (some content) addr w).exit = .nil ∨
    (Upload conn (some content) addr w).exit = .panic := by
  have h := uploadLoop_flow conn addr content.length content.length content
    { seq := 0, sent := 0, progress := [] } w (Nat.le_refl _)
  simp only [Upload]
  generalize uploadLoop conn addr content.length content.length content
    { seq := 0, sent := 0, progress := [] } w = r at h
  obtain ⟨f, st1, w1⟩ := r
  cases f with
  | ok => exact Or.inl rfl
  | panic => exact Or.inr rfl
  | unfinished => exact absurd rfl h

/-! ## The sender on the lossless channel -/

/-- An iteration that reads a datagram goes on to the next one or leaves the
loop by `break`; it neither returns an error nor panics. -/
theorem downloadBody_datagram (addr : Addr) (s : RecvState) (remote : Addr)
    (buf : List Byte) (wr : WriteResult) :
    (∃ s1, downloadBody addr s (.datagram remote buf wr) = .next s1) ∨
    (∃ s1, downloadBody addr s (.datagram remote buf wr) = .stop s1) := by
  cases h : isEOFFrom addr (.datagram remote buf wr) with
  | false => exact Or.inl (downloadBody_datagram_next addr s remote buf wr h)
  | true =>
    obtain ⟨hr, seq, hp⟩ := (isEOFFrom_iff addr remote buf wr).1 h
    subst hr
    exact Or.inr ⟨_, downloadBody_eof remote s buf wr seq hp⟩

/-- A run over datagrams that ends waiting for more goes on with what comes
next. -/
theorem downloadLoop_append_waiting (addr : Addr) (pre tr : List ReadEvent)
    (hpre : ∀ ev ∈ pre, isDatagram ev = true) :
    ∀ s : RecvState, (downloadLoop addr s pre).exit = .error .readTimeout →
      downloadLoop addr s (pre ++ tr) = downloadLoop addr (downloadLoop addr s pre).state tr := by
  induction pre with
  | nil => intro s _; simp [downloadLoop]
  | cons ev pre ih =>
    intro s hexit
    have ih1 := ih (fun e he => hpre e (List.mem_cons_of_mem _ he))
    have h1 := hpre ev (List.mem_cons_self _ _)
    cases ev with
    | failed => simp [isDatagram] at h1
    | datagram remote buf wr =>
      rcases downloadBody_datagram addr s remote buf wr with ⟨s1, hs1⟩ | ⟨s1, hs1⟩
      · rw [downloadLoop_next addr s s1 _ _ hs1] at hexit
        rw [List.cons_append, downloadLoop_next addr s s1 _ _ hs1,
          downloadLoop_next addr s s1 _ _ hs1]
        exact ih1 s1 hexit
      · rw [downloadLoop_stop addr s s1 _ _ hs1] at hexit
        simp at hexit

theorem Link.trace_datagrams (peer : Addr) (l : Link) :
    ∀ ev ∈ l.trace peer, isDatagram ev = true := by
  intro ev hev
  simp only [Link.trace, List.mem_map] at hev
  obtain ⟨p, -, rfl⟩ := hev
  rfl

/-- What the receiver makes of one more packet with the sequence number it
waits for: a chunk is written and acknowledged, an "EOF" payload is
acknowledged and ends the reception. -/
theorem receiver_push (peer : Addr) (l : Link) (st : SendState) (chunk : List Byte) (t : Nat)
    (hsync : Synced peer l st) (hseq : st.seq < 2 ^ 32) (hlen : chunk.length ≤ ChunkSize) :
    (chunk ≠ EOF →
      Link.receiver peer { wire := l.wire ++ [BuildPacket st.seq chunk], taken := t } =
        { state := { file := (l.receiver peer).state.file ++ chunk,
                     expectedSeq := (st.seq + 1) % 2 ^ 32,
                     acks := (l.receiver peer).state.acks ++ [(PutUint32 st.seq, peer)] },
          exit := .error .readTimeout, rest := [] }) ∧
    (chunk = EOF →
      Link.receiver peer { wire := l.wire ++ [BuildPacket st.seq chunk], taken := t } =
        { state := { file := (l.receiver peer).state.file,
                     expectedSeq := st.seq,
                     acks := (l.receiver peer).state.acks ++ [(PutUint32 st.seq, peer)] },
          exit := .nil, rest := [] }) := by
  obtain ⟨hexit, hexp, -⟩ := hsync
  have htake : (BuildPacket st.seq chunk).take (ChunkSize + 4) = BuildPacket st.seq chunk :=
    List.take_of_length_le (by rw [BuildPacket_length]; omega)
  have hp := ParsePacket_BuildPacket st.seq hseq chunk
  have hrun : Link.receiver peer { wire := l.wire ++ [BuildPacket st.seq chunk], taken := t } =
      downloadLoop peer (l.receiver peer).state
        [.datagram peer (BuildPacket st.seq chunk) .ok] := by
    have hexit1 : (downloadLoop peer recvInit (l.trace peer)).exit = .error .readTimeout := by
      simpa [Link.receiver, Download] using hexit
    simp only [Link.receiver, Download, if_true, Link.trace, List.map_append, List.map_cons,
      List.map_nil, htake]
    exact downloadLoop_append_waiting peer _ _ (Link.trace_datagrams peer l) recvInit hexit1
  constructor
  · intro hd
    rw [hrun, downloadLoop_next peer _ _ _ _
      (downloadBody_accept peer _ _ st.seq chunk hp hd hexp.symm), hexp]
    rfl
  · intro hd
    subst hd
    rw [hrun, downloadLoop_stop peer _ _ _ _ (downloadBody_eof peer _ _ _ st.seq hp)]
    simp [sendAck, hexp]

/-- On the lossless channel the first attempt for a chunk is acknowledged: the
packet goes on the wire once, the sender reads its acknowledgment, adds its
four bytes to `sent` and calls `printProgress`. -/
theorem retryLoop_lossless (peer dst : Addr) (total : Nat) (l : Link) (st : SendState)
    (chunk : List Byte) (hsync : Synced peer l st) (hseq : st.seq < 2 ^ 32)
    (hlen : chunk.length ≤ ChunkSize) :
    retryLoop (lossless peer dst) dst (BuildPacket st.seq chunk) total MaxRetries st l =
      ((roundEnd total st true).1, (roundEnd total st true).2,
        { wire := l.wire ++ [BuildPacket st.seq chunk], taken := l.taken + 1 }) := by
  have hacks : (Link.receiver peer
      { wire := l.wire ++ [BuildPacket st.seq chunk], taken := l.taken }).state.acks =
        (l.receiver peer).state.acks ++ [(PutUint32 st.seq, peer)] := by
    obtain ⟨h1, h2⟩ := receiver_push peer l st chunk l.taken hsync hseq hlen
    by_cases hd : chunk = EOF
    · rw [h2 hd]
    · rw [h1 hd]
  have hdrop : ((Link.receiver peer
      { wire := l.wire ++ [BuildPacket st.seq chunk], taken := l.taken }).state.acks.map
        Prod.fst).drop l.taken = [PutUint32 st.seq] := by
    rw [hacks, hsync.2.2, List.map_append, ← List.length_map (l.receiver peer).state.acks Prod.fst,
      List.drop_left]
    rfl
  have hdec : Uint32 ((PutUint32 st.seq).take 4) = some st.seq := by
    rw [List.take_of_length_le (by simp [PutUint32_length])]
    exact Uint32_PutUint32 st.seq hseq
  have hread : (lossless peer dst).ReadFromUDP 4
      { wire := l.wire ++ [BuildPacket st.seq chunk], taken := l.taken } =
        (some ((PutUint32 st.seq).take 4, dst),
          { wire := l.wire ++ [BuildPacket st.seq chunk], taken := l.taken + 1 }) := by
    have hdrop1 := hdrop
    simp only [Link.receiver] at hdrop1
    simp only [lossless, hdrop1]
  have hwrite : (lossless peer dst).WriteToUDP (BuildPacket st.seq chunk) dst l =
      (true, { wire := l.wire ++ [BuildPacket st.seq chunk], taken := l.taken }) := by
    simp [lossless]
  have hlen4 : 4 ≤ ((PutUint32 st.seq).take 4).length := by simp [PutUint32_length]
  have hlen5 : ((PutUint32 st.seq).take 4).length = 4 := by simp [PutUint32_length]
  show retryLoop (lossless peer dst) dst (BuildPacket st.seq chunk) total (4 + 1) st l = _
  rw [retryLoop]
  simp only [hwrite, hread, hlen4, if_true, List.take_take, Nat.min_self, hdec, hlen5,
    roundEnd, advance, report]
  cases printProgress (st.sent + 4) total <;> rfl

theorem uploadLoop_nil {W : Type} (conn : UDPConn W) (addr : Addr) (total fuel : Nat)
    (st : SendState) (w : W) : uploadLoop conn addr total fuel [] st w = (.ok, st, w) := by
  cases fuel <;> rfl

theorem synced_init (peer : Addr) :
    Synced peer { wire := [], taken := 0 } { seq := 0, sent := 0, progress := [] } := by
  refine ⟨?_, ?_, ?_⟩ <;> simp [Link.receiver, Link.trace, Download, downloadLoop, recvInit]

/-- The outer loop of `Upload` on the lossless channel, started with the
receiver waiting for the sequence number of the sender, fuel no less than
the length of the unread part, and `sent` far enough below the total for
four more bytes per chunk: it ends normally, having put on the wire the
chunks of the unread part, each once, numbered from `seq` on; when no chunk
is the three bytes "EOF" the receiver has appended the unread part to its
file and waits for the next sequence number. -/
theorem uploadLoop_lossless (peer dst : Addr) (total : Nat) :
    ∀ (fuel : Nat) (rest : List Byte) (st : SendState) (l : Link),
      rest.length ≤ fuel → st.seq < 2 ^ 32 → Synced peer l st →
      st.sent + 4 * numChunks rest ≤ total →
      ∃ st1 l1, uploadLoop (lossless peer dst) dst total fuel rest st l = (.ok, st1, l1) ∧
        l1.wire = l.wire ++ packetsFrom st.seq rest ∧
        st1.seq = (st.seq + numChunks rest) % 2 ^ 32 ∧
        st1.sent = st.sent + 4 * numChunks rest ∧
        (EOF ∉ chunks rest →
          Synced peer l1 st1 ∧
          (l1.receiver peer).state.file = (l.receiver peer).state.file ++ rest) := by
  intro fuel
  induction fuel with
  | zero =>
    intro rest st l hlen hseq hsync _
    have : rest = [] := List.length_eq_zero.1 (by omega)
    subst this
    refine ⟨st, l, uploadLoop_nil _ _ _ _ _ _, by simp [packetsFrom_nil], ?_, by simp [numChunks_nil],
      fun _ => ⟨hsync, by simp⟩⟩
    simp only [numChunks_nil]
    omega
  | succ fuel ih =>
    intro rest st l hlen hseq hsync hbar
    cases rest with
    | nil =>
      refine ⟨st, l, uploadLoop_nil _ _ _ _ _ _, by simp [packetsFrom_nil], ?_,
        by simp [numChunks_nil], fun _ => ⟨hsync, by simp⟩⟩
      simp only [numChunks_nil]
      omega
    | cons b bs =>
      have hchunk : ((b :: bs).take ChunkSize).length ≤ ChunkSize := by
        simp only [List.length_take]
        omega
      have hnum := numChunks_cons b bs
      have hretry := retryLoop_lossless peer dst total l st _ hsync hseq hchunk
      rw [roundEnd_ok total st (by omega)] at hretry
      have hpush := receiver_push peer l st ((b :: bs).take ChunkSize) (l.taken + 1)
        hsync hseq hchunk
      have hstep : uploadLoop (lossless peer dst) dst total (fuel + 1) (b :: bs) st l =
          uploadLoop (lossless peer dst) dst total fuel ((b :: bs).drop ChunkSize)
            { seq := (st.seq + 1) % 2 ^ 32, sent := st.sent + 4,
              progress := st.progress ++ [(st.sent + 4, total)] }
            { wire := l.wire ++ [BuildPacket st.seq ((b :: bs).take ChunkSize)],
              taken := l.taken + 1 } := by
        simp only [uploadLoop, hretry, advance]
      have hpk := packetsFrom_cons st.seq hseq b bs
      by_cases hd : (b :: bs).take ChunkSize = EOF
      · have hdrop := drop_of_take_eq_EOF _ hd
        rw [hdrop] at hstep hnum hpk
        rw [uploadLoop_nil] at hstep
        refine ⟨_, _, hstep, ?_, ?_, ?_, ?_⟩
        · rw [hpk, packetsFrom_nil]
        · simp only [hnum, numChunks_nil]
        · simp only [hnum, numChunks_nil]
        · intro hno
          exfalso
          apply hno
          rw [chunks_cons, hd]
          exact List.mem_cons_self _ _
      · have hrecv := hpush.1 hd
        have hsync1 : Synced peer
            { wire := l.wire ++ [BuildPacket st.seq ((b :: bs).take ChunkSize)],
              taken := l.taken + 1 }
            { seq := (st.seq + 1) % 2 ^ 32, sent := st.sent + 4,
              progress := st.progress ++ [(st.sent + 4, total)] } := by
          refine ⟨?_, ?_, ?_⟩
          · rw [hrecv]
          · rw [hrecv]
          · rw [hrecv]
            simp only [List.length_append, List.length_singleton]
            rw [hsync.2.2]
        have hlen1 : ((b :: bs).drop ChunkSize).length ≤ fuel := by
          simp only [List.length_drop, List.length_cons, ChunkSize] at *
          omega
        obtain ⟨st2, l2, h1, h2, h3, h4, h5⟩ := ih ((b :: bs).drop ChunkSize) _ _ hlen1
          (show (SendState.mk ((st.seq + 1) % 2 ^ 32) (st.sent + 4)
            (st.progress ++ [(st.sent + 4, total)])).seq < 2 ^ 32 from Nat.mod_lt _ (by decide))
          hsync1
          (show (SendState.mk ((st.seq + 1) % 2 ^ 32) (st.sent + 4)
            (st.progress ++ [(st.sent + 4, total)])).sent
              + 4 * numChunks ((b :: bs).drop ChunkSize) ≤ total by simp only; omega)
        refine ⟨st2, l2, hstep.trans h1, ?_, ?_, ?_, ?_⟩
        · rw [h2, hpk]
          simp
        · rw [h3, hnum]
          simp only
          omega
        · rw [h4, hnum]
          simp only
          omega
        · intro hno
          have hno1 : EOF ∉ chunks ((b :: bs).drop ChunkSize) := by
            intro hmem
            apply hno
            rw [chunks_cons]
            exact List.mem_cons_of_mem _ hmem
          obtain ⟨h6, h7⟩ := h5 hno1
          refine ⟨h6, ?_⟩
          rw [h7, hrecv]
          simp only [List.append_assoc, List.take_append_drop]

/-- Function `Upload` on the lossless channel, for a file that is empty or has
at least four bytes: it returns `nil`, having put on the wire the chunks of
the file numbered from 0, each once, followed by one packet with the payload
"EOF" and the next sequence number; when no chunk is the three bytes "EOF",
`Download` run on what was sent returns `nil` too with the content of the
file written. -/
theorem transfer_lossless (peer dst : Addr) (src : List Byte)
    (hlen : src.length = 0 ∨ 4 ≤ src.length) :
    (transfer peer dst src).exit = .nil ∧
    (transfer peer dst src).world.wire =
      packetsFrom 0 src ++ [BuildPacket (numChunks src % 2 ^ 32) EOF] ∧
    (transfer peer dst src).state.seq = numChunks src % 2 ^ 32 ∧
    (transfer peer dst src).state.sent = 4 * numChunks src ∧
    (EOF ∉ chunks src →
      (Download true peer ((transfer peer dst src).world.trace peer)).exit = .nil ∧
      (Download true peer ((transfer peer dst src).world.trace peer)).state.file = src ∧
      (Download true peer ((transfer peer dst src).world.trace peer)).rest = []) := by
  obtain ⟨st1, l1, h1, h2, h3, h4, h5⟩ := uploadLoop_lossless peer dst src.length src.length src
    { seq := 0, sent := 0, progress := [] } { wire := [], taken := 0 } (Nat.le_refl _)
    (by decide) (synced_init peer) (by simpa using numChunks_fits src hlen)
  have hseq1 : st1.seq < 2 ^ 32 := by
    rw [h3]
    exact Nat.mod_lt _ (by decide)
  simp only [Nat.zero_add, List.nil_append] at h2 h3 h4
  have hw : (transfer peer dst src).world =
      { wire := l1.wire ++ [BuildPacket st1.seq EOF], taken := l1.taken } := by
    simp only [transfer, Upload, h1]
    simp [lossless]
  have he : (transfer peer dst src).exit = .nil := by
    simp only [transfer, Upload, h1]
  have hs : (transfer peer dst src).state = st1 := by
    simp only [transfer, Upload, h1]
  refine ⟨he, ?_, ?_, ?_, ?_⟩
  · rw [hw, h2, h3]
  · rw [hs, h3]
  · rw [hs, h4]
  · intro hno
    obtain ⟨h6, h7⟩ := h5 hno
    have hpush := (receiver_push peer l1 st1 EOF l1.taken h6 hseq1 (by decide)).2 rfl
    rw [hw]
    simp only [Link.receiver] at hpush h7
    rw [hpush]
    refine ⟨rfl, ?_, rfl⟩
    simp only [h7]
    simp [Download, Link.trace, downloadLoop, recvInit]

/-- Function `Upload` on the lossless channel, for a file of one to three
bytes: its only chunk goes on the wire once and is acknowledged, `sent`
becomes 4, more than the size of the file, and `printProgress` panics; no
"EOF" packet is sent.  `Download` has written the chunk, unless it is the
three bytes "EOF", which it takes for the end marker. -/
theorem transfer_small (peer dst : Addr) (src : List Byte) (h1 : 1 ≤ src.length)
    (h3 : src.length ≤ 3) :
    (transfer peer dst src).exit = .panic ∧
    (transfer peer dst src).world = { wire := [BuildPacket 0 src], taken := 1 } ∧
    (transfer peer dst src).state = { seq := 0, sent := 4, progress := [(4, src.length)] } ∧
    (src ≠ EOF →
      Download true peer ((transfer peer dst src).world.trace peer) =
        { state := { file := src, expectedSeq := 1, acks := [(PutUint32 0, peer)] },
          exit := .error .readTimeout, rest := [] }) ∧
    (src = EOF →
      Download true peer ((transfer peer dst src).world.trace peer) =
        { state := { file := [], expectedSeq := 0, acks := [(PutUint32 0, peer)] },
          exit := .nil, rest := [] }) := by
  cases src with
  | nil => simp at h1
  | cons b bs =>
    have htake : (b :: bs).take ChunkSize = b :: bs :=
      List.take_of_length_le (by simp only [ChunkSize]; omega)
    have hchunk : (b :: bs).length ≤ ChunkSize := by simp only [ChunkSize]; omega
    have hretry := retryLoop_lossless peer dst (b :: bs).length { wire := [], taken := 0 }
      { seq := 0, sent := 0, progress := [] } (b :: bs) (synced_init peer) (by decide) hchunk
    rw [roundEnd_panic (b :: bs).length { seq := 0, sent := 0, progress := [] } (by omega)
      (by simp only; omega)] at hretry
    have hup : uploadLoop (lossless peer dst) dst (b :: bs).length (b :: bs).length (b :: bs)
        { seq := 0, sent := 0, progress := [] } { wire := [], taken := 0 } =
        (.panic, { seq := 0, sent := 4, progress := [((4 : Nat), (b :: bs).length)] },
          { wire := [BuildPacket 0 (b :: bs)], taken := 1 }) := by
      show uploadLoop (lossless peer dst) dst (b :: bs).length (bs.length + 1) (b :: bs) _ _ = _
      simp only [uploadLoop, htake, hretry]
      rfl
    have hw : (transfer peer dst (b :: bs)).world =
        { wire := [BuildPacket 0 (b :: bs)], taken := 1 } := by
      simp only [transfer, Upload, hup]
    have hpush := receiver_push peer { wire := [], taken := 0 }
      { seq := 0, sent := 0, progress := [] } (b :: bs) 1 (synced_init peer) (by decide) hchunk
    have h0 : Link.receiver peer { wire := [], taken := 0 } =
        { state := recvInit, exit := .error .readTimeout, rest := [] } := by
      simp [Link.receiver, Link.trace, Download, downloadLoop]
    simp only [List.nil_append, h0, recvInit] at hpush
    refine ⟨by simp only [transfer, Upload, hup], hw, by simp only [transfer, Upload, hup], ?_, ?_⟩
    · intro hd
      rw [hw]
      exact hpush.1 hd
    · intro hd
      rw [hw]
      exact hpush.2 hd

/-! ## Claims on the receiver -/

/-- C5 as stated fails where the counter wraps: in the state with
`expectedSeq = 4294967295`, the well-formed packet of that `seq` from the peer
is accepted and `expectedSeq` becomes 0, not 4294967296.  That state is the
one `Download` is in after accepting the packets numbered 0 to 4294967294. -/
theorem C5_counterexample :
    ParsePacket (BuildPacket 4294967295 [1]) = some (4294967295, some [1]) ∧
    downloadBody "10.0.0.2:8000" { file := [], expectedSeq := 4294967295, acks := [] }
        (.datagram "10.0.0.2:8000" (BuildPacket 4294967295 [1]) .ok)
      = .next { file := [1], expectedSeq := 0,
                acks := [([255, 255, 255, 255], "10.0.0.2:8000")] } ∧
    (0 : Nat) ≠ 4294967295 + 1 ∧
    (Download true "10.0.0.2:8000" (countTrace "10.0.0.2:8000" 4294967295)).state.expectedSeq
      = 4294967295 := by
  refine ⟨by decide, by decide, by decide, ?_⟩
  have h := downloadLoop_countTrace "10.0.0.2:8000" 4294967295 (by decide)
  simp only [Download, if_true, h]
  decide

/-- C5, amended: `expectedSeq` is a `uint32` and advances modulo `2 ^ 32`.
For every receiver state and every well-formed packet from the expected peer
whose payload is not "EOF": if `seq` equals `expectedSeq` and the write
succeeds, the payload is appended to the file, `expectedSeq` becomes
`(expectedSeq + 1) mod 2 ^ 32` and the acknowledgment of `seq` is sent to the
peer; if the write fails, `expectedSeq` and the acknowledgments stay as they
are; if `seq` differs from `expectedSeq`, the file and `expectedSeq` stay as
they are.  Consequently, after any trace on which no write fails, the
packets accepted form a subsequence of the trace numbered `0, 1, 2, ...`
modulo `2 ^ 32`, `expectedSeq` is their number modulo `2 ^ 32` and the file is
the concatenation of their payloads in that order. -/
theorem C5_in_order_acceptance :
    (∀ (addr : Addr) (s : RecvState) (buf : List Byte) (seq : Nat) (data : List Byte),
      ParsePacket buf = some (seq, some data) → data ≠ EOF →
      (seq = s.expectedSeq →
        downloadBody addr s (.datagram addr buf .ok) =
          .next { file := s.file ++ data, expectedSeq := (s.expectedSeq + 1) % 2 ^ 32,
                  acks := s.acks ++ [(PutUint32 seq, addr)] }) ∧
      (∀ n, seq = s.expectedSeq →
        downloadBody addr s (.datagram addr buf (.short n)) =
          .next { s with file := s.file ++ data.take n }) ∧
      (∀ wr, seq ≠ s.expectedSeq →
        ∃ s1, downloadBody addr s (.datagram addr buf wr) = .next s1 ∧
          s1.file = s.file ∧ s1.expectedSeq = s.expectedSeq)) ∧
    (∀ (addr : Addr) (trace : List ReadEvent), (∀ ev ∈ trace, writeOk ev = true) →
      ∃ acc : List (Nat × List Byte),
        (acc.map (packetFrom addr)).Sublist trace ∧
        (∀ i p, acc[i]? = some p → p.1 = i % 2 ^ 32 ∧ p.2 ≠ EOF) ∧
        (Download true addr trace).state.expectedSeq = acc.length % 2 ^ 32 ∧
        (Download true addr trace).state.file = (acc.map Prod.snd).flatten) := by
  constructor
  · intro addr s buf seq data hp hd
    refine ⟨fun hs => downloadBody_accept addr s buf seq data hp hd hs,
      fun n hs => downloadBody_write_failed addr s buf seq data n hp hd hs, ?_⟩
    intro wr hne
    rcases Nat.lt_or_gt_of_ne hne with hlt | hgt
    · exact ⟨_, downloadBody_old addr s buf wr seq data hp hd hlt, rfl, rfl⟩
    · exact ⟨_, downloadBody_gap addr s buf wr seq data hp hd hgt, rfl, rfl⟩
  · intro addr trace hw
    obtain ⟨acc, h1, h2, h3, h4⟩ :=
      downloadLoop_accepted addr trace hw recvInit (by simp [recvInit])
    refine ⟨acc, h1, ?_, ?_, ?_⟩
    · intro i p hi
      have := h2 i p hi
      simpa [recvInit] using this
    · simpa [Download, recvInit] using h3
    · simpa [Download, recvInit] using h4

/-- Instance of C5: from the fresh state the packet `(0, [7])` of the peer is
accepted, and `Download` over the trace of that one packet ends with
`expectedSeq = 1` and the file `[7]`. -/
theorem C5_in_order_acceptance_witness :
    downloadBody "10.0.0.2:8000" recvInit (.datagram "10.0.0.2:8000" (BuildPacket 0 [7]) .ok)
      = .next { file := recvInit.file ++ [7], expectedSeq := (recvInit.expectedSeq + 1) % 2 ^ 32,
                acks := recvInit.acks ++ [(PutUint32 0, "10.0.0.2:8000")] } ∧
    (Download true "10.0.0.2:8000" [packetFrom "10.0.0.2:8000" (0, [7])]).state
      = { file := [7], expectedSeq := 1, acks := [([0, 0, 0, 0], "10.0.0.2:8000")] } :=
  ⟨(C5_in_order_acceptance.1 "10.0.0.2:8000" recvInit (BuildPacket 0 [7]) 0 [7]
      (by decide) (by decide)).1 (by decide), by decide⟩

/-- C6: idempotence under retransmission.  For every receiver state, a data
packet from the expected peer whose `seq` is below `expectedSeq` leaves the
file and `expectedSeq` as they are and makes `Download` send exactly one
acknowledgment, to the peer: the four bytes that are the big-endian encoding
of that `seq`. -/
theorem C6_retransmission_idempotent (addr : Addr) (s : RecvState) (buf : List Byte)
    (wr : WriteResult) (seq : Nat) (data : List Byte)
    (hp : ParsePacket buf = some (seq, some data)) (hd : data ≠ EOF)
    (hs : seq < s.expectedSeq) :
    downloadBody addr s (.datagram addr buf wr) =
      .next { file := s.file, expectedSeq := s.expectedSeq,
              acks := s.acks ++ [(PutUint32 seq, addr)] } ∧
    (PutUint32 seq).length = 4 ∧ Uint32 (PutUint32 seq) = some seq := by
  obtain ⟨-, hlt, -⟩ := ParsePacket_some_inv buf seq data hp
  exact ⟨downloadBody_old addr s buf wr seq data hp hd hs, rfl, Uint32_PutUint32 seq hlt⟩

/-- Instance of C6: with `expectedSeq = 3`, the packet `(1, [9])` is
acknowledged again and not written. -/
theorem C6_retransmission_idempotent_witness :
    downloadBody "10.0.0.2:8000" { file := [5, 6, 7], expectedSeq := 3, acks := [] }
        (.datagram "10.0.0.2:8000" [0, 0, 0, 1, 9] .ok)
      = .next { file := [5, 6, 7], expectedSeq := 3,
                acks := [] ++ [(PutUint32 1, "10.0.0.2:8000")] } ∧
    (PutUint32 1).length = 4 ∧ Uint32 (PutUint32 1) = some 1 :=
  C6_retransmission_idempotent "10.0.0.2:8000" { file := [5, 6, 7], expectedSeq := 3, acks := [] }
    [0, 0, 0, 1, 9] .ok 1 [9] (by decide) (by decide) (by decide)

/-- C7: a gap is dropped.  For every receiver state and every packet from the
expected peer whose payload is not "EOF" and whose `seq` is above
`expectedSeq`, the iteration changes nothing (no write, no acknowledgment,
same `expectedSeq`, nothing kept of the packet), so the whole run is the run
without that packet. -/
theorem C7_gap_dropped (addr : Addr) (s : RecvState) (buf : List Byte)
    (wr : WriteResult) (seq : Nat) (data : List Byte) (tr : List ReadEvent)
    (hp : ParsePacket buf = some (seq, some data)) (hd : data ≠ EOF)
    (hs : s.expectedSeq < seq) :
    downloadBody addr s (.datagram addr buf wr) = .next s ∧
    downloadLoop addr s (.datagram addr buf wr :: tr) = downloadLoop addr s tr := by
  have h := downloadBody_gap addr s buf wr seq data hp hd hs
  exact ⟨h, downloadLoop_next addr s s _ tr h⟩

/-- Instance of C7: with `expectedSeq = 1`, the packet `(2, [9])` is dropped. -/
theorem C7_gap_dropped_witness :
    downloadBody "10.0.0.2:8000" { file := [5], expectedSeq := 1, acks := [] }
        (.datagram "10.0.0.2:8000" [0, 0, 0, 2, 9] .ok)
      = .next { file := [5], expectedSeq := 1, acks := [] } ∧
    downloadLoop "10.0.0.2:8000" { file := [5], expectedSeq := 1, acks := [] }
        (.datagram "10.0.0.2:8000" [0, 0, 0, 2, 9] .ok :: [])
      = downloadLoop "10.0.0.2:8000" { file := [5], expectedSeq := 1, acks := [] } [] :=
  C7_gap_dropped "10.0.0.2:8000" { file := [5], expectedSeq := 1, acks := [] }
    [0, 0, 0, 2, 9] .ok 2 [9] [] (by decide) (by decide) (by decide)

/-- C8: peer isolation.  For every trace, `Download` ends with the same file,
the same `expectedSeq`, the same list of acknowledgments and the same result
as on the trace without the datagrams from other addresses, and what it
leaves unread differs by those datagrams only; every acknowledgment is
addressed to the expected peer; an iteration that reads a datagram from
another address changes nothing. -/
theorem C8_peer_isolation (created : Bool) (addr : Addr) (trace : List ReadEvent) :
    (Download created addr (trace.filter (notForeign addr))).state
        = (Download created addr trace).state ∧
    (Download created addr (trace.filter (notForeign addr))).exit
        = (Download created addr trace).exit ∧
    (Download created addr (trace.filter (notForeign addr))).rest
        = (Download created addr trace).rest.filter (notForeign addr) ∧
    (∀ a ∈ (Download created addr trace).state.acks, a.2 = addr) ∧
    (∀ (s : RecvState) (remote : Addr) (buf : List Byte) (wr : WriteResult), remote ≠ addr →
      downloadBody addr s (.datagram remote buf wr) = .next s) := by
  cases created with
  | false =>
    refine ⟨rfl, rfl, rfl, ?_, fun s remote buf wr h => downloadBody_foreign addr s remote buf wr h⟩
    simp [Download, recvInit]
  | true =>
    obtain ⟨h1, h2, h3⟩ := downloadLoop_filter addr trace recvInit
    refine ⟨by simpa [Download] using h1, by simpa [Download] using h2,
      by simpa [Download] using h3, ?_,
      fun s remote buf wr h => downloadBody_foreign addr s remote buf wr h⟩
    have := downloadLoop_acks_addr addr trace recvInit (by simp [recvInit])
    simpa [Download] using this

/-- Instance of C8: a foreign packet with the expected `seq` between two
packets of the peer is neither written nor acknowledged. -/
theorem C8_peer_isolation_witness :
    (Download true "10.0.0.2:8000"
        [.datagram "10.0.0.2:8000" [0, 0, 0, 0, 1] .ok,
         .datagram "10.6.6.6:999" [0, 0, 0, 1, 2] .ok,
         .datagram "10.0.0.2:8000" [0, 0, 0, 1, 3] .ok]).state
      = { file := [1, 3], expectedSeq := 2,
          acks := [([0, 0, 0, 0], "10.0.0.2:8000"), ([0, 0, 0, 1], "10.0.0.2:8000")] } ∧
    (Download true "10.0.0.2:8000"
        ([.datagram "10.0.0.2:8000" [0, 0, 0, 0, 1] .ok,
          .datagram "10.6.6.6:999" [0, 0, 0, 1, 2] .ok,
          .datagram "10.0.0.2:8000" [0, 0, 0, 1, 3] .ok].filter (notForeign "10.0.0.2:8000"))).state
      = (Download true "10.0.0.2:8000"
        [.datagram "10.0.0.2:8000" [0, 0, 0, 0, 1] .ok,
         .datagram "10.6.6.6:999" [0, 0, 0, 1, 2] .ok,
         .datagram "10.0.0.2:8000" [0, 0, 0, 1, 3] .ok]).state :=
  ⟨by decide, (C8_peer_isolation true "10.0.0.2:8000" _).1⟩

/-- C9: the "EOF" handshake.  On a trace of datagrams, `Download` stops at the
first well-formed packet from the expected peer whose payload is "EOF": it
has processed all that comes before, sends the acknowledgment of that
packet's `seq` as its last output, writes nothing for it, returns `nil`, and
leaves all that comes after it unread.  It does not stop earlier: on the
part of the trace before that packet alone it reads every datagram and is
still waiting when the read deadline passes. -/
theorem C9_eof_handshake (addr : Addr) (pre post : List ReadEvent) (buf : List Byte)
    (wr : WriteResult) (seq : Nat)
    (hpre : ∀ ev ∈ pre, isDatagram ev = true ∧ isEOFFrom addr ev = false)
    (hp : ParsePacket buf = some (seq, some EOF)) :
    Download true addr (pre ++ .datagram addr buf wr :: post) =
      { state := { file := (Download true addr pre).state.file,
                   expectedSeq := (Download true addr pre).state.expectedSeq,
                   acks := (Download true addr pre).state.acks ++ [(PutUint32 seq, addr)] },
        exit := .nil,
        rest := post } ∧
    (Download true addr pre).exit = .error .readTimeout ∧
    (Download true addr pre).rest = [] := by
  simp only [Download, if_true]
  refine ⟨?_, (downloadLoop_waiting addr pre hpre recvInit).1,
    (downloadLoop_waiting addr pre hpre recvInit).2⟩
  rw [downloadLoop_append addr pre _ hpre recvInit,
    downloadLoop_stop addr _ _ _ post (downloadBody_eof addr _ buf wr seq hp)]
  rfl

/-- Instance of C9: one data packet, the "EOF" packet, and a packet that stays
unread. -/
theorem C9_eof_handshake_witness :
    Download true "10.0.0.2:8000"
        ([.datagram "10.0.0.2:8000" [0, 0, 0, 0, 1] .ok] ++
          .datagram "10.0.0.2:8000" [0, 0, 0, 1, 69, 79, 70] .ok ::
          [.datagram "10.0.0.2:8000" [0, 0, 0, 1, 8] .ok])
      = { state := { file := [1], expectedSeq := 1,
                     acks := [([0, 0, 0, 0], "10.0.0.2:8000"), ([0, 0, 0, 1], "10.0.0.2:8000")] },
          exit := .nil,
          rest := [.datagram "10.0.0.2:8000" [0, 0, 0, 1, 8] .ok] } := by
  have h := C9_eof_handshake "10.0.0.2:8000" [.datagram "10.0.0.2:8000" [0, 0, 0, 0, 1] .ok]
    [.datagram "10.0.0.2:8000" [0, 0, 0, 1, 8] .ok] [0, 0, 0, 1, 69, 79, 70] .ok 1
    (by decide) (by decide)
  rw [h.1]
  decide

/-! ## Claims on the transfer over a lossless channel -/

/-- A run of the receiver that has returned `nil` is not changed by what
arrives later. -/
theorem downloadLoop_append_done (addr : Addr) (pre tr : List ReadEvent) :
    ∀ s : RecvState, (downloadLoop addr s pre).exit = .nil →
      downloadLoop addr s (pre ++ tr) =
        { state := (downloadLoop addr s pre).state, exit := .nil,
          rest := (downloadLoop addr s pre).rest ++ tr } := by
  induction pre with
  | nil => intro s h; simp [downloadLoop] at h
  | cons ev pre ih =>
    intro s h
    simp only [downloadLoop, List.cons_append] at h ⊢
    cases hb : downloadBody addr s ev with
    | next s1 =>
      simp only [hb] at h ⊢
      exact ih s1 h
    | stop s1 =>
      simp only [hb]
      rfl
    | fail s1 => simp [hb] at h
    | panic s1 => simp [hb] at h

theorem packetsFrom_length (seq0 : Nat) (src : List Byte) :
    (packetsFrom seq0 src).length = numChunks src := by
  simp [packetsFrom]

/-- The data packets `Upload` puts on the wire of the lossless channel are the
chunks of the file, numbered from 0 and each sent once, whatever the size of
the file. -/
theorem transfer_wire_data (peer dst : Addr) (src : List Byte) :
    (transfer peer dst src).world.wire.take (numChunks src) = packetsFrom 0 src := by
  by_cases hlen : src.length = 0 ∨ 4 ≤ src.length
  · rw [(transfer_lossless peer dst src hlen).2.1, List.take_left' (packetsFrom_length 0 src)]
  · have h1 : 1 ≤ src.length := by omega
    have h3 : src.length ≤ 3 := by omega
    rw [(transfer_small peer dst src h1 h3).2.1]
    cases src with
    | nil => simp at h1
    | cons b bs =>
      have hd : (b :: bs).drop ChunkSize = [] :=
        List.drop_eq_nil_of_le (by simp only [ChunkSize]; omega)
      have ht : (b :: bs).take ChunkSize = b :: bs :=
        List.take_of_length_le (by simp only [ChunkSize]; omega)
      rw [numChunks_cons, packetsFrom_cons 0 (by decide), hd, ht, numChunks_nil, packetsFrom_nil]
      rfl

/-- A file made of one full chunk followed by the three bytes "EOF", on the
lossless channel: `Upload` sends the two chunks and the end marker and
returns `nil`; `Download` writes the first chunk, takes the second for the
end marker, and returns `nil` without the last three bytes. -/
theorem transfer_eof_tail (peer dst : Addr) (z : List Byte) (hz : z.length = ChunkSize) :
    (transfer peer dst (z ++ EOF)).exit = .nil ∧
    (transfer peer dst (z ++ EOF)).world.wire
      = [BuildPacket 0 z, BuildPacket 1 EOF, BuildPacket 2 EOF] ∧
    (Download true peer ((transfer peer dst (z ++ EOF)).world.trace peer)).exit = .nil ∧
    (Download true peer ((transfer peer dst (z ++ EOF)).world.trace peer)).state.file = z := by
  have hlen : (z ++ EOF).length = 8195 := by
    rw [List.length_append, hz]
    rfl
  have hnum : numChunks (z ++ EOF) = 2 := by
    simp only [numChunks, hlen, ChunkSize]
  have hc0 : chunkAt (z ++ EOF) 0 = z := by
    rw [chunkAt_zero]
    exact List.take_left' hz
  have hc1 : chunkAt (z ++ EOF) 1 = EOF := by
    rw [chunkAt, Nat.one_mul, List.drop_left' hz]
    rfl
  have hpk : packetsFrom 0 (z ++ EOF) = [BuildPacket 0 z, BuildPacket 1 EOF] := by
    simp only [packetsFrom, hnum, List.range_succ, List.range_zero, List.nil_append,
      List.map_append, List.map_cons, List.map_nil, hc0, hc1, List.cons_append]
    rfl
  obtain ⟨h1, h2, -, -, -⟩ := transfer_lossless peer dst (z ++ EOF) (Or.inr (by omega))
  rw [hpk, hnum] at h2
  have hw : (transfer peer dst (z ++ EOF)).world.wire
      = [BuildPacket 0 z, BuildPacket 1 EOF, BuildPacket 2 EOF] := h2
  have hzne : z ≠ EOF := by
    intro h
    have := congrArg List.length h
    rw [hz] at this
    exact absurd this (by decide)
  have hr1 := fun t => (receiver_push peer { wire := [], taken := 0 }
    { seq := 0, sent := 0, progress := [] } z t (synced_init peer) (by decide)
    (by omega)).1 hzne
  have h0 : Link.receiver peer { wire := [], taken := 0 } =
      { state := recvInit, exit := .error .readTimeout, rest := [] } := by
    simp [Link.receiver, Link.trace, Download, downloadLoop]
  simp only [List.nil_append, h0, recvInit] at hr1
  have hs1 : Synced peer { wire := [BuildPacket 0 z], taken := 1 }
      { seq := 1, sent := 0, progress := [] } := by
    refine ⟨?_, ?_, ?_⟩
    · rw [hr1]
    · rw [hr1]
      rfl
    · rw [hr1]
      rfl
  have hr2 := (receiver_push peer { wire := [BuildPacket 0 z], taken := 1 }
    { seq := 1, sent := 0, progress := [] } EOF 0 hs1 (by decide) (by decide)).2 rfl
  rw [hr1] at hr2
  simp only [List.singleton_append, List.nil_append] at hr2
  have hex : (downloadLoop peer recvInit
      (Link.trace peer { wire := [BuildPacket 0 z, BuildPacket 1 EOF], taken := 0 })).exit
      = .nil := by
    have := congrArg DownloadResult.exit hr2
    simpa [Link.receiver, Download] using this
  have hfile : (downloadLoop peer recvInit
      (Link.trace peer { wire := [BuildPacket 0 z, BuildPacket 1 EOF], taken := 0 })).state.file
      = z := by
    have := congrArg (fun r => r.state.file) hr2
    simpa [Link.receiver, Download] using this
  have hD := downloadLoop_append_done peer
    (Link.trace peer { wire := [BuildPacket 0 z, BuildPacket 1 EOF], taken := 0 })
    [.datagram peer ((BuildPacket 2 EOF).take (ChunkSize + 4)) .ok] recvInit hex
  have hD1 : Download true peer ((transfer peer dst (z ++ EOF)).world.trace peer) =
      downloadLoop peer recvInit
        (Link.trace peer { wire := [BuildPacket 0 z, BuildPacket 1 EOF], taken := 0 } ++
          [.datagram peer ((BuildPacket 2 EOF).take (ChunkSize + 4)) .ok]) := by
    simp only [Download, if_true, Link.trace, hw, List.map_cons, List.map_nil, List.cons_append,
      List.nil_append]
  refine ⟨h1, hw, ?_, ?_⟩
  · rw [hD1, hD]
  · rw [hD1, hD]
    exact hfile

/-- C1 as stated fails for a source whose last chunk is the three bytes "EOF".
For the source of 8192 zero bytes followed by "EOF", `Upload` sends the two
chunks and the end marker and returns `nil`; `Download` writes the first
chunk, takes the second for the end marker, acknowledges it and returns
`nil` with a file of 8192 bytes, three short of the source.  For the
three-byte source "EOF" `Download` returns `nil` with an empty file (and
`Upload` panics in `printProgress`, as for every file of one to three bytes
whose chunk is acknowledged). -/
theorem C1_counterexample :
    (transfer "10.0.0.2:8000" "10.0.0.1:8000" (List.replicate 8192 0 ++ EOF)).exit
      = .nil ∧
    (transfer "10.0.0.2:8000" "10.0.0.1:8000" (List.replicate 8192 0 ++ EOF)).world.wire
      = [BuildPacket 0 (List.replicate 8192 0), BuildPacket 1 EOF, BuildPacket 2 EOF] ∧
    (Download true "10.0.0.2:8000"
      ((transfer "10.0.0.2:8000" "10.0.0.1:8000"
        (List.replicate 8192 0 ++ EOF)).world.trace "10.0.0.2:8000")).exit = .nil ∧
    (Download true "10.0.0.2:8000"
      ((transfer "10.0.0.2:8000" "10.0.0.1:8000"
        (List.replicate 8192 0 ++ EOF)).world.trace "10.0.0.2:8000")).state.file
      = List.replicate 8192 0 ∧
    List.replicate 8192 (0 : Byte) ≠ List.replicate 8192 0 ++ EOF ∧
    (transfer "10.0.0.2:8000" "10.0.0.1:8000" [69, 79, 70]).exit = .panic ∧
    (transfer "10.0.0.2:8000" "10.0.0.1:8000" [69, 79, 70]).world.wire
      = [[0, 0, 0, 0, 69, 79, 70]] ∧
    Download true "10.0.0.2:8000"
        ((transfer "10.0.0.2:8000" "10.0.0.1:8000" [69, 79, 70]).world.trace "10.0.0.2:8000")
      = { state := { file := [], expectedSeq := 0, acks := [([0, 0, 0, 0], "10.0.0.2:8000")] },
          exit := .nil, rest := [] } ∧
    ([] : List Byte) ≠ [69, 79, 70] := by
  obtain ⟨h1, h2, h3, h4⟩ := transfer_eof_tail "10.0.0.2:8000" "10.0.0.1:8000"
    (List.replicate 8192 0) (List.length_replicate _ _)
  obtain ⟨s1, s2, -, -, s5⟩ := transfer_small "10.0.0.2:8000" "10.0.0.1:8000" [69, 79, 70]
    (by decide) (by decide)
  refine ⟨h1, h2, h3, h4, ?_, s1, ?_, s5 rfl, by decide⟩
  · intro h
    have := congrArg List.length h
    rw [List.length_append, List.length_replicate] at this
    exact absurd this (by simp [EOF])
  · rw [s2]
    rfl

/-- C1, amended: for every byte source, the empty one included, none of whose
consecutive chunks of `ChunkSize` bytes is exactly the three bytes "EOF",
running `Upload` against `Download` over the lossless channel leaves the
file of the receiver equal to the source, byte for byte.  The chunks have at
most `ChunkSize` bytes and concatenate to the source; the data packets sent
are the chunks in order, numbered from 0 modulo `2 ^ 32`.  When the source is
empty or has at least four bytes the "EOF" packet follows and both `Upload`
and `Download` return `nil`.  When it has one to three bytes `Upload` panics
in `printProgress` once the chunk is acknowledged, so no "EOF" packet is
sent and `Download`, its file complete, waits until its deadline passes. -/
theorem C1_lossless_transfer (peer dst : Addr) (src : List Byte) (h : EOF ∉ chunks src) :
    (Download true peer ((transfer peer dst src).world.trace peer)).state.file = src ∧
    (transfer peer dst src).world.wire.take (numChunks src) =
      (List.range (numChunks src)).map (fun i => BuildPacket (i % 2 ^ 32) (chunkAt src i)) ∧
    (∀ i, (chunkAt src i).length ≤ ChunkSize) ∧
    ((List.range (numChunks src)).map (chunkAt src)).flatten = src ∧
    (src.length = 0 ∨ 4 ≤ src.length →
      (transfer peer dst src).exit = .nil ∧
      (Download true peer ((transfer peer dst src).world.trace peer)).exit = .nil ∧
      (transfer peer dst src).world.wire =
        (List.range (numChunks src)).map (fun i => BuildPacket (i % 2 ^ 32) (chunkAt src i))
          ++ [BuildPacket (numChunks src % 2 ^ 32) EOF]) ∧
    (1 ≤ src.length → src.length ≤ 3 →
      (transfer peer dst src).exit = .panic ∧
      (transfer peer dst src).world.wire = [BuildPacket 0 src] ∧
      (Download true peer ((transfer peer dst src).world.trace peer)).exit
        = .error .readTimeout) := by
  have hpk : packetsFrom 0 src =
      (List.range (numChunks src)).map (fun i => BuildPacket (i % 2 ^ 32) (chunkAt src i)) := by
    simp [packetsFrom]
  have hne : 1 ≤ src.length → src.length ≤ 3 → src ≠ EOF := by
    intro h1 h3 he
    apply h
    rw [he]
    decide
  refine ⟨?_, ?_, chunkAt_length_le src, chunks_flatten src, ?_, ?_⟩
  · by_cases hlen : src.length = 0 ∨ 4 ≤ src.length
    · exact ((transfer_lossless peer dst src hlen).2.2.2.2 h).2.1
    · have h1 : 1 ≤ src.length := by omega
      have h3 : src.length ≤ 3 := by omega
      rw [(transfer_small peer dst src h1 h3).2.2.2.1 (hne h1 h3)]
  · rw [transfer_wire_data, hpk]
  · intro hlen
    obtain ⟨h1, h2, -, -, h4⟩ := transfer_lossless peer dst src hlen
    refine ⟨h1, (h4 h).1, ?_⟩
    rw [h2, hpk]
  · intro h1 h3
    obtain ⟨s1, s2, -, s4, -⟩ := transfer_small peer dst src h1 h3
    refine ⟨s1, by rw [s2], ?_⟩
    rw [s4 (hne h1 h3)]

/-- Instance of C1 at the four-byte source `[1, 2, 3, 4]`. -/
theorem C1_lossless_transfer_witness :
    EOF ∉ chunks [1, 2, 3, 4] ∧
    (Download true "10.0.0.2:8000"
      ((transfer "10.0.0.2:8000" "10.0.0.1:8000" [1, 2, 3, 4]).world.trace
        "10.0.0.2:8000")).state.file = [1, 2, 3, 4] ∧
    (transfer "10.0.0.2:8000" "10.0.0.1:8000" [1, 2, 3, 4]).exit = .nil :=
  ⟨by decide,
    (C1_lossless_transfer "10.0.0.2:8000" "10.0.0.1:8000" [1, 2, 3, 4] (by decide)).1,
    ((C1_lossless_transfer "10.0.0.2:8000" "10.0.0.1:8000" [1, 2, 3, 4]
      (by decide)).2.2.2.2.1 (Or.inr (by decide))).1⟩

/-- C10: the chunking scenario.  For every source of 20,000 bytes, `Upload`
over the lossless channel sends the data packets with `seq` 0 (the first 8192
bytes), `seq` 1 (the next 8192 bytes) and `seq` 2 (the last 3616 bytes),
then one packet with `seq` 3 and the payload "EOF", and returns `nil`;
`Download` writes the 20,000 bytes of the source and returns `nil`.  For every
source, the data packets, which come first on the wire, carry the chunks of
the source, whose sizes add up to the length of the source and are
`ChunkSize` for all but the last. -/
theorem C10_chunking_scenario :
    (∀ (peer dst : Addr) (src : List Byte), src.length = 20000 →
      (transfer peer dst src).world.wire =
        [BuildPacket 0 (src.take 8192), BuildPacket 1 ((src.drop 8192).take 8192),
         BuildPacket 2 (src.drop 16384), BuildPacket 3 EOF] ∧
      (src.take 8192).length = 8192 ∧ ((src.drop 8192).take 8192).length = 8192 ∧
      (src.drop 16384).length = 3616 ∧
      (transfer peer dst src).exit = .nil ∧
      (Download true peer ((transfer peer dst src).world.trace peer)).exit = .nil ∧
      (Download true peer ((transfer peer dst src).world.trace peer)).state.file = src ∧
      (Download true peer ((transfer peer dst src).world.trace peer)).state.file.length
        = 20000) ∧
    (∀ (peer dst : Addr) (src : List Byte),
      (transfer peer dst src).world.wire.take (numChunks src) =
        (List.range (numChunks src)).map (fun i => BuildPacket (i % 2 ^ 32) (chunkAt src i)) ∧
      ((List.range (numChunks src)).map (fun i => (chunkAt src i).length)).sum = src.length ∧
      (∀ i, i + 1 < numChunks src → (chunkAt src i).length = 8192)) := by
  constructor
  · intro peer dst src hlen
    obtain ⟨h1, h2, -, -, h4⟩ := transfer_lossless peer dst src (Or.inr (by omega))
    have hnum : numChunks src = 3 := by simp [numChunks, hlen, ChunkSize]
    have hc0 : chunkAt src 0 = src.take 8192 := by simp [chunkAt, ChunkSize]
    have hc1 : chunkAt src 1 = (src.drop 8192).take 8192 := by simp [chunkAt, ChunkSize]
    have hc2 : chunkAt src 2 = src.drop 16384 := by
      simp only [chunkAt, ChunkSize]
      exact List.take_of_length_le (by simp only [List.length_drop]; omega)
    have hl0 : (src.take 8192).length = 8192 := by simp only [List.length_take]; omega
    have hl1 : ((src.drop 8192).take 8192).length = 8192 := by
      simp only [List.length_take, List.length_drop]; omega
    have hl2 : (src.drop 16384).length = 3616 := by simp only [List.length_drop]; omega
    have hch : chunks src = [src.take 8192, (src.drop 8192).take 8192, src.drop 16384] := by
      simp [chunks, hnum, List.range_succ, hc0, hc1, hc2]
    have hno : EOF ∉ chunks src := by
      rw [hch]
      intro hmem
      have h3 : EOF.length = 3 := rfl
      simp only [List.mem_cons, List.mem_singleton, List.not_mem_nil, or_false] at hmem
      rcases hmem with h | h | h <;> rw [h] at h3 <;> omega
    obtain ⟨h5, h6, -⟩ := h4 hno
    refine ⟨?_, hl0, hl1, hl2, h1, h5, h6, by rw [h6, hlen]⟩
    rw [h2]
    simp [packetsFrom, hnum, List.range_succ, hc0, hc1, hc2]
  · intro peer dst src
    refine ⟨?_, ?_, fun i hi => chunkAt_length_full src i hi⟩
    · rw [transfer_wire_data]
      simp [packetsFrom]
    · have h := congrArg List.length (chunks_flatten src)
      rw [List.length_flatten] at h
      simpa [chunks, List.map_map, Function.comp] using h

/-- Instance of C10 at the source of 20,000 zero bytes. -/
theorem C10_chunking_scenario_witness :
    (List.replicate 20000 (0 : Byte)).length = 20000 ∧
    (Download true "10.0.0.2:8000"
      ((transfer "10.0.0.2:8000" "10.0.0.1:8000" (List.replicate 20000 0)).world.trace
        "10.0.0.2:8000")).state.file.length = 20000 :=
  ⟨List.length_replicate _ _,
    (C10_chunking_scenario.1 "10.0.0.2:8000" "10.0.0.1:8000" (List.replicate 20000 0)
      (List.length_replicate _ _)).2.2.2.2.2.2.2⟩

/-! ## The command channel on a scripted network -/

theorem headD_true_of_all {l : List Bool} (h : ∀ b ∈ l, b = true) : l.headD true = true := by
  cases l with
  | nil => rfl
  | cons b bs => exact h b (List.mem_cons_self _ _)

theorem headD_none_of_all {α : Type} {l : List (Option α)} (h : ∀ r ∈ l, r = none) :
    l.headD none = none := by
  cases l with
  | nil => rfl
  | cons b bs => exact h b (List.mem_cons_self _ _)

theorem scripted_write (b : List Byte) (a : Addr) (w : Net) :
    scripted.WriteToUDP b a w =
      (w.sends.headD true,
        { sends := w.sends.tail, reads := w.reads,
          log := w.log ++ [.write b a (w.sends.headD true)] }) := rfl

theorem scripted_read (n : Nat) (w : Net) :
    scripted.ReadFromUDP n w =
      ((w.reads.headD none).map (cut n),
        { sends := w.sends, reads := w.reads.tail,
          log := w.log ++ [.read n ((w.reads.headD none).map (cut n))] }) := rfl

theorem sendCommandLoop_step_failed (addr : Addr) (cmd : List Byte) (k : Nat) (w : Net)
    (h1 : w.sends.headD true = false) :
    sendCommandLoop scripted addr cmd (k + 1) w =
      sendCommandLoop scripted addr cmd k
        (Net.mk w.sends.tail w.reads (w.log ++ [NetCall.write cmd addr false])) := by
  simp only [sendCommandLoop, scripted_write, h1]

theorem sendCommandLoop_step_timeout (addr : Addr) (cmd : List Byte) (k : Nat) (w : Net)
    (h1 : w.sends.headD true = true) (h2 : w.reads.headD none = none) :
    sendCommandLoop scripted addr cmd (k + 1) w =
      sendCommandLoop scripted addr cmd k
        (Net.mk w.sends.tail w.reads.tail
          (w.log ++ [NetCall.write cmd addr true, NetCall.read MaxPacketSize none])) := by
  simp only [sendCommandLoop, scripted_write, scripted_read, h1, h2, Option.map_none',
    List.append_assoc, List.singleton_append]

theorem sendCommandLoop_step_answer (addr : Addr) (cmd : List Byte) (k : Nat) (w : Net)
    (d : List Byte × Addr)
    (h1 : w.sends.headD true = true) (h2 : w.reads.headD none = some d) :
    sendCommandLoop scripted addr cmd (k + 1) w =
      { response := (cut MaxPacketSize d).1, exit := .nil,
        world := Net.mk w.sends.tail w.reads.tail
          (w.log ++ [NetCall.write cmd addr true,
            NetCall.read MaxPacketSize (some (cut MaxPacketSize d))]) } := by
  simp only [sendCommandLoop, scripted_write, scripted_read, h1, h2, Option.map_some',
    List.append_assoc, List.singleton_append]

/-- With every send successful and every read failing, the loop of
`SendCommandWithResponse` sends the command once per iteration left and ends
with the error. -/
theorem sendCommandLoop_timeouts (addr : Addr) (cmd : List Byte) :
    ∀ (k : Nat) (w : Net), (∀ b ∈ w.sends, b = true) → (∀ r ∈ w.reads, r = none) →
      (sendCommandLoop scripted addr cmd k w).response = [] ∧
      (sendCommandLoop scripted addr cmd k w).exit = .error .maxRetries ∧
      (sendCommandLoop scripted addr cmd k w).world.log =
        w.log ++ (List.replicate k
          [NetCall.write cmd addr true, NetCall.read MaxPacketSize none]).flatten := by
  intro k
  induction k with
  | zero => intro w _ _; simp [sendCommandLoop]
  | succ k ih =>
    intro w hs hr
    have ih1 := ih (Net.mk w.sends.tail w.reads.tail
        (w.log ++ [NetCall.write cmd addr true, NetCall.read MaxPacketSize none]))
      (fun b hb => hs b (List.mem_of_mem_tail hb)) (fun r hr1 => hr r (List.mem_of_mem_tail hr1))
    rw [sendCommandLoop_step_timeout addr cmd k w (headD_true_of_all hs) (headD_none_of_all hr)]
    simp only [List.replicate_succ, List.flatten_cons]
    simpa using ih1

/-- A call of `SendCommandWithResponse` that returns `nil` has read a datagram
as its last socket call, and returns the bytes read. -/
theorem sendCommandLoop_nil (addr : Addr) (cmd : List Byte) :
    ∀ (k : Nat) (w : Net), (sendCommandLoop scripted addr cmd k w).exit = .nil →
      ∃ pre dg a,
        (sendCommandLoop scripted addr cmd k w).world.log
          = pre ++ [.read MaxPacketSize (some (dg, a))] ∧
        (sendCommandLoop scripted addr cmd k w).response = dg := by
  intro k
  induction k with
  | zero => intro w h; simp [sendCommandLoop] at h
  | succ k ih =>
    intro w h
    cases hsend : w.sends.headD true with
    | false =>
      rw [sendCommandLoop_step_failed addr cmd k w hsend] at h ⊢
      exact ih _ h
    | true =>
      cases hread : w.reads.headD none with
      | none =>
        rw [sendCommandLoop_step_timeout addr cmd k w hsend hread] at h ⊢
        exact ih _ h
      | some d =>
        rw [sendCommandLoop_step_answer addr cmd k w d hsend hread]
        exact ⟨w.log ++ [NetCall.write cmd addr true], (cut MaxPacketSize d).1,
          (cut MaxPacketSize d).2, by simp, rfl⟩

/-- The first `k` reads fail and the next one meets a datagram: the loop, with
more than `k` iterations left, returns the datagram after `k + 1` sends. -/
theorem sendCommandLoop_answered (addr : Addr) (cmd : List Byte) (dg : List Byte) (a : Addr)
    (hlen : dg.length ≤ MaxPacketSize) :
    ∀ (k n : Nat) (w : Net) (rest : List (Option (List Byte × Addr))), k < n →
      (∀ b ∈ w.sends, b = true) → w.reads = List.replicate k none ++ some (dg, a) :: rest →
      (sendCommandLoop scripted addr cmd n w).response = dg ∧
      (sendCommandLoop scripted addr cmd n w).exit = .nil ∧
      (sendCommandLoop scripted addr cmd n w).world.log =
        w.log ++ (List.replicate k
          [NetCall.write cmd addr true, NetCall.read MaxPacketSize none]).flatten
          ++ [.write cmd addr true, .read MaxPacketSize (some (dg, a))] := by
  intro k
  induction k with
  | zero =>
    intro n w rest hn hs hr
    obtain ⟨m, rfl⟩ : ∃ m, n = m + 1 := ⟨n - 1, by omega⟩
    have hcut : cut MaxPacketSize (dg, a) = (dg, a) := by
      simp [cut, List.take_of_length_le hlen]
    have h2 : w.reads.headD none = some (dg, a) := by rw [hr]; rfl
    rw [sendCommandLoop_step_answer addr cmd m w (dg, a) (headD_true_of_all hs) h2, hcut]
    simp
  | succ k ih =>
    intro n w rest hn hs hr
    obtain ⟨m, rfl⟩ : ∃ m, n = m + 1 := ⟨n - 1, by omega⟩
    have h2 : w.reads.headD none = none := by rw [hr]; rfl
    have h3 : w.reads.tail = List.replicate k none ++ some (dg, a) :: rest := by rw [hr]; rfl
    have ih1 := ih m (Net.mk w.sends.tail w.reads.tail
        (w.log ++ [NetCall.write cmd addr true, NetCall.read MaxPacketSize none])) rest
      (by omega) (fun b hb => hs b (List.mem_of_mem_tail hb)) h3
    rw [sendCommandLoop_step_timeout addr cmd m w (headD_true_of_all hs) h2]
    simp only [List.replicate_succ, List.flatten_cons]
    simpa using ih1

/-! ## Claims on the command channel -/

/-- C12: budget exhaustion on the control path.  For every command, on a
network where every send succeeds and every read fails,
`SendCommandWithResponse` calls `WriteToUDP` with the command exactly 5 times,
each followed by one failed read, and returns the empty response with an
error.  On every network, when it returns `nil` its last socket call is a
read that met a datagram, whose bytes are the response. -/
theorem C12_command_budget_exhausted (addr : Addr) (cmd : List Byte) (w : Net)
    (hs : ∀ b ∈ w.sends, b = true) (hr : ∀ r ∈ w.reads, r = none) :
    (SendCommandWithResponse scripted addr cmd w).response = [] ∧
    (SendCommandWithResponse scripted addr cmd w).exit = .error .maxRetries ∧
    (SendCommandWithResponse scripted addr cmd w).world.log =
      w.log ++ (List.replicate 5
        [NetCall.write cmd addr true, NetCall.read MaxPacketSize none]).flatten ∧
    countWrites ((List.replicate 5
        [NetCall.write cmd addr true, NetCall.read MaxPacketSize none]).flatten) = 5 ∧
    (∀ w1 : Net, (SendCommandWithResponse scripted addr cmd w1).exit = .nil →
      ∃ pre dg a,
        (SendCommandWithResponse scripted addr cmd w1).world.log
          = pre ++ [.read MaxPacketSize (some (dg, a))] ∧
        (SendCommandWithResponse scripted addr cmd w1).response = dg) := by
  obtain ⟨h1, h2, h3⟩ := sendCommandLoop_timeouts addr cmd MaxRetries w hs hr
  exact ⟨h1, h2, h3, by simp [countWrites, NetCall.isWrite, List.replicate],
    fun w1 h => sendCommandLoop_nil addr cmd MaxRetries w1 h⟩

/-- Instance of C12: the command "ls" on the silent network. -/
theorem C12_command_budget_exhausted_witness :
    (SendCommandWithResponse scripted "10.0.0.1:8000" [108, 115] silent).response = [] ∧
    (SendCommandWithResponse scripted "10.0.0.1:8000" [108, 115] silent).exit
      = .error .maxRetries ∧
    countWrites (SendCommandWithResponse scripted "10.0.0.1:8000" [108, 115] silent).world.log
      = 5 := by
  obtain ⟨h1, h2, h3, h4, -⟩ := C12_command_budget_exhausted "10.0.0.1:8000" [108, 115] silent
    (by decide) (by decide)
  refine ⟨h1, h2, ?_⟩
  rw [h3]
  exact h4

/-- C13: the first response is returned.  For every command and every `k < 5`,
on a network where the sends succeed, the first `k` reads fail and the next
read meets a datagram (of a size a UDP datagram can have, so that it fits
into the buffer), `SendCommandWithResponse` returns the bytes of that
datagram with a `nil` error after exactly `k + 1` sends, whatever the source
address of the datagram. -/
theorem C13_command_first_response (addr : Addr) (cmd : List Byte) (w : Net) (k : Nat)
    (dg : List Byte) (a : Addr) (rest : List (Option (List Byte × Addr)))
    (hk : k < 5) (hlen : dg.length ≤ MaxPacketSize) (hs : ∀ b ∈ w.sends, b = true)
    (hr : w.reads = List.replicate k none ++ some (dg, a) :: rest) :
    (SendCommandWithResponse scripted addr cmd w).response = dg ∧
    (SendCommandWithResponse scripted addr cmd w).exit = .nil ∧
    (SendCommandWithResponse scripted addr cmd w).world.log =
      w.log ++ (List.replicate k
        [NetCall.write cmd addr true, NetCall.read MaxPacketSize none]).flatten
        ++ [.write cmd addr true, .read MaxPacketSize (some (dg, a))] ∧
    countWrites ((List.replicate k
        [NetCall.write cmd addr true, NetCall.read MaxPacketSize none]).flatten
        ++ [.write cmd addr true, .read MaxPacketSize (some (dg, a))]) = k + 1 := by
  obtain ⟨h1, h2, h3⟩ :=
    sendCommandLoop_answered addr cmd dg a hlen k MaxRetries w rest hk hs hr
  refine ⟨h1, h2, h3, ?_⟩
  have hc : ∀ n : Nat, countWrites ((List.replicate n
      [NetCall.write cmd addr true, NetCall.read MaxPacketSize none]).flatten) = n := by
    intro n
    induction n with
    | zero => rfl
    | succ n ih =>
      simp only [countWrites] at ih
      simp [countWrites, List.replicate_succ, NetCall.isWrite, ih]
  have hc1 := hc k
  simp only [countWrites] at hc1
  simp [countWrites, NetCall.isWrite, hc1]

/-- Instance of C13: two timeouts, then a response from an address that is not
the one the command was sent to. -/
theorem C13_command_first_response_witness :
    (SendCommandWithResponse scripted "10.0.0.1:8000" [108, 115]
      { sends := [], reads := [none, none, some ([111, 107], "10.6.6.6:999")], log := [] }).response
      = [111, 107] ∧
    (SendCommandWithResponse scripted "10.0.0.1:8000" [108, 115]
      { sends := [], reads := [none, none, some ([111, 107], "10.6.6.6:999")], log := [] }).exit
      = .nil :=
  ⟨(C13_command_first_response "10.0.0.1:8000" [108, 115]
      { sends := [], reads := [none, none, some ([111, 107], "10.6.6.6:999")], log := [] }
      2 [111, 107] "10.6.6.6:999" [] (by decide) (by decide) (by decide) (by decide)).1,
   (C13_command_first_response "10.0.0.1:8000" [108, 115]
      { sends := [], reads := [none, none, some ([111, 107], "10.6.6.6:999")], log := [] }
      2 [111, 107] "10.6.6.6:999" [] (by decide) (by decide) (by decide) (by decide)).2.1⟩

/-! ## The end marker in the receiver -/

/-- C19: the "EOF" test comes first.  For every receiver state and every
well-formed packet from the expected peer whose payload is "EOF", whatever
its `seq` (equal to, above or below `expectedSeq`), `Download` sends the
acknowledgment of that `seq`, writes nothing, leaves `expectedSeq` alone and
returns `nil` without reading on.  So `Download` can return `nil` with a file
shorter than the source: when no data packet of the three-byte source
`[1, 2, 3]` arrives (`Upload` then sends it five times and goes on to the
"EOF" packet, with `seq` 0) and the "EOF" packet does, the file is empty. -/
theorem C19_eof_before_seq :
    (∀ (addr : Addr) (s : RecvState) (buf : List Byte) (wr : WriteResult) (seq : Nat)
        (tr : List ReadEvent), ParsePacket buf = some (seq, some EOF) →
      downloadBody addr s (.datagram addr buf wr) =
        .stop { file := s.file, expectedSeq := s.expectedSeq,
                acks := s.acks ++ [(PutUint32 seq, addr)] } ∧
      downloadLoop addr s (.datagram addr buf wr :: tr) =
        { state := { file := s.file, expectedSeq := s.expectedSeq,
                     acks := s.acks ++ [(PutUint32 seq, addr)] },
          exit := .nil, rest := tr }) ∧
    downloadLoop "10.0.0.2:8000" { file := [5], expectedSeq := 1, acks := [] }
        [.datagram "10.0.0.2:8000" (BuildPacket 7 EOF) .ok]
      = { state := { file := [5], expectedSeq := 1, acks := [([0, 0, 0, 7], "10.0.0.2:8000")] },
          exit := .nil, rest := [] } ∧
    downloadLoop "10.0.0.2:8000" { file := [5, 6, 7], expectedSeq := 3, acks := [] }
        [.datagram "10.0.0.2:8000" (BuildPacket 1 EOF) .ok]
      = { state := { file := [5, 6, 7], expectedSeq := 3,
                     acks := [([0, 0, 0, 1], "10.0.0.2:8000")] },
          exit := .nil, rest := [] } ∧
    writesOf (Upload scripted (some [1, 2, 3]) "10.0.0.1:8000" silent).world.log
      = List.replicate 5 (BuildPacket 0 [1, 2, 3], "10.0.0.1:8000")
          ++ [(BuildPacket 0 EOF, "10.0.0.1:8000")] ∧
    Download true "10.0.0.2:8000" [.datagram "10.0.0.2:8000" (BuildPacket 0 EOF) .ok]
      = { state := { file := [], expectedSeq := 0, acks := [([0, 0, 0, 0], "10.0.0.2:8000")] },
          exit := .nil, rest := [] } := by
  refine ⟨?_, by decide, by decide, by decide, by decide⟩
  intro addr s buf wr seq tr hp
  have h := downloadBody_eof addr s buf wr seq hp
  exact ⟨h, downloadLoop_stop addr s _ _ tr h⟩

/-- Instance of C19: with `expectedSeq = 2`, the "EOF" packet of `seq` 9 ends
the reception. -/
theorem C19_eof_before_seq_witness :
    downloadBody "10.0.0.2:8000" { file := [5, 6], expectedSeq := 2, acks := [] }
        (.datagram "10.0.0.2:8000" [0, 0, 0, 9, 69, 79, 70] .ok)
      = .stop { file := [5, 6], expectedSeq := 2,
                acks := [] ++ [(PutUint32 9, "10.0.0.2:8000")] } :=
  (C19_eof_before_seq.1 "10.0.0.2:8000" { file := [5, 6], expectedSeq := 2, acks := [] }
    [0, 0, 0, 9, 69, 79, 70] .ok 9 [] (by decide)).1

/-! ## The retry loop on a scripted network -/

theorem cut_length_le (n : Nat) (d : List Byte × Addr) : (cut n d).1.length ≤ n := by
  simp only [cut, List.length_take]
  omega

theorem retryLoop_step_failed (addr : Addr) (pkt : List Byte) (total k : Nat) (st : SendState)
    (w : Net) (h1 : w.sends.headD true = false) :
    retryLoop scripted addr pkt total (k + 1) st w =
      retryLoop scripted addr pkt total k st
        (Net.mk w.sends.tail w.reads (w.log ++ [NetCall.write pkt addr false])) := by
  simp only [retryLoop, scripted_write, h1]

theorem retryLoop_step_timeout (addr : Addr) (pkt : List Byte) (total k : Nat) (st : SendState)
    (w : Net) (h1 : w.sends.headD true = true) (h2 : w.reads.headD none = none) :
    retryLoop scripted addr pkt total (k + 1) st w =
      retryLoop scripted addr pkt total k st
        (Net.mk w.sends.tail w.reads.tail
          (w.log ++ [NetCall.write pkt addr true, NetCall.read 4 none])) := by
  simp only [retryLoop, scripted_write, scripted_read, h1, h2, Option.map_none',
    List.append_assoc, List.singleton_append]

theorem retryLoop_step_mismatch (addr : Addr) (pkt : List Byte) (total k : Nat)
    (st : SendState) (w : Net) (d : List Byte × Addr)
    (h1 : w.sends.headD true = true) (h2 : w.reads.headD none = some d)
    (h3 : ¬ ackOf st.seq (cut 4 d).1) :
    retryLoop scripted addr pkt total (k + 1) st w =
      retryLoop scripted addr pkt total k st
        (Net.mk w.sends.tail w.reads.tail
          (w.log ++ [NetCall.write pkt addr true, NetCall.read 4 (some (cut 4 d))])) := by
  simp only [retryLoop, scripted_write, scripted_read, h1, h2, Option.map_some',
    List.append_assoc, List.singleton_append]
  by_cases hlen : 4 ≤ (cut 4 d).1.length
  · obtain ⟨v, hv⟩ := Uint32_take_isSome (cut 4 d).1 hlen
    have hne : ¬ v = st.seq := by
      intro hvs
      exact h3 ⟨hlen, by rw [hv, hvs]⟩
    simp only [hlen, if_true, hv, hne, if_false]
  · simp only [hlen, if_false]

theorem retryLoop_step_match (addr : Addr) (pkt : List Byte) (total k : Nat)
    (st : SendState) (w : Net) (d : List Byte × Addr)
    (h1 : w.sends.headD true = true) (h2 : w.reads.headD none = some d)
    (h3 : ackOf st.seq (cut 4 d).1) :
    retryLoop scripted addr pkt total (k + 1) st w =
      ((roundEnd total st true).1, (roundEnd total st true).2,
        Net.mk w.sends.tail w.reads.tail
          (w.log ++ [NetCall.write pkt addr true, NetCall.read 4 (some (cut 4 d))])) := by
  have hlen : (cut 4 d).1.length = 4 := Nat.le_antisymm (cut_length_le 4 d) h3.1
  simp only [retryLoop, scripted_write, scripted_read, h1, h2, Option.map_some',
    List.append_assoc, List.singleton_append, h3.1, if_true, h3.2, hlen, roundEnd, advance,
    report]
  cases printProgress (st.sent + 4) total <;> rfl

/-- One attempt without an acknowledgment in front of a run of the loop. -/
theorem RetryRun.prepend (addr : Addr) (pkt : List Byte) (total k : Nat) (st : SendState)
    (w wa : Net) (att : List NetCall)
    (hstep : retryLoop scripted addr pkt total (k + 1) st w
      = retryLoop scripted addr pkt total k st wa)
    (hlog : wa.log = w.log ++ att)
    (hatt : ∀ c ∈ att, (∃ ok, c = .write pkt addr ok) ∨ (∃ got, c = .read 4 got))
    (hone : countWrites att = 1)
    (hno : ∀ c ∈ att, c.isAckOf st.seq = false)
    (calls : List NetCall) (acked : Bool) (w1 : Net)
    (h : RetryRun addr pkt total k st wa calls acked w1) :
    RetryRun addr pkt total (k + 1) st w (att ++ calls) acked w1 := by
  obtain ⟨h1, h2, h3, h4, h5, h6⟩ := h
  refine ⟨hstep.trans h1, by rw [h2, hlog, List.append_assoc], ?_, ?_, ?_, ?_⟩
  · intro c hc
    rcases List.mem_append.1 hc with hc | hc
    · exact hatt c hc
    · exact h3 c hc
  · simp only [countWrites, List.countP_append] at *
    omega
  · intro ha
    obtain ⟨h7, pre, buf, a, h8, h9, h10⟩ := h5 ha
    refine ⟨?_, att ++ pre, buf, a, by rw [h8, List.append_assoc], h9, ?_⟩
    · simp only [countWrites, List.countP_append] at *
      omega
    · intro c hc
      rcases List.mem_append.1 hc with hc | hc
      · exact hno c hc
      · exact h10 c hc
  · intro ha
    obtain ⟨h7, h8⟩ := h6 ha
    refine ⟨?_, ?_⟩
    · simp only [countWrites, List.countP_append] at *
      omega
    · intro c hc
      rcases List.mem_append.1 hc with hc | hc
      · exact hno c hc
      · exact h8 c hc

/-- Every run of the loop `retry` on the scripted network has the shape
`RetryRun`. -/
theorem retryLoop_run (addr : Addr) (pkt : List Byte) (total : Nat) :
    ∀ (k : Nat) (st : SendState) (w : Net),
      ∃ calls acked w1, RetryRun addr pkt total k st w calls acked w1 := by
  intro k
  induction k with
  | zero =>
    intro st w
    exact ⟨[], false, w, by simp [retryLoop, roundEnd], by simp, by simp, by simp [countWrites],
      by simp, by simp [countWrites]⟩
  | succ k ih =>
    intro st w
    cases hsend : w.sends.headD true with
    | false =>
      obtain ⟨calls, acked, w1, h⟩ := ih st
        (Net.mk w.sends.tail w.reads (w.log ++ [NetCall.write pkt addr false]))
      exact ⟨_, acked, w1, RetryRun.prepend addr pkt total k st w _ [NetCall.write pkt addr false]
        (retryLoop_step_failed addr pkt total k st w hsend) rfl
        (by simp) (by simp [countWrites, NetCall.isWrite]) (by simp [NetCall.isAckOf])
        calls acked w1 h⟩
    | true =>
      cases hread : w.reads.headD none with
      | none =>
        obtain ⟨calls, acked, w1, h⟩ := ih st
          (Net.mk w.sends.tail w.reads.tail
            (w.log ++ [NetCall.write pkt addr true, NetCall.read 4 none]))
        exact ⟨_, acked, w1, RetryRun.prepend addr pkt total k st w _
          [NetCall.write pkt addr true, NetCall.read 4 none]
          (retryLoop_step_timeout addr pkt total k st w hsend hread) rfl
          (by simp) (by simp [countWrites, NetCall.isWrite]) (by simp [NetCall.isAckOf])
          calls acked w1 h⟩
      | some d =>
        by_cases hack : ackOf st.seq (cut 4 d).1
        · refine ⟨[NetCall.write pkt addr true, NetCall.read 4 (some (cut 4 d))], true,
            Net.mk w.sends.tail w.reads.tail
              (w.log ++ [NetCall.write pkt addr true, NetCall.read 4 (some (cut 4 d))]),
            ?_, rfl, by simp, ?_, ?_, by simp⟩
          · exact retryLoop_step_match addr pkt total k st w d hsend hread hack
          · simp [countWrites, NetCall.isWrite]
          · intro _
            refine ⟨by simp [countWrites, NetCall.isWrite],
              [NetCall.write pkt addr true], (cut 4 d).1, (cut 4 d).2, rfl, hack, ?_⟩
            simp [NetCall.isAckOf]
        · obtain ⟨calls, acked, w1, h⟩ := ih st
            (Net.mk w.sends.tail w.reads.tail
              (w.log ++ [NetCall.write pkt addr true, NetCall.read 4 (some (cut 4 d))]))
          exact ⟨_, acked, w1, RetryRun.prepend addr pkt total k st w _
            [NetCall.write pkt addr true, NetCall.read 4 (some (cut 4 d))]
            (retryLoop_step_mismatch addr pkt total k st w d hsend hread hack) rfl
            (by simp) (by simp [countWrites, NetCall.isWrite])
            (by
              intro c hc
              simp only [List.mem_cons, List.mem_singleton, List.not_mem_nil, or_false] at hc
              rcases hc with rfl | rfl
              · rfl
              · simp [NetCall.isAckOf, hack])
            calls acked w1 h⟩

/-! ## The rounds of `Upload` on a scripted network -/

theorem countAcked_cons (r : Round) (rs : List Round) :
    countAcked (r :: rs) = countAcked rs + (if r.acked = true then 1 else 0) := by
  simp [countAcked, List.countP_cons]

theorem RoundOk_of_run (addr : Addr) (seq : Nat) (chunk : List Byte) (total : Nat)
    (st : SendState) (w : Net) (calls : List NetCall) (acked : Bool) (w1 : Net)
    (hst : st.seq = seq)
    (h : RetryRun addr (BuildPacket seq chunk) total MaxRetries st w calls acked w1) :
    RoundOk addr { seq := seq, chunk := chunk, calls := calls, acked := acked } := by
  obtain ⟨-, -, h3, h4, h5, h6⟩ := h
  subst hst
  refine ⟨h3, ?_, h4, ?_, h6⟩
  · cases acked with
    | true => exact (h5 rfl).1
    | false =>
      rw [(h6 rfl).1]
      decide
  · intro ha
    exact (h5 ha).2

/-- The outer loop of `Upload` on the scripted network, with fuel no less than
the length of the unread part and `sent` far enough below the total for four
more bytes per chunk: it ends normally after one round per chunk
of the unread part, in order; each round has the shape `RoundOk`; the
sequence number of a round is that of the start plus the number of earlier
rounds that were acknowledged, modulo `2 ^ 32`; `sent` grows by four and one
progress report is made per acknowledged round. -/
theorem uploadLoop_rounds (addr : Addr) (total : Nat) :
    ∀ (fuel : Nat) (rest : List Byte) (st : SendState) (w : Net),
      rest.length ≤ fuel → st.seq < 2 ^ 32 → st.sent + 4 * numChunks rest ≤ total →
      ∃ (rounds : List Round) (st1 : SendState) (w1 : Net),
        uploadLoop scripted addr total fuel rest st w = (.ok, st1, w1) ∧
        w1.log = w.log ++ (rounds.map Round.calls).flatten ∧
        rounds.map Round.chunk = chunks rest ∧
        (∀ r ∈ rounds, RoundOk addr r) ∧
        (∀ i r, rounds[i]? = some r →
          r.seq = (st.seq + countAcked (rounds.take i)) % 2 ^ 32) ∧
        st1.seq = (st.seq + countAcked rounds) % 2 ^ 32 ∧
        st1.sent = st.sent + 4 * countAcked rounds ∧
        st1.progress = st.progress ++
          (List.range (countAcked rounds)).map (fun i => (st.sent + 4 * (i + 1), total)) := by
  intro fuel
  induction fuel with
  | zero =>
    intro rest st w hlen hseq _
    have : rest = [] := List.length_eq_zero.1 (by omega)
    subst this
    refine ⟨[], st, w, uploadLoop_nil _ _ _ _ _ _, by simp, by simp [chunks_nil], by simp,
      by simp, ?_, by simp [countAcked], by simp [countAcked]⟩
    simp only [countAcked, List.countP_nil]
    omega
  | succ fuel ih =>
    intro rest st w hlen hseq hbar
    cases rest with
    | nil =>
      refine ⟨[], st, w, uploadLoop_nil _ _ _ _ _ _, by simp, by simp [chunks_nil], by simp,
        by simp, ?_, by simp [countAcked], by simp [countAcked]⟩
      simp only [countAcked, List.countP_nil]
      omega
    | cons b bs =>
      obtain ⟨calls, acked, wa, hrun⟩ := retryLoop_run addr
        (BuildPacket st.seq ((b :: bs).take ChunkSize)) total MaxRetries st w
      have hok := RoundOk_of_run addr st.seq ((b :: bs).take ChunkSize) total st w calls acked wa
        rfl hrun
      obtain ⟨hr1, hr2, -⟩ := hrun
      have hnum := numChunks_cons b bs
      have hend : roundEnd total st acked = (.ok, if acked = true then advance total st else st) := by
        cases acked with
        | true =>
          rw [roundEnd_ok total st (by omega)]
          rfl
        | false => rfl
      rw [hend] at hr1
      have hlen1 : ((b :: bs).drop ChunkSize).length ≤ fuel := by
        simp only [List.length_drop, List.length_cons, ChunkSize] at *
        omega
      have hbar1 : (if acked = true then advance total st else st).sent
          + 4 * numChunks ((b :: bs).drop ChunkSize) ≤ total := by
        cases acked with
        | true =>
          simp only [advance, if_true]
          omega
        | false =>
          simp only [Bool.false_eq_true, if_false]
          omega
      have hstep : uploadLoop scripted addr total (fuel + 1) (b :: bs) st w =
          uploadLoop scripted addr total fuel ((b :: bs).drop ChunkSize)
            (if acked = true then advance total st else st) wa := by
        simp only [uploadLoop, hr1]
      have hseq1 : (if acked = true then advance total st else st).seq < 2 ^ 32 := by
        cases acked with
        | true => exact Nat.mod_lt _ (by decide)
        | false => exact hseq
      obtain ⟨rounds, st1, w1, h1, h2, h3, h4, h5, h6, h7, h8⟩ :=
        ih ((b :: bs).drop ChunkSize) _ wa hlen1 hseq1 hbar1
      refine ⟨{ seq := st.seq, chunk := (b :: bs).take ChunkSize, calls := calls,
                acked := acked } :: rounds, st1, w1, hstep.trans h1, ?_, ?_, ?_, ?_, ?_, ?_, ?_⟩
      · rw [h2, hr2]
        simp
      · rw [chunks_cons, List.map_cons, h3]
      · intro r hr
        rcases List.mem_cons.1 hr with rfl | hr
        · exact hok
        · exact h4 r hr
      · intro i r hi
        cases i with
        | zero =>
          simp only [List.getElem?_cons_zero, Option.some.injEq] at hi
          subst hi
          simp only [List.take_zero, countAcked, List.countP_nil]
          omega
        | succ i =>
          simp only [List.getElem?_cons_succ] at hi
          rw [h5 i r hi, List.take_succ_cons, countAcked_cons]
          cases acked with
          | true =>
            simp only [advance, if_true]
            omega
          | false => simp
      · rw [h6, countAcked_cons]
        cases acked with
        | true =>
          simp only [advance, if_true]
          omega
        | false => simp
      · rw [h7, countAcked_cons]
        cases acked with
        | true =>
          simp only [advance, if_true]
          omega
        | false => simp
      · rw [h8, countAcked_cons]
        cases acked with
        | true =>
          simp only [advance, if_true, List.append_assoc, List.range_succ_eq_map, List.map_cons,
            List.map_map, List.singleton_append]
          congr 2
          apply List.map_congr_left
          intro i _
          simp only [Function.comp, Nat.succ_eq_add_one, Prod.mk.injEq, and_true]
          omega
        | false => simp

/-- A file of one to three bytes is one chunk. -/
theorem chunks_small (b : Byte) (bs : List Byte) (h3 : (b :: bs).length ≤ 3) :
    (b :: bs).take ChunkSize = b :: bs ∧ (b :: bs).drop ChunkSize = [] ∧
    chunks (b :: bs) = [b :: bs] ∧ numChunks (b :: bs) = 1 := by
  have ht : (b :: bs).take ChunkSize = b :: bs :=
    List.take_of_length_le (by simp only [ChunkSize]; omega)
  have hd : (b :: bs).drop ChunkSize = [] :=
    List.drop_eq_nil_of_le (by simp only [ChunkSize]; omega)
  refine ⟨ht, hd, ?_, ?_⟩
  · rw [chunks_cons, ht, hd, chunks_nil]
  · rw [numChunks_cons, hd, numChunks_nil]

/-- Function `Upload` on the scripted network, for every file and every
script.  Its socket calls are those of one round per chunk of the file, in
order, followed by what comes after the loop; the sequence number of a round
is the number of rounds acknowledged before it, modulo `2 ^ 32`; `sent` is
four times the number of acknowledged rounds and the `k`-th call of
`printProgress` carries `4 * k`.  `Upload` returns `nil` or panics.  When it
returns `nil`, one send of the "EOF" packet follows the rounds, with the
number of acknowledged rounds, modulo `2 ^ 32`, as sequence number.  It
panics exactly when the file has one to three bytes and its only round is
acknowledged; nothing follows that round then and `seq` is still 0. -/
theorem Upload_rounds (addr : Addr) (content : List Byte) (w : Net) :
    ∃ (rounds : List Round) (tail : List NetCall),
      (Upload scripted (some content) addr w).world.log =
        w.log ++ (rounds.map Round.calls).flatten ++ tail ∧
      rounds.map Round.chunk = chunks content ∧
      (∀ r ∈ rounds, RoundOk addr r) ∧
      (∀ i r, rounds[i]? = some r → r.seq = countAcked (rounds.take i) % 2 ^ 32) ∧
      (Upload scripted (some content) addr w).state.sent = 4 * countAcked rounds ∧
      (Upload scripted (some content) addr w).state.progress =
        (List.range (countAcked rounds)).map (fun i => (4 * (i + 1), content.length)) ∧
      ((Upload scripted (some content) addr w).exit = .nil ∨
        (Upload scripted (some content) addr w).exit = .panic) ∧
      ((Upload scripted (some content) addr w).exit = .nil →
        (Upload scripted (some content) addr w).state.seq = countAcked rounds % 2 ^ 32 ∧
        ∃ ok, tail = [.write (BuildPacket (countAcked rounds % 2 ^ 32) EOF) addr ok]) ∧
      ((Upload scripted (some content) addr w).exit = .panic ↔
        (1 ≤ content.length ∧ content.length ≤ 3 ∧ countAcked rounds = 1)) ∧
      ((Upload scripted (some content) addr w).exit = .panic →
        tail = [] ∧ (Upload scripted (some content) addr w).state.seq = 0) := by
  by_cases hlen : content.length = 0 ∨ 4 ≤ content.length
  · obtain ⟨rounds, st1, w1, h1, h2, h3, h4, h5, h6, h7, h8⟩ :=
      uploadLoop_rounds addr content.length content.length content
        { seq := 0, sent := 0, progress := [] } w (Nat.le_refl _) (by decide)
        (by simpa using numChunks_fits content hlen)
    simp only [Nat.zero_add, List.nil_append] at h5 h6 h7 h8
    have he : (Upload scripted (some content) addr w).exit = .nil := by
      simp only [Upload, h1]
    refine ⟨rounds, [.write (BuildPacket (countAcked rounds % 2 ^ 32) EOF) addr
      (w1.sends.headD true)], ?_, h3, h4, h5, ?_, ?_, Or.inl he, ?_, ?_, ?_⟩
    · simp only [Upload, h1, scripted_write, h2, h6]
    · simp only [Upload, h1, h7]
    · simp only [Upload, h1, h8]
    · intro _
      exact ⟨by simp only [Upload, h1, h6], _, rfl⟩
    · rw [he]
      constructor
      · intro h
        exact absurd h (by decide)
      · rintro ⟨h1, h3, -⟩
        omega
    · rw [he]
      intro h
      exact absurd h (by decide)
  · have h1 : 1 ≤ content.length := by omega
    have h3 : content.length ≤ 3 := by omega
    cases content with
    | nil => simp at h1
    | cons b bs =>
      obtain ⟨ht, hd, hch, -⟩ := chunks_small b bs h3
      obtain ⟨calls, acked, wa, hrun⟩ := retryLoop_run addr (BuildPacket 0 (b :: bs))
        (b :: bs).length MaxRetries { seq := 0, sent := 0, progress := [] } w
      have hok := RoundOk_of_run addr 0 (b :: bs) (b :: bs).length _ w calls acked wa rfl hrun
      obtain ⟨hr1, hr2, -⟩ := hrun
      cases acked with
      | true =>
        rw [roundEnd_panic (b :: bs).length { seq := 0, sent := 0, progress := [] } (by omega)
          (by simp only; omega)] at hr1
        have hstep : uploadLoop scripted addr (b :: bs).length (b :: bs).length (b :: bs)
            { seq := 0, sent := 0, progress := [] } w =
            (.panic, report (b :: bs).length { seq := 0, sent := 0, progress := [] }, wa) := by
          show uploadLoop scripted addr (b :: bs).length (bs.length + 1) (b :: bs) _ _ = _
          simp only [uploadLoop, ht, hr1]
        have he : (Upload scripted (some (b :: bs)) addr w).exit = .panic := by
          simp only [Upload, hstep]
        refine ⟨[{ seq := 0, chunk := b :: bs, calls := calls, acked := true }], [], ?_, ?_, ?_,
          ?_, ?_, ?_, Or.inr he, ?_, ?_, ?_⟩
        · simp only [Upload, hstep, hr2]
          simp
        · rw [hch]
          rfl
        · intro r hr
          rw [List.mem_singleton.1 hr]
          exact hok
        · intro i r hi
          cases i with
          | zero =>
            simp only [List.getElem?_cons_zero, Option.some.injEq] at hi
            subst hi
            rfl
          | succ i => simp at hi
        · simp only [Upload, hstep]
          rfl
        · simp only [Upload, hstep]
          rfl
        · rw [he]
          intro h
          exact absurd h (by decide)
        · rw [he]
          exact ⟨fun _ => ⟨h1, h3, rfl⟩, fun _ => rfl⟩
        · intro _
          exact ⟨rfl, by simp only [Upload, hstep]; rfl⟩
      | false =>
        rw [roundEnd_false] at hr1
        have hstep : uploadLoop scripted addr (b :: bs).length (b :: bs).length (b :: bs)
            { seq := 0, sent := 0, progress := [] } w =
            (.ok, { seq := 0, sent := 0, progress := [] }, wa) := by
          show uploadLoop scripted addr (b :: bs).length (bs.length + 1) (b :: bs) _ _ = _
          simp only [uploadLoop, ht, hr1, hd, uploadLoop_nil]
        have he : (Upload scripted (some (b :: bs)) addr w).exit = .nil := by
          simp only [Upload, hstep]
        refine ⟨[{ seq := 0, chunk := b :: bs, calls := calls, acked := false }],
          [.write (BuildPacket 0 EOF) addr (wa.sends.headD true)], ?_, ?_, ?_,
          ?_, ?_, ?_, Or.inl he, ?_, ?_, ?_⟩
        · simp only [Upload, hstep, scripted_write, hr2]
          simp
        · rw [hch]
          rfl
        · intro r hr
          rw [List.mem_singleton.1 hr]
          exact hok
        · intro i r hi
          cases i with
          | zero =>
            simp only [List.getElem?_cons_zero, Option.some.injEq] at hi
            subst hi
            rfl
          | succ i => simp at hi
        · simp only [Upload, hstep]
          rfl
        · simp only [Upload, hstep]
          rfl
        · intro _
          exact ⟨by simp only [Upload, hstep]; rfl, _, rfl⟩
        · rw [he]
          constructor
          · intro h
            exact absurd h (by decide)
          · rintro ⟨-, -, h⟩
            simp [countAcked] at h
        · rw [he]
          intro h
          exact absurd h (by decide)

theorem chunks_length (src : List Byte) : (chunks src).length = numChunks src := by
  simp [chunks]

theorem chunks_getElem? (src : List Byte) (i : Nat) (h : i < numChunks src) :
    (chunks src)[i]? = some (chunkAt src i) := by
  simp [chunks, List.getElem?_range h]

theorem rounds_length (rounds : List Round) (src : List Byte)
    (h : rounds.map Round.chunk = chunks src) : rounds.length = numChunks src := by
  have := congrArg List.length h
  simpa [chunks_length] using this

theorem rounds_chunk (rounds : List Round) (src : List Byte)
    (h : rounds.map Round.chunk = chunks src) (i : Nat) (r : Round)
    (hi : rounds[i]? = some r) : i < numChunks src ∧ r.chunk = chunkAt src i := by
  have hlt : i < rounds.length := by
    rcases Nat.lt_or_ge i rounds.length with h1 | h1
    · exact h1
    · rw [List.getElem?_eq_none h1] at hi
      simp at hi
  have hlt1 : i < numChunks src := by rw [← rounds_length rounds src h]; exact hlt
  refine ⟨hlt1, ?_⟩
  have h1 : (rounds.map Round.chunk)[i]? = some r.chunk := by
    rw [List.getElem?_map, hi]
    rfl
  rw [h, chunks_getElem? src i hlt1] at h1
  exact (Option.some.inj h1).symm

theorem countAcked_take_of_all (rounds : List Round) (h : countAcked rounds = rounds.length)
    (i : Nat) (hi : i ≤ rounds.length) : countAcked (rounds.take i) = i := by
  have hall : ∀ r ∈ rounds, r.acked = true := by
    simpa [countAcked] using h
  have h1 : countAcked (rounds.take i) = (rounds.take i).length := by
    simp only [countAcked, List.countP_eq_length]
    intro r hr
    exact hall r (List.mem_of_mem_take hr)
  rw [h1, List.length_take]
  omega

theorem countAcked_append (a b : List Round) :
    countAcked (a ++ b) = countAcked a + countAcked b := by
  simp [countAcked, List.countP_append]

/-! ## The sender when no acknowledgment arrives -/

theorem writesOf_append (a b : List NetCall) : writesOf (a ++ b) = writesOf a ++ writesOf b := by
  induction a with
  | nil => rfl
  | cons c cs ih =>
    cases c with
    | write p d ok => simp [writesOf, ih]
    | read n got => simp [writesOf, ih]

theorem writesOf_timeouts (p : List Byte) (a : Addr) (n k : Nat) :
    writesOf ((List.replicate k [NetCall.write p a true, NetCall.read n none]).flatten)
      = List.replicate k (p, a) := by
  induction k with
  | zero => rfl
  | succ k ih => simp [List.replicate_succ, writesOf, ih]

theorem retryLoop_silent (addr : Addr) (pkt : List Byte) (total : Nat) (st : SendState) :
    ∀ (k : Nat) (log : List NetCall),
      retryLoop scripted addr pkt total k st (Net.mk [] [] log) =
        (.ok, st, Net.mk [] [] (log ++ (List.replicate k
          [NetCall.write pkt addr true, NetCall.read 4 none]).flatten)) := by
  intro k
  induction k with
  | zero => intro log; simp [retryLoop]
  | succ k ih =>
    intro log
    rw [retryLoop_step_timeout addr pkt total k st (Net.mk [] [] log) rfl rfl]
    have := ih (log ++ [NetCall.write pkt addr true, NetCall.read 4 none])
    simp only [List.tail_nil]
    rw [this]
    simp [List.replicate_succ]

/-- On a network where no datagram ever arrives, `Upload` sends every chunk
`MaxRetries` times under the sequence number it started with. -/
theorem uploadLoop_silent (addr : Addr) (total : Nat) :
    ∀ (fuel : Nat) (rest : List Byte) (st : SendState) (log : List NetCall),
      rest.length ≤ fuel →
      uploadLoop scripted addr total fuel rest st (Net.mk [] [] log) =
        (.ok, st, Net.mk [] [] (log ++ ((chunks rest).map (fun c =>
          (List.replicate MaxRetries
            [NetCall.write (BuildPacket st.seq c) addr true, NetCall.read 4 none]).flatten)).flatten)) := by
  intro fuel
  induction fuel with
  | zero =>
    intro rest st log hlen
    have : rest = [] := List.length_eq_zero.1 (by omega)
    subst this
    simp [uploadLoop, chunks_nil]
  | succ fuel ih =>
    intro rest st log hlen
    cases rest with
    | nil => simp [uploadLoop, chunks_nil]
    | cons b bs =>
      have hlen1 : ((b :: bs).drop ChunkSize).length ≤ fuel := by
        simp only [List.length_drop, List.length_cons, ChunkSize] at *
        omega
      simp only [uploadLoop, retryLoop_silent, ih _ _ _ hlen1, chunks_cons, List.map_cons,
        List.flatten_cons, List.append_assoc]

theorem chunks_zeros_8193 :
    chunks (List.replicate 8193 (0 : Byte)) = [List.replicate 8192 0, [0]] := by
  have h1 : List.replicate 8193 (0 : Byte) = 0 :: List.replicate 8192 0 := rfl
  have h2 : (List.replicate 8193 (0 : Byte)).take ChunkSize = List.replicate 8192 0 := by
    rw [ChunkSize, List.take_replicate]
    rfl
  have h3 : (List.replicate 8193 (0 : Byte)).drop ChunkSize = [0] := by
    rw [ChunkSize, List.drop_replicate]
    rfl
  rw [h1, chunks_cons, ← h1, h2, h3]
  have h4 : chunks [(0 : Byte)] = [[0]] := by decide
  rw [h4]

/-! ## A transfer long enough for the sequence number to wrap -/

theorem numChunks_zeros (n : Nat) : numChunks (List.replicate (n * 8192) (0 : Byte)) = n := by
  simp only [numChunks, List.length_replicate, ChunkSize]
  omega

theorem numChunks_zeros_succ (n : Nat) :
    numChunks (List.replicate (n * 8192 + 1) (0 : Byte)) = n + 1 := by
  simp only [numChunks, List.length_replicate, ChunkSize]
  omega

theorem packetsFrom_getElem? (src : List Byte) (i : Nat) (h : i < numChunks src) :
    (packetsFrom 0 src)[i]? = some (BuildPacket (i % 2 ^ 32) (chunkAt src i)) := by
  simp [packetsFrom, List.getElem?_range h]

/-- On the lossless channel `sent` ends as four times the number of chunks,
whatever the size of the file. -/
theorem transfer_lossless_sent (peer dst : Addr) (src : List Byte) :
    (transfer peer dst src).state.sent = 4 * numChunks src := by
  by_cases hlen : src.length = 0 ∨ 4 ≤ src.length
  · exact (transfer_lossless peer dst src hlen).2.2.2.1
  · have h1 : 1 ≤ src.length := by omega
    have h3 : src.length ≤ 3 := by omega
    rw [(transfer_small peer dst src h1 h3).2.2.1]
    cases src with
    | nil => simp at h1
    | cons b bs => rw [(chunks_small b bs h3).2.2.2]

theorem writesOf_flatten_map (cs : List (List Byte)) (f : List Byte → List NetCall) :
    writesOf ((cs.map f).flatten) = (cs.map (fun c => writesOf (f c))).flatten := by
  induction cs with
  | nil => rfl
  | cons c cs ih => simp [writesOf_append, ih]

/-- On the network where no datagram ever arrives, `Upload` sends every chunk
of the file five times under the sequence number 0, then the "EOF" packet
with the sequence number 0, and returns `nil`. -/
theorem Upload_silent (addr : Addr) (content : List Byte) :
    (Upload scripted (some content) addr silent).exit = .nil ∧
    writesOf (Upload scripted (some content) addr silent).world.log =
      ((chunks content).map (fun c => List.replicate 5 (BuildPacket 0 c, addr))).flatten
        ++ [(BuildPacket 0 EOF, addr)] := by
  have h := uploadLoop_silent addr content.length content.length content
    { seq := 0, sent := 0, progress := [] } [] (Nat.le_refl _)
  have hs : silent = Net.mk [] [] [] := rfl
  refine ⟨by simp only [Upload, hs, h], ?_⟩
  simp only [Upload, hs, h, scripted_write, List.nil_append, writesOf_append,
    writesOf_flatten_map, MaxRetries, writesOf_timeouts]
  rfl

/-! ## Claims on the sender -/

/-- C14 as stated fails.  When no acknowledgment arrives, the two chunks of the
source of 8193 zero bytes are both sent with `seq` 0, five times each, and so
is the "EOF" packet.  And over the lossless channel the chunk of index
4294967296 of a source of 4294967297 chunks is sent with `seq` 0 again. -/
theorem C14_counterexample :
    chunks (List.replicate 8193 (0 : Byte)) = [List.replicate 8192 0, [0]] ∧
    List.replicate 8192 (0 : Byte) ≠ [0] ∧
    writesOf (Upload scripted (some (List.replicate 8193 0)) "10.0.0.1:8000" silent).world.log
      = List.replicate 5 (BuildPacket 0 (List.replicate 8192 0), "10.0.0.1:8000") ++
        List.replicate 5 (BuildPacket 0 [0], "10.0.0.1:8000") ++
        [(BuildPacket 0 EOF, "10.0.0.1:8000")] ∧
    (transfer "10.0.0.2:8000" "10.0.0.1:8000"
        (List.replicate (4294967296 * 8192 + 1) 0)).world.wire[4294967296]?
      = some (BuildPacket 0 (chunkAt (List.replicate (4294967296 * 8192 + 1) 0) 4294967296)) := by
  refine ⟨chunks_zeros_8193, ?_, ?_, ?_⟩
  · intro h
    have := congrArg List.length h
    rw [List.length_replicate] at this
    exact absurd this (by decide)
  · rw [(Upload_silent _ _).2, chunks_zeros_8193]
    simp only [List.map_cons, List.map_nil, List.flatten_cons, List.flatten_nil,
      List.append_nil, List.append_assoc]
  · have hn := numChunks_zeros_succ 4294967296
    have hT := transfer_lossless "10.0.0.2:8000" "10.0.0.1:8000"
      (List.replicate (4294967296 * 8192 + 1) 0) (Or.inr (by rw [List.length_replicate]; omega))
    have hlt : 4294967296 < (packetsFrom 0 (List.replicate (4294967296 * 8192 + 1) (0 : Byte))).length := by
      rw [packetsFrom_length, hn]
      omega
    have h0 : 4294967296 % 2 ^ 32 = 0 := by norm_num
    rw [hT.2.1, List.getElem?_append_left hlt,
      packetsFrom_getElem? _ _ (by rw [hn]; omega), h0]

/-- C14, amended: `seq` is a `uint32`, and what happens once a chunk has used up
its attempts is left open.  For every source and every script of the network
on which every chunk is acknowledged (`Upload` reports progress once per
chunk), the socket calls of `Upload` are those of one round per chunk, in
order, followed at most by the send of the "EOF" packet; the chunk of index
`i` is sent, between 1 and 5 times, with `seq = i mod 2 ^ 32` and with
nothing else, and two chunks are sent under the same `seq` only if their
indices agree modulo `2 ^ 32`. -/
theorem C14_chunk_numbering (addr : Addr) (content : List Byte) (w : Net)
    (hall : (Upload scripted (some content) addr w).state.progress.length
      = numChunks content) :
    ∃ (rounds : List Round) (tail : List NetCall),
      (Upload scripted (some content) addr w).world.log =
        w.log ++ (rounds.map Round.calls).flatten ++ tail ∧
      (∀ c ∈ tail, ∃ ok, c = .write (BuildPacket (numChunks content % 2 ^ 32) EOF) addr ok) ∧
      tail.length ≤ 1 ∧
      rounds.length = numChunks content ∧
      (∀ r ∈ rounds, RoundOk addr r) ∧
      (∀ i r, rounds[i]? = some r →
        r.seq = i % 2 ^ 32 ∧ r.chunk = chunkAt content i ∧ r.acked = true) ∧
      (∀ i j ri rj, rounds[i]? = some ri → rounds[j]? = some rj → ri.seq = rj.seq →
        i % 2 ^ 32 = j % 2 ^ 32) := by
  obtain ⟨rounds, tail, h1, h2, h3, h4, -, h6, h7, h8, -, h10⟩ := Upload_rounds addr content w
  have hlen := rounds_length rounds content h2
  have hcount : countAcked rounds = rounds.length := by
    rw [h6] at hall
    simpa [hlen] using hall
  have hall1 : ∀ r ∈ rounds, r.acked = true := by
    simpa [countAcked] using hcount
  have hseq : ∀ i r, rounds[i]? = some r → r.seq = i % 2 ^ 32 := by
    intro i r hi
    have hlt : i < rounds.length := by
      rcases Nat.lt_or_ge i rounds.length with h1 | h1
      · exact h1
      · rw [List.getElem?_eq_none h1] at hi
        simp at hi
    rw [h4 i r hi, countAcked_take_of_all rounds hcount i (by omega)]
  refine ⟨rounds, tail, h1, ?_, ?_, hlen, h3, ?_, ?_⟩
  · rcases h7 with he | he
    · obtain ⟨-, ok, ht⟩ := h8 he
      rw [ht, hcount, hlen]
      intro c hc
      exact ⟨ok, List.mem_singleton.1 hc⟩
    · rw [(h10 he).1]
      intro c hc
      simp at hc
  · rcases h7 with he | he
    · obtain ⟨-, ok, ht⟩ := h8 he
      rw [ht]
      simp
    · rw [(h10 he).1]
      simp
  · intro i r hi
    exact ⟨hseq i r hi, (rounds_chunk rounds content h2 i r hi).2,
      hall1 r (List.getElem?_mem hi)⟩
  · intro i j ri rj hi hj hs
    rw [← hseq i ri hi, ← hseq j rj hj, hs]

/-- Instance of C14: a four-byte file whose only chunk is acknowledged at the
second attempt. -/
theorem C14_chunk_numbering_witness :
    (Upload scripted (some [1, 2, 3, 4]) "10.0.0.1:8000"
        { sends := [], reads := [none, some ([0, 0, 0, 0], "10.0.0.1:8000")], log := [] }
      ).state.progress.length = numChunks [1, 2, 3, 4] ∧
    ∃ (rounds : List Round) (tail : List NetCall),
      (Upload scripted (some [1, 2, 3, 4]) "10.0.0.1:8000"
        { sends := [], reads := [none, some ([0, 0, 0, 0], "10.0.0.1:8000")], log := [] }
      ).world.log = [] ++ (rounds.map Round.calls).flatten ++ tail ∧
      rounds.length = numChunks [1, 2, 3, 4] ∧
      ∀ i r, rounds[i]? = some r → r.seq = i % 2 ^ 32 := by
  have hall : (Upload scripted (some [1, 2, 3, 4]) "10.0.0.1:8000"
        { sends := [], reads := [none, some ([0, 0, 0, 0], "10.0.0.1:8000")], log := [] }
      ).state.progress.length = numChunks [1, 2, 3, 4] := by
    simp [Upload, uploadLoop, retryLoop, scripted, cut, Uint32, BuildPacket, PutUint32, toByte,
      printProgress_ok, numChunks, ChunkSize, MaxRetries]
  refine ⟨hall, ?_⟩
  obtain ⟨rounds, tail, h1, -, -, h4, -, h6, -⟩ := C14_chunk_numbering "10.0.0.1:8000"
    [1, 2, 3, 4]
    { sends := [], reads := [none, some ([0, 0, 0, 0], "10.0.0.1:8000")], log := [] } hall
  exact ⟨rounds, tail, h1, h4, fun i r hi => (h6 i r hi).1⟩

/-- C16: silent continue on exhaustion, and where `Upload` does not return
`nil`.  The file `[1, 2, 3]` whose chunk is acknowledged at the first
attempt: `sent` becomes 4, `printProgress(4, 3)` panics, and `Upload` ends
there, without the "EOF" packet and without returning `nil`.  For every file
and every script of the network, `Upload` makes one round of 1 to 5 sends for
every chunk of the file, in order, whether or not the rounds before were
acknowledged (a round that is not acknowledged has 5 sends and is followed
by the round of the next chunk); it returns `nil` after sending the "EOF"
packet, or panics, and it panics exactly when the file has one to three
bytes and its chunk is acknowledged.  So a file that is empty or has at
least four bytes gives `nil` for every script.  When no datagram ever arrives
every chunk is sent five times, then the "EOF" packet, and the result is
`nil`, for every file. -/
theorem C16_silent_continue :
    (Upload scripted (some [1, 2, 3]) "10.0.0.1:8000"
      { sends := [], reads := [some ([0, 0, 0, 0], "10.0.0.1:8000")], log := [] }).exit
      = .panic ∧
    (Upload scripted (some [1, 2, 3]) "10.0.0.1:8000"
      { sends := [], reads := [some ([0, 0, 0, 0], "10.0.0.1:8000")], log := [] }).world.log
      = [.write (BuildPacket 0 [1, 2, 3]) "10.0.0.1:8000" true,
         .read 4 (some ([0, 0, 0, 0], "10.0.0.1:8000"))] ∧
    (Upload scripted (some [1, 2, 3]) "10.0.0.1:8000"
      { sends := [], reads := [some ([0, 0, 0, 0], "10.0.0.1:8000")], log := [] }).state
      = { seq := 0, sent := 4, progress := [(4, 3)] } ∧
    (∀ (addr : Addr) (content : List Byte) (w : Net),
      ∃ (rounds : List Round) (tail : List NetCall),
        (Upload scripted (some content) addr w).world.log =
          w.log ++ (rounds.map Round.calls).flatten ++ tail ∧
        rounds.length = numChunks content ∧
        (∀ i r, rounds[i]? = some r → r.chunk = chunkAt content i ∧ RoundOk addr r) ∧
        (∀ i r, rounds[i]? = some r → r.acked = false → i + 1 < numChunks content →
          countWrites r.calls = 5 ∧
          ∃ r1, rounds[i + 1]? = some r1 ∧ r1.chunk = chunkAt content (i + 1) ∧
            1 ≤ countWrites r1.calls) ∧
        ((Upload scripted (some content) addr w).exit = .nil ∨
          (Upload scripted (some content) addr w).exit = .panic) ∧
        ((Upload scripted (some content) addr w).exit = .nil →
          ∃ ok, tail =
            [.write (BuildPacket (Upload scripted (some content) addr w).state.seq EOF) addr ok]) ∧
        ((Upload scripted (some content) addr w).exit = .panic ↔
          (1 ≤ content.length ∧ content.length ≤ 3 ∧ countAcked rounds = 1)) ∧
        (content.length = 0 ∨ 4 ≤ content.length →
          (Upload scripted (some content) addr w).exit = .nil)) ∧
    (∀ (addr : Addr) (content : List Byte),
      writesOf (Upload scripted (some content) addr silent).world.log =
        ((chunks content).map (fun c => List.replicate 5 (BuildPacket 0 c, addr))).flatten
          ++ [(BuildPacket 0 EOF, addr)] ∧
      (Upload scripted (some content) addr silent).exit = .nil) := by
  refine ⟨?_, ?_, ?_, ?_, fun addr content =>
    ⟨(Upload_silent addr content).2, (Upload_silent addr content).1⟩⟩
  · simp [Upload, uploadLoop, retryLoop, scripted, cut, Uint32, BuildPacket, PutUint32, toByte,
      printProgress_panic, ChunkSize, MaxRetries]
  · simp [Upload, uploadLoop, retryLoop, scripted, cut, Uint32, BuildPacket, PutUint32, toByte,
      printProgress_panic, ChunkSize, MaxRetries]
  · simp [Upload, uploadLoop, retryLoop, scripted, cut, Uint32, BuildPacket, PutUint32, toByte,
      printProgress_panic, ChunkSize, MaxRetries]
  · intro addr content w
    obtain ⟨rounds, tail, h1, h2, h3, -, -, -, h7, h8, h9, -⟩ := Upload_rounds addr content w
    have hlen := rounds_length rounds content h2
    refine ⟨rounds, tail, h1, hlen, ?_, ?_, h7, ?_, h9, ?_⟩
    · intro i r hi
      exact ⟨(rounds_chunk rounds content h2 i r hi).2, h3 r (List.getElem?_mem hi)⟩
    · intro i r hi hna hnext
      have hlt : i + 1 < rounds.length := by rw [hlen]; exact hnext
      have hr1 : rounds[i + 1]? = some rounds[i + 1] := List.getElem?_eq_getElem hlt
      have hok := h3 _ (List.getElem?_mem hr1)
      exact ⟨((h3 r (List.getElem?_mem hi)).2.2.2.2 hna).1, rounds[i + 1], hr1,
        (rounds_chunk rounds content h2 (i + 1) _ hr1).2, hok.2.1⟩
    · intro he
      obtain ⟨hs, ok, ht⟩ := h8 he
      exact ⟨ok, by rw [ht, hs]⟩
    · intro hl
      rcases h7 with he | he
      · exact he
      · have := h9.1 he
        omega

/-- C17 as stated fails.  When no acknowledgment arrives for the only chunk of
the file `[1, 2, 3]`, the chunk is sent five times with `seq` 0 and the "EOF"
packet is sent with `seq` 0 as well, not with 1.  And over the lossless
channel, after the 4294967296 chunks of a source the last of which is sent
with `seq` 4294967295, the "EOF" packet is sent with `seq` 0. -/
theorem C17_counterexample :
    (Upload scripted (some [1, 2, 3]) "10.0.0.1:8000" silent).world.log =
      [.write (BuildPacket 0 [1, 2, 3]) "10.0.0.1:8000" true, .read 4 none,
       .write (BuildPacket 0 [1, 2, 3]) "10.0.0.1:8000" true, .read 4 none,
       .write (BuildPacket 0 [1, 2, 3]) "10.0.0.1:8000" true, .read 4 none,
       .write (BuildPacket 0 [1, 2, 3]) "10.0.0.1:8000" true, .read 4 none,
       .write (BuildPacket 0 [1, 2, 3]) "10.0.0.1:8000" true, .read 4 none,
       .write (BuildPacket 0 EOF) "10.0.0.1:8000" true] ∧
    (transfer "10.0.0.2:8000" "10.0.0.1:8000"
        (List.replicate (4294967296 * 8192) 0)).world.wire[4294967295]?
      = some (BuildPacket 4294967295
          (chunkAt (List.replicate (4294967296 * 8192) 0) 4294967295)) ∧
    (transfer "10.0.0.2:8000" "10.0.0.1:8000"
        (List.replicate (4294967296 * 8192) 0)).world.wire[4294967296]?
      = some (BuildPacket 0 EOF) := by
  have hn := numChunks_zeros 4294967296
  have hl := packetsFrom_length 0 (List.replicate (4294967296 * 8192) (0 : Byte))
  have hT := transfer_lossless "10.0.0.2:8000" "10.0.0.1:8000"
    (List.replicate (4294967296 * 8192) 0) (Or.inr (by rw [List.length_replicate]; omega))
  rw [hn] at hl
  refine ⟨by decide, ?_, ?_⟩
  · have h0 : 4294967295 % 2 ^ 32 = 4294967295 := by norm_num
    rw [hT.2.1, List.getElem?_append_left (by rw [hl]; omega),
      packetsFrom_getElem? _ _ (by rw [hn]; omega), h0]
  · have h0 : 4294967296 % 2 ^ 32 = 0 := by norm_num
    rw [hT.2.1, List.getElem?_append_right (by rw [hl]), hl, hn, h0]
    rfl

/-- C17, amended: the "EOF" packet carries the current `seq`, a `uint32`; what
that is after a last chunk that was not acknowledged is left open.  For every
file and every script of the network, the socket calls of `Upload` are those
of the rounds of the chunks followed by what comes after the loop.  When
`Upload` returns `nil`, as it does for every file that is empty or has at
least four bytes, that is exactly one call, the send of the packet made of
the final `seq` and the payload "EOF": it is sent once, and no read follows
it; that `seq` is 0 for an empty file and one more, modulo `2 ^ 32`, than the
`seq` of the last chunk when that chunk was acknowledged.  Otherwise `Upload`
has panicked before the end of the file and nothing is sent after the
rounds. -/
theorem C17_final_packet (addr : Addr) (content : List Byte) (w : Net) :
    ∃ (rounds : List Round) (tail : List NetCall),
      (Upload scripted (some content) addr w).world.log =
        w.log ++ (rounds.map Round.calls).flatten ++ tail ∧
      rounds.map Round.chunk = chunks content ∧
      (∀ r ∈ rounds, RoundOk addr r) ∧
      ((Upload scripted (some content) addr w).exit = .nil ∨
        (Upload scripted (some content) addr w).exit = .panic) ∧
      (content.length = 0 ∨ 4 ≤ content.length →
        (Upload scripted (some content) addr w).exit = .nil) ∧
      ((Upload scripted (some content) addr w).exit = .nil →
        (∃ ok, tail =
          [.write (BuildPacket (Upload scripted (some content) addr w).state.seq EOF) addr ok]) ∧
        (content = [] → rounds = [] ∧ (Upload scripted (some content) addr w).state.seq = 0) ∧
        (∀ r, rounds.getLast? = some r → r.acked = true →
          (Upload scripted (some content) addr w).state.seq = (r.seq + 1) % 2 ^ 32)) ∧
      ((Upload scripted (some content) addr w).exit = .panic → tail = []) := by
  obtain ⟨rounds, tail, h1, h2, h3, h4, -, -, h7, h8, h9, h10⟩ := Upload_rounds addr content w
  refine ⟨rounds, tail, h1, h2, h3, h7, ?_, ?_, fun he => (h10 he).1⟩
  · intro hl
    rcases h7 with he | he
    · exact he
    · have := h9.1 he
      omega
  · intro he
    obtain ⟨hs, ok, ht⟩ := h8 he
    refine ⟨⟨ok, by rw [ht, hs]⟩, ?_, ?_⟩
    · intro hc
      subst hc
      have hr : rounds = [] := by
        have := rounds_length rounds [] h2
        rw [numChunks_nil] at this
        exact List.length_eq_zero.1 this
      subst hr
      exact ⟨rfl, by rw [hs]; rfl⟩
    · intro r hlast hack
      obtain ⟨ys, rfl⟩ := List.getLast?_eq_some_iff.1 hlast
      have hr := h4 ys.length r (List.getElem?_concat_length ys r)
      have ht : (ys ++ [r]).take ys.length = ys := by simp
      rw [ht] at hr
      rw [hs, hr, countAcked_append]
      simp only [countAcked, List.countP_cons, List.countP_nil, hack, if_true]
      omega

/-- C20 as stated fails where the counter wraps: over the lossless channel the
4294967296 chunks of a source are each sent once and acknowledged (`sent`
grows by four at each acknowledgment), and the "EOF" packet is sent with
`seq` 0, not 4294967296. -/
theorem C20_counterexample :
    (transfer "10.0.0.2:8000" "10.0.0.1:8000" (List.replicate (4294967296 * 8192) 0)).world.wire
      = packetsFrom 0 (List.replicate (4294967296 * 8192) 0) ++ [BuildPacket 0 EOF] ∧
    (packetsFrom 0 (List.replicate (4294967296 * 8192) (0 : Byte))).length = 4294967296 ∧
    (transfer "10.0.0.2:8000" "10.0.0.1:8000" (List.replicate (4294967296 * 8192) 0)).state.sent
      = 4 * 4294967296 ∧
    (transfer "10.0.0.2:8000" "10.0.0.1:8000" (List.replicate (4294967296 * 8192) 0)).state.seq
      = 0 ∧
    (0 : Nat) ≠ 4294967296 := by
  have hn := numChunks_zeros 4294967296
  have h0 : 4294967296 % 2 ^ 32 = 0 := by norm_num
  have hT := transfer_lossless "10.0.0.2:8000" "10.0.0.1:8000"
    (List.replicate (4294967296 * 8192) 0) (Or.inr (by rw [List.length_replicate]; omega))
  refine ⟨?_, ?_, ?_, ?_, by decide⟩
  · rw [hT.2.1, hn, h0]
  · rw [packetsFrom_length, hn]
  · rw [transfer_lossless_sent, hn]
  · rw [hT.2.2.1, hn, h0]

/-- C20, amended: `seq` is a `uint32`, so the count is taken modulo `2 ^ 32`.
For every file and every script of the network, `seq` moves only at an
acknowledgment: the chunk after one that was not acknowledged is sent under
the same `seq`, the chunk after one that was acknowledged under that `seq`
plus one modulo `2 ^ 32`.  When `Upload` returns `nil`, as it does for every
file that is empty or has at least four bytes, the "EOF" packet carries the
number of chunks that were acknowledged, modulo `2 ^ 32`, which is less than
the number of chunks read as soon as one chunk was not acknowledged.
Otherwise `Upload` has panicked and sent no "EOF" packet. -/
theorem C20_seq_counts_acks (addr : Addr) (content : List Byte) (w : Net) :
    ∃ (rounds : List Round) (tail : List NetCall),
      (Upload scripted (some content) addr w).world.log =
        w.log ++ (rounds.map Round.calls).flatten ++ tail ∧
      rounds.length = numChunks content ∧
      (∀ r ∈ rounds, RoundOk addr r) ∧
      (∀ i r r1, rounds[i]? = some r → rounds[i + 1]? = some r1 →
        (r.acked = false → r1.seq = r.seq) ∧
        (r.acked = true → r1.seq = (r.seq + 1) % 2 ^ 32)) ∧
      countAcked rounds ≤ numChunks content ∧
      ((∃ r ∈ rounds, r.acked = false) → countAcked rounds < numChunks content) ∧
      ((Upload scripted (some content) addr w).exit = .nil ∨
        (Upload scripted (some content) addr w).exit = .panic) ∧
      (content.length = 0 ∨ 4 ≤ content.length →
        (Upload scripted (some content) addr w).exit = .nil) ∧
      ((Upload scripted (some content) addr w).exit = .nil →
        (Upload scripted (some content) addr w).state.seq = countAcked rounds % 2 ^ 32 ∧
        ∃ ok, tail = [.write (BuildPacket (countAcked rounds % 2 ^ 32) EOF) addr ok]) ∧
      ((Upload scripted (some content) addr w).exit = .panic → tail = []) := by
  obtain ⟨rounds, tail, h1, h2, h3, h4, -, -, h7, h8, h9, h10⟩ := Upload_rounds addr content w
  have hlen := rounds_length rounds content h2
  have hle : countAcked rounds ≤ rounds.length := List.countP_le_length _
  refine ⟨rounds, tail, h1, hlen, h3, ?_, by rw [← hlen]; exact hle, ?_, h7, ?_, h8,
    fun he => (h10 he).1⟩
  · intro i r r1 hi hi1
    have h7 := h4 i r hi
    have h8 := h4 (i + 1) r1 hi1
    have ht : rounds.take (i + 1) = rounds.take i ++ [r] := by
      rw [List.take_succ, hi]
      rfl
    rw [ht, countAcked_append] at h8
    constructor
    · intro ha
      rw [h8, h7]
      simp [countAcked, ha]
    · intro ha
      rw [h8, h7]
      simp only [countAcked, List.countP_cons, List.countP_nil, ha, if_true]
      omega
  · rintro ⟨r, hr, hna⟩
    rw [← hlen]
    rcases Nat.lt_or_ge (countAcked rounds) rounds.length with h | h
    · exact h
    · have heq : countAcked rounds = rounds.length := Nat.le_antisymm hle h
      have hall : ∀ r ∈ rounds, r.acked = true := by
        simpa [countAcked] using heq
      rw [hall r hr] at hna
      exact absurd hna (by decide)
  · intro hl
    rcases h7 with he | he
    · exact he
    · have := h9.1 he
      omega

/-- C18: the progress counter.  Over the lossless channel the three-byte file
`[1, 2, 3]` is acknowledged in full and `Upload` reports the counter 4
against the total 3: it adds the number of bytes of the acknowledgment, the
`n` of the read into `ackBuf`, not the size of the chunk.  In general `sent`
ends as four times the number of chunks on the lossless channel (12 for a
file of 20,000 bytes), and on every scripted network the `k`-th progress
report carries `4 * k`. -/
theorem C18_progress_counts_ack_bytes :
    (transfer "10.0.0.2:8000" "10.0.0.1:8000" [1, 2, 3]).state.progress = [(4, 3)] ∧
    (transfer "10.0.0.2:8000" "10.0.0.1:8000" [1, 2, 3]).state.sent = 4 ∧
    (∀ (peer dst : Addr) (src : List Byte),
      (transfer peer dst src).state.sent = 4 * numChunks src) ∧
    (∀ (peer dst : Addr) (src : List Byte), src.length = 20000 →
      (transfer peer dst src).state.sent = 12) ∧
    (∀ (addr : Addr) (content : List Byte) (w : Net),
      ∃ a, a ≤ numChunks content ∧
        (Upload scripted (some content) addr w).state.sent = 4 * a ∧
        (Upload scripted (some content) addr w).state.progress =
          (List.range a).map (fun i => (4 * (i + 1), content.length))) := by
  have hs := (transfer_small "10.0.0.2:8000" "10.0.0.1:8000" [1, 2, 3] (by decide)
    (by decide)).2.2.1
  refine ⟨by rw [hs]; rfl, by rw [hs], transfer_lossless_sent, ?_, ?_⟩
  · intro peer dst src hlen
    rw [transfer_lossless_sent]
    simp [numChunks, hlen, ChunkSize]
  · intro addr content w
    obtain ⟨rounds, tail, -, h2, -, -, h5, h6, -⟩ := Upload_rounds addr content w
    refine ⟨countAcked rounds, ?_, h5, h6⟩
    rw [← rounds_length rounds content h2]
    exact List.countP_le_length _

/-! ## The sender on the channel that loses one acknowledgment -/

theorem eraseIdx_snoc_of_ne {α : Type} (A : List α) (a : α) (j : Nat) (h : A.length ≠ j) :
    (A ++ [a]).eraseIdx j = A.eraseIdx j ++ [a] := by
  rcases Nat.lt_or_gt_of_ne h with h1 | h1
  · rw [List.eraseIdx_of_length_le (by simp; omega), List.eraseIdx_of_length_le (by omega)]
  · exact List.eraseIdx_append_of_lt_length h1 [a]

theorem eraseIdx_snoc_length {α : Type} (A : List α) (a : α) :
    (A ++ [a]).eraseIdx A.length = A := by
  rw [List.eraseIdx_append_of_length_le (Nat.le_refl _)]
  simp

theorem BuildPacket_take4 (seq : Nat) (chunk : List Byte) :
    (BuildPacket seq chunk).take 4 = PutUint32 seq := by
  simp [BuildPacket, PutUint32]

theorem BuildPacket_fits (seq : Nat) (chunk : List Byte) (hlen : chunk.length ≤ ChunkSize) :
    (BuildPacket seq chunk).take (ChunkSize + 4) = BuildPacket seq chunk :=
  List.take_of_length_le (by rw [BuildPacket_length]; omega)

/-- The receiver on the link, waiting, reads one more packet. -/
theorem receiver_append (peer : Addr) (l : Link) (p : List Byte) (t : Nat)
    (hexit : (l.receiver peer).exit = .error .readTimeout)
    (hfit : p.take (ChunkSize + 4) = p) :
    Link.receiver peer { wire := l.wire ++ [p], taken := t } =
      downloadLoop peer (l.receiver peer).state [.datagram peer p .ok] := by
  have hexit1 : (downloadLoop peer recvInit (l.trace peer)).exit = .error .readTimeout := by
    simpa [Link.receiver, Download] using hexit
  simp only [Link.receiver, Download, if_true, Link.trace, List.map_append, List.map_cons,
    List.map_nil, hfit]
  exact downloadLoop_append_waiting peer _ _ (Link.trace_datagrams peer l) recvInit hexit1

theorem receiver_data (peer : Addr) (l : Link) (seq : Nat) (chunk : List Byte) (t : Nat)
    (hexit : (l.receiver peer).exit = .error .readTimeout)
    (hexp : (l.receiver peer).state.expectedSeq = seq)
    (hseq : seq < 2 ^ 32) (hlen : chunk.length ≤ ChunkSize) (hd : chunk ≠ EOF) :
    Link.receiver peer { wire := l.wire ++ [BuildPacket seq chunk], taken := t } =
      { state := { file := (l.receiver peer).state.file ++ chunk,
                   expectedSeq := (seq + 1) % 2 ^ 32,
                   acks := (l.receiver peer).state.acks ++ [(PutUint32 seq, peer)] },
        exit := .error .readTimeout, rest := [] } := by
  rw [receiver_append peer l _ t hexit (BuildPacket_fits seq chunk hlen),
    downloadLoop_next peer _ _ _ _ (downloadBody_accept peer _ _ seq chunk
      (ParsePacket_BuildPacket seq hseq chunk) hd hexp.symm), hexp]
  rfl

theorem receiver_old (peer : Addr) (l : Link) (seq : Nat) (chunk : List Byte) (t : Nat)
    (hexit : (l.receiver peer).exit = .error .readTimeout)
    (hexp : seq < (l.receiver peer).state.expectedSeq)
    (hseq : seq < 2 ^ 32) (hlen : chunk.length ≤ ChunkSize) (hd : chunk ≠ EOF) :
    Link.receiver peer { wire := l.wire ++ [BuildPacket seq chunk], taken := t } =
      { state := { file := (l.receiver peer).state.file,
                   expectedSeq := (l.receiver peer).state.expectedSeq,
                   acks := (l.receiver peer).state.acks ++ [(PutUint32 seq, peer)] },
        exit := .error .readTimeout, rest := [] } := by
  rw [receiver_append peer l _ t hexit (BuildPacket_fits seq chunk hlen),
    downloadLoop_next peer _ _ _ _ (downloadBody_old peer _ _ _ seq chunk
      (ParsePacket_BuildPacket seq hseq chunk) hd hexp)]
  rfl

theorem receiver_gap (peer : Addr) (l : Link) (seq : Nat) (chunk : List Byte) (t : Nat)
    (hexit : (l.receiver peer).exit = .error .readTimeout)
    (hexp : (l.receiver peer).state.expectedSeq < seq)
    (hseq : seq < 2 ^ 32) (hlen : chunk.length ≤ ChunkSize) (hd : chunk ≠ EOF) :
    Link.receiver peer { wire := l.wire ++ [BuildPacket seq chunk], taken := t } =
      { state := (l.receiver peer).state, exit := .error .readTimeout, rest := [] } := by
  rw [receiver_append peer l _ t hexit (BuildPacket_fits seq chunk hlen),
    downloadLoop_next peer _ _ _ _ (downloadBody_gap peer _ _ _ seq chunk
      (ParsePacket_BuildPacket seq hseq chunk) hd hexp)]
  rfl

theorem receiver_eof (peer : Addr) (l : Link) (seq : Nat) (t : Nat)
    (hexit : (l.receiver peer).exit = .error .readTimeout) (hseq : seq < 2 ^ 32) :
    Link.receiver peer { wire := l.wire ++ [BuildPacket seq EOF], taken := t } =
      { state := { file := (l.receiver peer).state.file,
                   expectedSeq := (l.receiver peer).state.expectedSeq,
                   acks := (l.receiver peer).state.acks ++ [(PutUint32 seq, peer)] },
        exit := .nil, rest := [] } := by
  rw [receiver_append peer l _ t hexit (BuildPacket_fits seq EOF (by decide)),
    downloadLoop_stop peer _ _ _ _ (downloadBody_eof peer _ _ _ seq
      (ParsePacket_BuildPacket seq hseq EOF))]
  rfl

theorem dropAck_write (peer dst : Addr) (j : Nat) (p : List Byte) (l : Link) :
    (dropAck peer dst j).WriteToUDP p dst l = (true, { wire := l.wire ++ [p], taken := l.taken }) := by
  simp [dropAck]

theorem dropAck_read_none (peer dst : Addr) (j n : Nat) (l : Link)
    (h : (((l.receiver peer).state.acks.map Prod.fst).eraseIdx j).drop l.taken = []) :
    (dropAck peer dst j).ReadFromUDP n l = (none, l) := by
  simp only [Link.receiver] at h
  simp only [dropAck, h]

theorem dropAck_read_some (peer dst : Addr) (j n : Nat) (l : Link) (a : List Byte)
    (tl : List (List Byte))
    (h : (((l.receiver peer).state.acks.map Prod.fst).eraseIdx j).drop l.taken = a :: tl) :
    (dropAck peer dst j).ReadFromUDP n l =
      (some (a.take n, dst), { wire := l.wire, taken := l.taken + 1 }) := by
  simp only [Link.receiver] at h
  simp only [dropAck, h]

theorem map_fst_ackFor (peer : Addr) (ps : List (List Byte)) :
    (ps.map (ackFor peer)).map Prod.fst = ps.map (fun p => p.take 4) := by
  simp [ackFor, List.map_map, Function.comp]

/-- One attempt on the link that ends with the read of the acknowledgment of
the current sequence number. -/
theorem retryLoop_acked (peer dst : Addr) (j total k : Nat) (st : SendState) (pkt : List Byte)
    (l : Link) (tl : List (List Byte)) (hseq : st.seq < 2 ^ 32)
    (h : (((Link.receiver peer { wire := l.wire ++ [pkt], taken := l.taken }).state.acks.map
      Prod.fst).eraseIdx j).drop l.taken = PutUint32 st.seq :: tl) :
    retryLoop (dropAck peer dst j) dst pkt total (k + 1) st l =
      ((roundEnd total st true).1, (roundEnd total st true).2,
        { wire := l.wire ++ [pkt], taken := l.taken + 1 }) := by
  have hdec : Uint32 (((PutUint32 st.seq).take 4).take 4) = some st.seq := by
    rw [List.take_take, Nat.min_self, List.take_of_length_le (by simp [PutUint32_length])]
    exact Uint32_PutUint32 st.seq hseq
  have hlen4 : 4 ≤ ((PutUint32 st.seq).take 4).length := by simp [PutUint32_length]
  have hlen5 : ((PutUint32 st.seq).take 4).length = 4 := by simp [PutUint32_length]
  rw [retryLoop]
  simp only [dropAck_write,
    dropAck_read_some peer dst j 4 { wire := l.wire ++ [pkt], taken := l.taken } _ tl h,
    hlen4, if_true, hdec, hlen5, roundEnd, advance, report]
  cases printProgress (st.sent + 4) total <;> rfl

/-- One attempt on the link that ends with a read that times out. -/
theorem retryLoop_unanswered (peer dst : Addr) (j total k : Nat) (st : SendState)
    (pkt : List Byte) (l : Link)
    (h : (((Link.receiver peer { wire := l.wire ++ [pkt], taken := l.taken }).state.acks.map
      Prod.fst).eraseIdx j).drop l.taken = []) :
    retryLoop (dropAck peer dst j) dst pkt total (k + 1) st l =
      retryLoop (dropAck peer dst j) dst pkt total k st
        { wire := l.wire ++ [pkt], taken := l.taken } := by
  rw [retryLoop]
  simp only [dropAck_write,
    dropAck_read_none peer dst j 4 { wire := l.wire ++ [pkt], taken := l.taken } h]

/-- A chunk sent when the acknowledgment to be lost is not the next one: as on
the lossless channel. -/
theorem retryLoop_dropAck_fresh (peer dst : Addr) (j total : Nat) (l : Link) (st : SendState)
    (chunk : List Byte) (hs : SyncedDrop peer j l st) (hseq : st.seq < 2 ^ 32)
    (hlen : chunk.length ≤ ChunkSize) (hd : chunk ≠ EOF) (hne : l.wire.length ≠ j) :
    retryLoop (dropAck peer dst j) dst (BuildPacket st.seq chunk) total MaxRetries st l =
      ((roundEnd total st true).1, (roundEnd total st true).2,
        { wire := l.wire ++ [BuildPacket st.seq chunk], taken := l.taken + 1 }) ∧
    SyncedDrop peer j { wire := l.wire ++ [BuildPacket st.seq chunk], taken := l.taken + 1 }
      (advance total st) ∧
    (Link.receiver peer
      { wire := l.wire ++ [BuildPacket st.seq chunk], taken := l.taken + 1 }).state.file
        = (l.receiver peer).state.file ++ chunk := by
  obtain ⟨h1, h2, h3, h4, h5⟩ := hs
  have hA : (l.wire.map (fun p => p.take 4)).length ≠ j := by simpa using hne
  have hr := fun t => receiver_data peer l st.seq chunk t h1 h2 hseq hlen hd
  refine ⟨?_, ⟨?_, ?_, ?_, ?_, ?_⟩, ?_⟩
  · apply retryLoop_acked peer dst j total 4 st _ l [] hseq
    rw [hr, h3]
    simp only [List.map_append, map_fst_ackFor, List.map_cons, List.map_nil]
    rw [eraseIdx_snoc_of_ne _ _ _ hA, h4, List.drop_left]
  · rw [hr]
  · rw [hr]; rfl
  · rw [hr, h3]
    simp [ackFor, BuildPacket_take4]
  · simp only [List.map_append, List.map_cons, List.map_nil]
    rw [eraseIdx_snoc_of_ne _ _ _ hA, h4]
    simp
  · intro hle
    simp only [List.length_append, List.length_singleton] at hle
    have := h5 (by omega)
    simp only [advance, List.length_append, List.length_singleton]
    omega
  · rw [hr]

/-- The chunk whose first acknowledgment is lost, away from the wrap of the
sequence number: the second attempt is answered. -/
theorem retryLoop_dropAck_lost (peer dst : Addr) (j total : Nat) (l : Link) (st : SendState)
    (chunk : List Byte) (hs : SyncedDrop peer j l st) (hseq : st.seq + 1 < 2 ^ 32)
    (hlen : chunk.length ≤ ChunkSize) (hd : chunk ≠ EOF) (hj : l.wire.length = j) :
    retryLoop (dropAck peer dst j) dst (BuildPacket st.seq chunk) total MaxRetries st l =
      ((roundEnd total st true).1, (roundEnd total st true).2,
        { wire := l.wire ++ [BuildPacket st.seq chunk, BuildPacket st.seq chunk],
          taken := l.taken + 1 }) ∧
    SyncedDrop peer j
      { wire := l.wire ++ [BuildPacket st.seq chunk, BuildPacket st.seq chunk],
        taken := l.taken + 1 } (advance total st) ∧
    (Link.receiver peer
      { wire := l.wire ++ [BuildPacket st.seq chunk, BuildPacket st.seq chunk],
        taken := l.taken + 1 }).state.file
        = (l.receiver peer).state.file ++ chunk := by
  obtain ⟨h1, h2, h3, h4, h5⟩ := hs
  have hA : (l.wire.map (fun p => p.take 4)).length = j := by simpa using hj
  have hm : (st.seq + 1) % 2 ^ 32 = st.seq + 1 := Nat.mod_eq_of_lt hseq
  have hr1 := fun t => receiver_data peer l st.seq chunk t h1 h2 (by omega) hlen hd
  have hr2 : ∀ t, Link.receiver peer
      { wire := l.wire ++ [BuildPacket st.seq chunk, BuildPacket st.seq chunk], taken := t } =
      { state := { file := (l.receiver peer).state.file ++ chunk,
                   expectedSeq := (st.seq + 1) % 2 ^ 32,
                   acks := (l.receiver peer).state.acks ++ [(PutUint32 st.seq, peer)]
                     ++ [(PutUint32 st.seq, peer)] },
        exit := .error .readTimeout, rest := [] } := by
    intro t
    have h := receiver_old peer { wire := l.wire ++ [BuildPacket st.seq chunk], taken := t }
      st.seq chunk t (by rw [hr1]) (by rw [hr1]; simp only; omega) (by omega) hlen hd
    simp only [List.append_assoc, List.singleton_append] at h
    rw [h, hr1]
  have ht : l.taken = (l.wire.map (fun p => p.take 4)).length := by
    rw [h4, List.eraseIdx_of_length_le (by omega)]
  refine ⟨?_, ⟨?_, ?_, ?_, ?_, ?_⟩, ?_⟩
  · show retryLoop _ _ _ _ (3 + 1 + 1) _ _ = _
    rw [retryLoop_unanswered peer dst j total 4 st _ l]
    · have := retryLoop_acked peer dst j total 3 st (BuildPacket st.seq chunk)
        { wire := l.wire ++ [BuildPacket st.seq chunk], taken := l.taken } [] (by omega)
      simp only [List.append_assoc, List.singleton_append] at this
      apply this
      rw [hr2, h3]
      simp only [List.map_append, map_fst_ackFor, List.map_cons, List.map_nil]
      rw [List.eraseIdx_append_of_lt_length (by simp; omega), ← hA, eraseIdx_snoc_length, ht,
        List.drop_left]
    · rw [hr1, h3]
      simp only [List.map_append, map_fst_ackFor, List.map_cons, List.map_nil]
      rw [← hA, eraseIdx_snoc_length, ht, List.drop_length]
  · rw [hr2]
  · rw [hr2]; simp only [advance]
  · rw [hr2, h3]
    simp [ackFor, BuildPacket_take4]
  · simp only [List.map_append, List.map_cons, List.map_nil]
    have : (l.wire.map (fun p => p.take 4) ++
        [(BuildPacket st.seq chunk).take 4, (BuildPacket st.seq chunk).take 4]) =
        (l.wire.map (fun p => p.take 4) ++ [(BuildPacket st.seq chunk).take 4]) ++
          [(BuildPacket st.seq chunk).take 4] := by simp
    rw [this, List.eraseIdx_append_of_lt_length (by simp; omega), ← hA, eraseIdx_snoc_length, ht]
    simp
  · intro hle
    simp only [List.length_append, List.length_cons, List.length_nil] at hle
    omega
  · rw [hr2]

theorem wireAfter_nil {α : Type} (j n : Nat) : wireAfter j n ([] : List α) = [] := by
  simp [wireAfter, dupAt]

theorem wireAfter_cons_of_ne {α : Type} (j n : Nat) (p : α) (ps : List α) (h : n ≠ j) :
    wireAfter j n (p :: ps) = p :: wireAfter j (n + 1) ps := by
  rcases Nat.lt_or_gt_of_ne h with h1 | h1
  · have h2 : j - n = (j - (n + 1)) + 1 := by omega
    simp only [wireAfter, Nat.le_of_lt h1, if_true, Nat.succ_le_of_lt h1, dupAt]
    rw [h2]
    simp
  · simp [wireAfter, Nat.not_le_of_gt h1, Nat.not_le_of_gt (Nat.lt_succ_of_lt h1)]

theorem wireAfter_cons_self {α : Type} (j : Nat) (p : α) (ps : List α) :
    wireAfter j j (p :: ps) = p :: p :: wireAfter j (j + 2) ps := by
  simp [wireAfter, dupAt]

theorem dupAt_getElem? {α : Type} (j : Nat) (xs ys : List α) (h : j < xs.length) :
    (dupAt j xs ++ ys)[j]? = xs[j]? ∧ (dupAt j xs ++ ys)[j + 1]? = xs[j]? := by
  have hl : (xs.take (j + 1)).length = j + 1 := by
    rw [List.length_take]
    omega
  constructor
  · rw [dupAt, List.append_assoc, List.getElem?_append_left (by rw [hl]; omega),
      List.getElem?_take_of_lt (by omega)]
  · rw [dupAt, List.append_assoc, List.getElem?_append_right (by rw [hl]), hl, Nat.sub_self,
      List.getElem?_append_left (by rw [List.length_drop]; omega), List.getElem?_drop]
    rfl

theorem syncedDrop_init (peer : Addr) (j : Nat) :
    SyncedDrop peer j { wire := [], taken := 0 } { seq := 0, sent := 0, progress := [] } := by
  refine ⟨?_, ?_, ?_, ?_, ?_⟩ <;>
    simp [Link.receiver, Link.trace, Download, downloadLoop, recvInit]

/-- The outer loop of `Upload` on the channel that loses the `j`-th
acknowledgment, away from the wrap of the sequence number, when no chunk of
the unread part is "EOF" and `sent` is far enough below the total for four
more bytes per chunk: every chunk goes on the wire once, the one whose
acknowledgment is lost twice, and the receiver appends the unread part to its
file. -/
theorem uploadLoop_dropAck (peer dst : Addr) (total j : Nat) (hj : (j + 1) % 2 ^ 32 ≠ 0) :
    ∀ (fuel : Nat) (rest : List Byte) (st : SendState) (l : Link),
      rest.length ≤ fuel → st.seq < 2 ^ 32 → EOF ∉ chunks rest → SyncedDrop peer j l st →
      st.sent + 4 * numChunks rest ≤ total →
      ∃ st1 l1, uploadLoop (dropAck peer dst j) dst total fuel rest st l = (.ok, st1, l1) ∧
        l1.wire = l.wire ++ wireAfter j l.wire.length (packetsFrom st.seq rest) ∧
        st1.seq = (st.seq + numChunks rest) % 2 ^ 32 ∧
        SyncedDrop peer j l1 st1 ∧
        (l1.receiver peer).state.file = (l.receiver peer).state.file ++ rest := by
  intro fuel
  induction fuel with
  | zero =>
    intro rest st l hlen hseq _ hs _
    have : rest = [] := List.length_eq_zero.1 (by omega)
    subst this
    refine ⟨st, l, uploadLoop_nil _ _ _ _ _ _, by simp [packetsFrom_nil, wireAfter_nil], ?_, hs,
      by simp⟩
    simp only [numChunks_nil]
    omega
  | succ fuel ih =>
    intro rest st l hlen hseq hno hs hbar
    cases rest with
    | nil =>
      refine ⟨st, l, uploadLoop_nil _ _ _ _ _ _, by simp [packetsFrom_nil, wireAfter_nil], ?_,
        hs, by simp⟩
      simp only [numChunks_nil]
      omega
    | cons b bs =>
      have hchunk : ((b :: bs).take ChunkSize).length ≤ ChunkSize := by
        simp only [List.length_take]
        omega
      have hd : (b :: bs).take ChunkSize ≠ EOF := by
        intro h
        apply hno
        rw [chunks_cons, h]
        exact List.mem_cons_self _ _
      have hno1 : EOF ∉ chunks ((b :: bs).drop ChunkSize) := by
        intro hmem
        apply hno
        rw [chunks_cons]
        exact List.mem_cons_of_mem _ hmem
      have hlen1 : ((b :: bs).drop ChunkSize).length ≤ fuel := by
        simp only [List.length_drop, List.length_cons, ChunkSize] at *
        omega
      have hnum := numChunks_cons b bs
      have hpk := packetsFrom_cons st.seq hseq b bs
      have hseq1 : (advance total st).seq < 2 ^ 32 := Nat.mod_lt _ (by decide)
      have hend := roundEnd_ok total st (by omega)
      have hbar1 : (advance total st).sent + 4 * numChunks ((b :: bs).drop ChunkSize) ≤ total := by
        simp only [advance]
        omega
      by_cases hne : l.wire.length = j
      · have hs5 := hs.2.2.2.2 (by omega)
        have hseq2 : st.seq + 1 < 2 ^ 32 := by
          rw [hne] at hs5
          omega
        obtain ⟨hr, hs1, hf⟩ := retryLoop_dropAck_lost peer dst j total l st _ hs hseq2 hchunk
          hd hne
        have hstep : uploadLoop (dropAck peer dst j) dst total (fuel + 1) (b :: bs) st l =
            uploadLoop (dropAck peer dst j) dst total fuel ((b :: bs).drop ChunkSize)
              (advance total st)
              { wire := l.wire ++ [BuildPacket st.seq ((b :: bs).take ChunkSize),
                  BuildPacket st.seq ((b :: bs).take ChunkSize)],
                taken := l.taken + 1 } := by
          simp only [uploadLoop, hr, hend]
        obtain ⟨st2, l2, h1, h2, h3, h4, h5⟩ := ih _ _ _ hlen1 hseq1 hno1 hs1 hbar1
        refine ⟨st2, l2, hstep.trans h1, ?_, ?_, h4, ?_⟩
        · rw [h2, hpk, hne]
          simp only [List.length_append, List.length_cons, List.length_nil, hne,
            wireAfter_cons_self, advance, List.append_assoc, List.cons_append, List.nil_append]
        · rw [h3, hnum]
          simp only [advance]
          omega
        · rw [h5, hf, List.append_assoc, List.take_append_drop]
      · obtain ⟨hr, hs1, hf⟩ := retryLoop_dropAck_fresh peer dst j total l st _ hs hseq hchunk
          hd hne
        have hstep : uploadLoop (dropAck peer dst j) dst total (fuel + 1) (b :: bs) st l =
            uploadLoop (dropAck peer dst j) dst total fuel ((b :: bs).drop ChunkSize)
              (advance total st)
              { wire := l.wire ++ [BuildPacket st.seq ((b :: bs).take ChunkSize)],
                taken := l.taken + 1 } := by
          simp only [uploadLoop, hr, hend]
        obtain ⟨st2, l2, h1, h2, h3, h4, h5⟩ := ih _ _ _ hlen1 hseq1 hno1 hs1 hbar1
        refine ⟨st2, l2, hstep.trans h1, ?_, ?_, h4, ?_⟩
        · rw [h2, hpk, wireAfter_cons_of_ne j _ _ _ hne]
          simp only [List.length_append, List.length_cons, List.length_nil, advance,
            List.append_assoc, List.cons_append, List.nil_append, Nat.zero_add]
        · rw [h3, hnum]
          simp only [advance]
          omega
        · rw [h5, hf, List.append_assoc, List.take_append_drop]

/-! ## Claims on the loss of one acknowledgment -/

/-- A transfer of a file of at least four bytes, none of whose chunks is "EOF",
on the channel that loses the first acknowledgment of the data packet of
index `j`, away from the wrap of the sequence number. -/
theorem transferDropAck_recovers (peer dst : Addr) (src : List Byte) (j : Nat)
    (hno : EOF ∉ chunks src) (hw : (j + 1) % 2 ^ 32 ≠ 0) (hlen : 4 ≤ src.length) :
    (transferDropAck peer dst j src).exit = .nil ∧
    (transferDropAck peer dst j src).world.wire =
      dupAt j (packetsFrom 0 src) ++ [BuildPacket (numChunks src % 2 ^ 32) EOF] ∧
    (Download true peer ((transferDropAck peer dst j src).world.trace peer)).exit = .nil ∧
    (Download true peer ((transferDropAck peer dst j src).world.trace peer)).state.file = src ∧
    (Download true peer ((transferDropAck peer dst j src).world.trace peer)).state.acks
      = (transferDropAck peer dst j src).world.wire.map (ackFor peer) := by
  obtain ⟨st1, l1, h1, h2, h3, h4, h5⟩ := uploadLoop_dropAck peer dst src.length j hw
    src.length src { seq := 0, sent := 0, progress := [] } { wire := [], taken := 0 }
    (Nat.le_refl _) (by decide) hno (syncedDrop_init peer j)
    (by simpa using numChunks_fits src (Or.inr hlen))
  have hseq1 : st1.seq < 2 ^ 32 := by
    rw [h3]
    exact Nat.mod_lt _ (by decide)
  simp only [Nat.zero_add, List.nil_append, List.length_nil] at h2 h3
  have hwa : wireAfter j 0 (packetsFrom 0 src) = dupAt j (packetsFrom 0 src) := by
    simp [wireAfter]
  rw [hwa] at h2
  have hw1 : (transferDropAck peer dst j src).world =
      { wire := l1.wire ++ [BuildPacket st1.seq EOF], taken := l1.taken } := by
    simp only [transferDropAck, Upload, h1, dropAck_write]
  have he : (transferDropAck peer dst j src).exit = .nil := by
    simp only [transferDropAck, Upload, h1]
  have hwire : (transferDropAck peer dst j src).world.wire =
      dupAt j (packetsFrom 0 src) ++ [BuildPacket (numChunks src % 2 ^ 32) EOF] := by
    rw [hw1, h2, h3]
  have hrecv := receiver_eof peer l1 st1.seq l1.taken h4.1 hseq1
  have hfile0 : (Link.receiver peer { wire := [], taken := 0 }).state.file = [] := by
    simp [Link.receiver, Link.trace, Download, downloadLoop, recvInit]
  have hD : Download true peer ((transferDropAck peer dst j src).world.trace peer) =
      Link.receiver peer { wire := l1.wire ++ [BuildPacket st1.seq EOF], taken := l1.taken } := by
    rw [hw1]
    rfl
  refine ⟨he, hwire, ?_, ?_, ?_⟩
  · rw [hD, hrecv]
  · rw [hD, hrecv, h5, hfile0]
    rfl
  · rw [hD, hrecv, hw1, h4.2.2.1]
    simp [ackFor, BuildPacket_take4]

/-- A transfer of a file of one to three bytes other than "EOF" on the channel
that loses the first acknowledgment: the chunk is sent twice, the second
copy is acknowledged without being written, and `Upload` panics in
`printProgress`; `Download`, its file complete, waits for more. -/
theorem transferDropAck_small (peer dst : Addr) (src : List Byte) (h1 : 1 ≤ src.length)
    (h3 : src.length ≤ 3) (hne : src ≠ EOF) :
    (transferDropAck peer dst 0 src).exit = .panic ∧
    (transferDropAck peer dst 0 src).world.wire = [BuildPacket 0 src, BuildPacket 0 src] ∧
    (Download true peer ((transferDropAck peer dst 0 src).world.trace peer)).exit
      = .error .readTimeout ∧
    (Download true peer ((transferDropAck peer dst 0 src).world.trace peer)).state.file = src ∧
    (Download true peer ((transferDropAck peer dst 0 src).world.trace peer)).state.acks
      = (transferDropAck peer dst 0 src).world.wire.map (ackFor peer) := by
  cases src with
  | nil => simp at h1
  | cons b bs =>
    obtain ⟨ht, -, -, -⟩ := chunks_small b bs h3
    have hchunk : (b :: bs).length ≤ ChunkSize := by simp only [ChunkSize]; omega
    obtain ⟨hr, hs, hf⟩ := retryLoop_dropAck_lost peer dst 0 (b :: bs).length
      { wire := [], taken := 0 } { seq := 0, sent := 0, progress := [] } (b :: bs)
      (syncedDrop_init peer 0) (by decide) hchunk hne rfl
    rw [roundEnd_panic (b :: bs).length { seq := 0, sent := 0, progress := [] } (by omega)
      (by simp only; omega)] at hr
    simp only [List.nil_append] at hr hs hf
    have hup : uploadLoop (dropAck peer dst 0) dst (b :: bs).length (b :: bs).length (b :: bs)
        { seq := 0, sent := 0, progress := [] } { wire := [], taken := 0 } =
        (.panic, report (b :: bs).length { seq := 0, sent := 0, progress := [] },
          { wire := [BuildPacket 0 (b :: bs), BuildPacket 0 (b :: bs)], taken := 1 }) := by
      show uploadLoop _ dst (b :: bs).length (bs.length + 1) (b :: bs) _ _ = _
      simp only [uploadLoop, ht, hr]
    have hw : (transferDropAck peer dst 0 (b :: bs)).world =
        { wire := [BuildPacket 0 (b :: bs), BuildPacket 0 (b :: bs)], taken := 1 } := by
      simp only [transferDropAck, Upload, hup]
    have hfile0 : (Link.receiver peer { wire := [], taken := 0 }).state.file = [] := by
      simp [Link.receiver, Link.trace, Download, downloadLoop, recvInit]
    have hD : Download true peer ((transferDropAck peer dst 0 (b :: bs)).world.trace peer) =
        Link.receiver peer
          { wire := [BuildPacket 0 (b :: bs), BuildPacket 0 (b :: bs)], taken := 1 } := by
      rw [hw]
      rfl
    refine ⟨by simp only [transferDropAck, Upload, hup], by rw [hw], ?_, ?_, ?_⟩
    · rw [hD]
      exact hs.1
    · rw [hD, hf, hfile0]
      rfl
    · rw [hD, hw]
      exact hs.2.2.1

/-- C11, amended: the loss of the acknowledgment of the packet with `seq`
`2 ^ 32 - 1` is excluded.  For every source none of whose chunks is the three
bytes "EOF", on the channel that delivers every datagram except the first
acknowledgment of the data packet of index `j`, where `j + 1` is not a
multiple of `2 ^ 32`: `Upload` sends that packet a second time (same `seq`,
same payload) and every other data packet once; `Download` acknowledges
every packet on the wire, the second copy included, and its file is the
source, byte for byte, so the payload sent twice is written once.  When the
source has at least four bytes the "EOF" packet follows and both `Upload`
and `Download` return `nil`.  When it has one to three bytes `Upload` panics
in `printProgress` once it reads the acknowledgment of the second copy, so
no "EOF" packet is sent and `Download`, its file complete, waits until its
deadline passes. -/
theorem C11_loss_recovery (peer dst : Addr) (src : List Byte) (j : Nat)
    (hno : EOF ∉ chunks src) (hj : j < numChunks src) (hw : (j + 1) % 2 ^ 32 ≠ 0) :
    (transferDropAck peer dst j src).world.wire.take (numChunks src + 1)
      = dupAt j (packetsFrom 0 src) ∧
    (transferDropAck peer dst j src).world.wire[j]?
      = some (BuildPacket (j % 2 ^ 32) (chunkAt src j)) ∧
    (transferDropAck peer dst j src).world.wire[j + 1]?
      = some (BuildPacket (j % 2 ^ 32) (chunkAt src j)) ∧
    (Download true peer ((transferDropAck peer dst j src).world.trace peer)).state.file = src ∧
    (Download true peer ((transferDropAck peer dst j src).world.trace peer)).state.acks
      = (transferDropAck peer dst j src).world.wire.map (ackFor peer) ∧
    (Download true peer ((transferDropAck peer dst j src).world.trace peer)).state.acks[j + 1]?
      = some (PutUint32 (j % 2 ^ 32), peer) ∧
    (4 ≤ src.length →
      (transferDropAck peer dst j src).exit = .nil ∧
      (transferDropAck peer dst j src).world.wire =
        dupAt j (packetsFrom 0 src) ++ [BuildPacket (numChunks src % 2 ^ 32) EOF] ∧
      (Download true peer ((transferDropAck peer dst j src).world.trace peer)).exit = .nil) ∧
    (src.length ≤ 3 →
      (transferDropAck peer dst j src).exit = .panic ∧
      (transferDropAck peer dst j src).world.wire = dupAt j (packetsFrom 0 src) ∧
      (Download true peer ((transferDropAck peer dst j src).world.trace peer)).exit
        = .error .readTimeout) := by
  have hdl : (dupAt j (packetsFrom 0 src)).length = numChunks src + 1 := by
    simp only [dupAt, List.length_append, List.length_take, List.length_drop,
      packetsFrom_length]
    omega
  have hpk := fun ys => dupAt_getElem? j (packetsFrom 0 src) ys
    (by rw [packetsFrom_length]; exact hj)
  simp only [packetsFrom_getElem? src j hj] at hpk
  have hcommon : ∀ ys : List (List Byte),
      (transferDropAck peer dst j src).world.wire = dupAt j (packetsFrom 0 src) ++ ys →
      (Download true peer ((transferDropAck peer dst j src).world.trace peer)).state.acks
        = (transferDropAck peer dst j src).world.wire.map (ackFor peer) →
      (transferDropAck peer dst j src).world.wire.take (numChunks src + 1)
        = dupAt j (packetsFrom 0 src) ∧
      (transferDropAck peer dst j src).world.wire[j]?
        = some (BuildPacket (j % 2 ^ 32) (chunkAt src j)) ∧
      (transferDropAck peer dst j src).world.wire[j + 1]?
        = some (BuildPacket (j % 2 ^ 32) (chunkAt src j)) ∧
      (Download true peer ((transferDropAck peer dst j src).world.trace peer)).state.acks[j + 1]?
        = some (PutUint32 (j % 2 ^ 32), peer) := by
    intro ys hwire hacks
    refine ⟨?_, ?_, ?_, ?_⟩
    · rw [hwire, List.take_left' hdl]
    · rw [hwire]
      exact (hpk ys).1
    · rw [hwire]
      exact (hpk ys).2
    · rw [hacks, List.getElem?_map, hwire, (hpk ys).2]
      simp [ackFor, BuildPacket_take4]
  by_cases hlen : 4 ≤ src.length
  · obtain ⟨h1, h2, h3, h4, h5⟩ := transferDropAck_recovers peer dst src j hno hw hlen
    obtain ⟨c1, c2, c3, c4⟩ := hcommon _ h2 h5
    exact ⟨c1, c2, c3, h4, h5, c4, fun _ => ⟨h1, h2, h3⟩, fun h => by omega⟩
  · have h3 : src.length ≤ 3 := by omega
    have h1 : 1 ≤ src.length := by
      rcases Nat.eq_zero_or_pos src.length with h | h
      · rw [List.length_eq_zero.1 h, numChunks_nil] at hj
        omega
      · exact h
    have hne : src ≠ EOF := by
      intro he
      apply hno
      rw [he]
      decide
    have hdup : dupAt 0 (packetsFrom 0 src) = [BuildPacket 0 src, BuildPacket 0 src] := by
      cases src with
      | nil => simp at h1
      | cons b bs =>
        obtain ⟨ht, hd, -, -⟩ := chunks_small b bs h3
        rw [packetsFrom_cons 0 (by decide), ht, hd, packetsFrom_nil]
        rfl
    have hj0 : j = 0 := by
      cases src with
      | nil => simp at h1
      | cons b bs =>
        rw [(chunks_small b bs h3).2.2.2] at hj
        omega
    subst hj0
    obtain ⟨s1, s2, s3, s4, s5⟩ := transferDropAck_small peer dst src h1 h3 hne
    have hwire : (transferDropAck peer dst 0 src).world.wire = dupAt 0 (packetsFrom 0 src) ++ [] := by
      rw [s2, hdup, List.append_nil]
    obtain ⟨c1, c2, c3, c4⟩ := hcommon _ hwire s5
    exact ⟨c1, c2, c3, s4, s5, c4, fun h => by omega,
      fun _ => ⟨s1, by rw [hwire, List.append_nil], s3⟩⟩

/-- Instance of C11: the four-byte file `[1, 2, 3, 4]` when the acknowledgment
of its only data packet is lost. -/
theorem C11_loss_recovery_witness :
    EOF ∉ chunks [1, 2, 3, 4] ∧ 0 < numChunks [1, 2, 3, 4] ∧ (0 + 1) % 2 ^ 32 ≠ 0 ∧
    (transferDropAck "10.0.0.2:8000" "10.0.0.1:8000" 0 [1, 2, 3, 4]).world.wire
      = dupAt 0 (packetsFrom 0 [1, 2, 3, 4]) ++ [BuildPacket (numChunks [1, 2, 3, 4] % 2 ^ 32) EOF] ∧
    dupAt 0 (packetsFrom 0 [1, 2, 3, 4]) ++ [BuildPacket (numChunks [1, 2, 3, 4] % 2 ^ 32) EOF]
      = [[0, 0, 0, 0, 1, 2, 3, 4], [0, 0, 0, 0, 1, 2, 3, 4], [0, 0, 0, 1, 69, 79, 70]] ∧
    (Download true "10.0.0.2:8000"
      ((transferDropAck "10.0.0.2:8000" "10.0.0.1:8000" 0 [1, 2, 3, 4]).world.trace
        "10.0.0.2:8000")).state.file = [1, 2, 3, 4] ∧
    (transferDropAck "10.0.0.2:8000" "10.0.0.1:8000" 0 [1, 2, 3, 4]).exit = .nil :=
  ⟨by decide, by decide, by decide,
    ((C11_loss_recovery "10.0.0.2:8000" "10.0.0.1:8000" [1, 2, 3, 4] 0
      (by decide) (by decide) (by decide)).2.2.2.2.2.2.1 (by decide)).2.1,
    by decide,
    (C11_loss_recovery "10.0.0.2:8000" "10.0.0.1:8000" [1, 2, 3, 4] 0
      (by decide) (by decide) (by decide)).2.2.2.1,
    ((C11_loss_recovery "10.0.0.2:8000" "10.0.0.1:8000" [1, 2, 3, 4] 0
      (by decide) (by decide) (by decide)).2.2.2.2.2.2.1 (by decide)).1⟩

/-! ## The lost acknowledgment at the wrap of the sequence number -/

/-- Attempts for a packet whose sequence number is above what the receiver
waits for, when no acknowledgment is left to read: the receiver drops every
copy, every read times out, and the loop gives up with the state unchanged. -/
theorem retryLoop_deaf (peer dst : Addr) (j total : Nat) (st : SendState) (chunk : List Byte)
    (hseq : st.seq < 2 ^ 32) (hlen : chunk.length ≤ ChunkSize) (hd : chunk ≠ EOF) :
    ∀ (k : Nat) (l : Link),
      (l.receiver peer).exit = .error .readTimeout →
      (l.receiver peer).state.expectedSeq < st.seq →
      (((l.receiver peer).state.acks.map Prod.fst).eraseIdx j).drop l.taken = [] →
      retryLoop (dropAck peer dst j) dst (BuildPacket st.seq chunk) total k st l =
        (.ok, st, { wire := l.wire ++ List.replicate k (BuildPacket st.seq chunk),
                    taken := l.taken }) ∧
      (Link.receiver peer { wire := l.wire ++ List.replicate k (BuildPacket st.seq chunk),
                            taken := l.taken }).exit = .error .readTimeout ∧
      (Link.receiver peer { wire := l.wire ++ List.replicate k (BuildPacket st.seq chunk),
                            taken := l.taken }).state = (l.receiver peer).state := by
  intro k
  induction k with
  | zero =>
    intro l h1 _ _
    refine ⟨by simp [retryLoop], ?_, ?_⟩
    · simpa [Link.receiver] using h1
    · simp [Link.receiver]
  | succ k ih =>
    intro l h1 h2 h3
    have hr := receiver_gap peer l st.seq chunk l.taken h1 h2 hseq hlen hd
    have ih1 := ih { wire := l.wire ++ [BuildPacket st.seq chunk], taken := l.taken }
      (by rw [hr]) (by rw [hr]; exact h2) (by rw [hr]; exact h3)
    have hw : l.wire ++ [BuildPacket st.seq chunk] ++ List.replicate k (BuildPacket st.seq chunk)
        = l.wire ++ List.replicate (k + 1) (BuildPacket st.seq chunk) := by
      simp [List.replicate_succ]
    simp only [hw] at ih1
    obtain ⟨h4, h5, h6⟩ := ih1
    refine ⟨?_, h5, ?_⟩
    · rw [retryLoop_unanswered peer dst j total k st _ l (by rw [hr]; exact h3)]
      exact h4
    · rw [h6, hr]

/-- The chunk whose first acknowledgment is lost when its sequence number is
`2 ^ 32 - 1`: the receiver accepts the first copy and waits for 0, so it
drops the four retransmissions as packets from ahead and answers none. -/
theorem retryLoop_dropAck_lost_wrap (peer dst : Addr) (j total : Nat) (l : Link)
    (st : SendState) (chunk : List Byte) (hs : SyncedDrop peer j l st)
    (hseq : st.seq + 1 = 2 ^ 32) (hlen : chunk.length ≤ ChunkSize) (hd : chunk ≠ EOF)
    (hj : l.wire.length = j) :
    retryLoop (dropAck peer dst j) dst (BuildPacket st.seq chunk) total MaxRetries st l =
      (.ok, st, { wire := l.wire ++ List.replicate 5 (BuildPacket st.seq chunk),
                  taken := l.taken }) ∧
    (Link.receiver peer { wire := l.wire ++ List.replicate 5 (BuildPacket st.seq chunk),
                          taken := l.taken }).exit = .error .readTimeout ∧
    (Link.receiver peer { wire := l.wire ++ List.replicate 5 (BuildPacket st.seq chunk),
                          taken := l.taken }).state =
      { file := (l.receiver peer).state.file ++ chunk, expectedSeq := 0,
        acks := (l.receiver peer).state.acks ++ [(PutUint32 st.seq, peer)] } ∧
    List.drop l.taken
      ((((l.receiver peer).state.acks ++ [(PutUint32 st.seq, peer)]).map Prod.fst).eraseIdx j)
        = [] := by
  obtain ⟨h1, h2, h3, h4, h5⟩ := hs
  have hA : (l.wire.map (fun p => p.take 4)).length = j := by simpa using hj
  have hm : (st.seq + 1) % 2 ^ 32 = 0 := by rw [hseq]; norm_num
  have hr1 := fun t => receiver_data peer l st.seq chunk t h1 h2 (by omega) hlen hd
  have ht : l.taken = (l.wire.map (fun p => p.take 4)).length := by
    rw [h4, List.eraseIdx_of_length_le (by omega)]
  have hvis : List.drop l.taken
      ((((l.receiver peer).state.acks ++ [(PutUint32 st.seq, peer)]).map Prod.fst).eraseIdx j)
        = [] := by
    rw [h3]
    simp only [List.map_append, map_fst_ackFor, List.map_cons, List.map_nil]
    rw [← hA, eraseIdx_snoc_length, ht, List.drop_length]
  obtain ⟨h6, h7, h8⟩ := retryLoop_deaf peer dst j total st chunk (by omega) hlen hd 4
    { wire := l.wire ++ [BuildPacket st.seq chunk], taken := l.taken }
    (by rw [hr1]) (by rw [hr1, hm]; simp only; omega) (by rw [hr1]; exact hvis)
  have hw : l.wire ++ [BuildPacket st.seq chunk] ++ List.replicate 4 (BuildPacket st.seq chunk)
      = l.wire ++ List.replicate 5 (BuildPacket st.seq chunk) := by
    simp [List.replicate_succ]
  simp only [hw] at h6 h7 h8
  refine ⟨?_, h7, ?_, hvis⟩
  · show retryLoop _ _ _ _ (4 + 1) _ _ = _
    rw [retryLoop_unanswered peer dst j total 4 st _ l (by rw [hr1]; exact hvis)]
    exact h6
  · rw [h8, hr1, hm]

/-- The outer loop of `Upload` once the receiver waits for a sequence number
below that of the sender and answers nothing: every chunk is sent five times
in vain and the receiver stays as it is. -/
theorem uploadLoop_deaf (peer dst : Addr) (total j : Nat) :
    ∀ (fuel : Nat) (rest : List Byte) (st : SendState) (l : Link),
      rest.length ≤ fuel → st.seq < 2 ^ 32 → EOF ∉ chunks rest →
      (l.receiver peer).exit = .error .readTimeout →
      (l.receiver peer).state.expectedSeq < st.seq →
      (((l.receiver peer).state.acks.map Prod.fst).eraseIdx j).drop l.taken = [] →
      ∃ l1, uploadLoop (dropAck peer dst j) dst total fuel rest st l = (.ok, st, l1) ∧
        (l1.receiver peer).exit = .error .readTimeout ∧
        (l1.receiver peer).state = (l.receiver peer).state := by
  intro fuel
  induction fuel with
  | zero =>
    intro rest st l hlen _ _ h1 _ _
    have : rest = [] := List.length_eq_zero.1 (by omega)
    subst this
    exact ⟨l, uploadLoop_nil _ _ _ _ _ _, h1, rfl⟩
  | succ fuel ih =>
    intro rest st l hlen hseq hno h1 h2 h3
    cases rest with
    | nil => exact ⟨l, uploadLoop_nil _ _ _ _ _ _, h1, rfl⟩
    | cons b bs =>
      have hchunk : ((b :: bs).take ChunkSize).length ≤ ChunkSize := by
        simp only [List.length_take]
        omega
      have hd : (b :: bs).take ChunkSize ≠ EOF := by
        intro h
        apply hno
        rw [chunks_cons, h]
        exact List.mem_cons_self _ _
      have hno1 : EOF ∉ chunks ((b :: bs).drop ChunkSize) := by
        intro hmem
        apply hno
        rw [chunks_cons]
        exact List.mem_cons_of_mem _ hmem
      have hlen1 : ((b :: bs).drop ChunkSize).length ≤ fuel := by
        simp only [List.length_drop, List.length_cons, ChunkSize] at *
        omega
      obtain ⟨h4, h5, h6⟩ := retryLoop_deaf peer dst j total st _ hseq hchunk hd MaxRetries l
        h1 h2 h3
      obtain ⟨l1, h7, h8, h9⟩ := ih ((b :: bs).drop ChunkSize) st _ hlen1 hseq hno1 h5
        (by rw [h6]; exact h2) (by rw [h6]; exact h3)
      refine ⟨l1, ?_, h8, by rw [h9, h6]⟩
      simp only [uploadLoop, h4]
      exact h7

theorem numChunks_eq_zero (rest : List Byte) (h : numChunks rest = 0) : rest = [] := by
  cases rest with
  | nil => rfl
  | cons b bs =>
    rw [numChunks_cons] at h
    omega

/-- The outer loop of `Upload` on the channel that loses the `j`-th
acknowledgment when the packet concerned has the sequence number
`2 ^ 32 - 1` and is not the last: the receiver ends waiting, with a file
that lacks a non-empty end of the unread part. -/
theorem uploadLoop_dropAck_wrap (peer dst : Addr) (total j : Nat) (hj : (j + 1) % 2 ^ 32 = 0) :
    ∀ (fuel : Nat) (rest : List Byte) (st : SendState) (l : Link),
      rest.length ≤ fuel → st.seq < 2 ^ 32 → EOF ∉ chunks rest → SyncedDrop peer j l st →
      l.wire.length ≤ j → j + 2 ≤ l.wire.length + numChunks rest →
      st.sent + 4 * numChunks rest ≤ total →
      ∃ st1 l1, uploadLoop (dropAck peer dst j) dst total fuel rest st l = (.ok, st1, l1) ∧
        st1.seq < 2 ^ 32 ∧
        (l1.receiver peer).exit = .error .readTimeout ∧
        ∃ tail, tail ≠ [] ∧
          (l1.receiver peer).state.file ++ tail = (l.receiver peer).state.file ++ rest := by
  intro fuel
  induction fuel with
  | zero =>
    intro rest st l hlen _ _ _ hle hsum _
    have : rest = [] := List.length_eq_zero.1 (by omega)
    subst this
    rw [numChunks_nil] at hsum
    omega
  | succ fuel ih =>
    intro rest st l hlen hseq hno hs hle hsum hbar
    cases rest with
    | nil =>
      rw [numChunks_nil] at hsum
      omega
    | cons b bs =>
      have hchunk : ((b :: bs).take ChunkSize).length ≤ ChunkSize := by
        simp only [List.length_take]
        omega
      have hd : (b :: bs).take ChunkSize ≠ EOF := by
        intro h
        apply hno
        rw [chunks_cons, h]
        exact List.mem_cons_self _ _
      have hno1 : EOF ∉ chunks ((b :: bs).drop ChunkSize) := by
        intro hmem
        apply hno
        rw [chunks_cons]
        exact List.mem_cons_of_mem _ hmem
      have hlen1 : ((b :: bs).drop ChunkSize).length ≤ fuel := by
        simp only [List.length_drop, List.length_cons, ChunkSize] at *
        omega
      have hnum := numChunks_cons b bs
      by_cases hne : l.wire.length = j
      · have hs5 := hs.2.2.2.2 hle
        have hseq2 : st.seq + 1 = 2 ^ 32 := by
          rw [hne] at hs5
          omega
        obtain ⟨hr, h1, h2, h3⟩ := retryLoop_dropAck_lost_wrap peer dst j total l st _ hs hseq2
          hchunk hd hne
        obtain ⟨l1, h4, h5, h6⟩ := uploadLoop_deaf peer dst total j fuel
          ((b :: bs).drop ChunkSize) st _ hlen1 hseq hno1 h1
          (by rw [h2]; simp only; omega) (by rw [h2]; exact h3)
        refine ⟨st, l1, ?_, hseq, h5, (b :: bs).drop ChunkSize, ?_, ?_⟩
        · simp only [uploadLoop, hr]
          exact h4
        · intro hnil
          have : numChunks ((b :: bs).drop ChunkSize) = 0 := by rw [hnil]; exact numChunks_nil
          omega
        · rw [h6, h2, List.append_assoc, List.take_append_drop]
      · obtain ⟨hr, hs1, hf⟩ := retryLoop_dropAck_fresh peer dst j total l st _ hs hseq hchunk
          hd hne
        rw [roundEnd_ok total st (by omega)] at hr
        obtain ⟨st2, l2, h1, h2, h3, tail, h4, h5⟩ := ih ((b :: bs).drop ChunkSize) _ _ hlen1
          (show (advance total st).seq < 2 ^ 32 from Nat.mod_lt _ (by decide)) hno1 hs1
          (by simp only [List.length_append, List.length_singleton]; omega)
          (by simp only [List.length_append, List.length_singleton]; omega)
          (by simp only [advance]; omega)
        refine ⟨st2, l2, ?_, h2, h3, tail, h4, ?_⟩
        · simp only [uploadLoop, hr]
          exact h1
        · rw [h5, hf, List.append_assoc, List.take_append_drop]

theorem EOF_not_mem_chunks_zeros (n : Nat) : EOF ∉ chunks (List.replicate n (0 : Byte)) := by
  intro h
  simp only [chunks, List.mem_map, List.mem_range] at h
  obtain ⟨i, -, hi⟩ := h
  have h69 : (69 : Byte) ∈ EOF := by decide
  rw [← hi, chunkAt, List.drop_replicate, List.take_replicate] at h69
  exact absurd (List.eq_of_mem_replicate h69) (by decide)

/-- A transfer on the channel that loses the `j`-th acknowledgment, when the
packet concerned has the sequence number `2 ^ 32 - 1` and at least one chunk
follows it: both ends return `nil` and the file of the receiver is not the
source. -/
theorem transferDropAck_wrap (peer dst : Addr) (j : Nat) (src : List Byte)
    (hj : (j + 1) % 2 ^ 32 = 0) (hno : EOF ∉ chunks src) (hn : j + 2 ≤ numChunks src) :
    (transferDropAck peer dst j src).exit = .nil ∧
    (Download true peer ((transferDropAck peer dst j src).world.trace peer)).exit = .nil ∧
    (Download true peer ((transferDropAck peer dst j src).world.trace peer)).state.file
      ≠ src := by
  have hlen : src.length = 0 ∨ 4 ≤ src.length := by
    simp only [numChunks, ChunkSize] at hn
    omega
  obtain ⟨st1, l1, h1, h2, h3, tail, h4, h5⟩ :=
    uploadLoop_dropAck_wrap peer dst src.length j hj src.length src
      { seq := 0, sent := 0, progress := [] } { wire := [], taken := 0 }
      (Nat.le_refl _) (by decide) hno (syncedDrop_init _ _)
      (by simp) (by simpa using hn) (by simpa using numChunks_fits src hlen)
  have hw1 : (transferDropAck peer dst j src).world =
      { wire := l1.wire ++ [BuildPacket st1.seq EOF], taken := l1.taken } := by
    simp only [transferDropAck, Upload, h1, dropAck_write]
  have hrecv := receiver_eof peer l1 st1.seq l1.taken h3 h2
  have hD : Download true peer ((transferDropAck peer dst j src).world.trace peer) =
      Link.receiver peer { wire := l1.wire ++ [BuildPacket st1.seq EOF], taken := l1.taken } := by
    rw [hw1]
    rfl
  have hfile0 : (Link.receiver peer { wire := [], taken := 0 }).state.file = [] := by
    simp [Link.receiver, Link.trace, Download, downloadLoop, recvInit]
  refine ⟨?_, ?_, ?_⟩
  · simp only [transferDropAck, Upload, h1]
  · rw [hD, hrecv]
  · rw [hD, hrecv]
    simp only
    intro hfile
    rw [hfile, hfile0, List.nil_append] at h5
    have := congrArg List.length h5
    rw [List.length_append] at this
    have hpos : 0 < tail.length := List.length_pos.2 h4
    omega

/-- C11 as stated fails at the wrap of the sequence number.  The source is
4294967297 chunks of zero bytes, none of them "EOF", and the one
acknowledgment lost is that of the data packet of index 4294967295, which
carries `seq` 4294967295.  `Download` accepts that packet and waits for `seq`
0, so it takes the retransmissions, and the last chunk sent under the same
`seq`, for packets from ahead and drops them without an answer.  Both
`Upload` and `Download` return `nil`, and the file of the receiver is not
the source. -/
theorem C11_counterexample :
    EOF ∉ chunks (List.replicate (4294967296 * 8192 + 1) (0 : Byte)) ∧
    4294967295 < numChunks (List.replicate (4294967296 * 8192 + 1) (0 : Byte)) ∧
    (transferDropAck "10.0.0.2:8000" "10.0.0.1:8000" 4294967295
      (List.replicate (4294967296 * 8192 + 1) 0)).exit = .nil ∧
    (Download true "10.0.0.2:8000"
      ((transferDropAck "10.0.0.2:8000" "10.0.0.1:8000" 4294967295
        (List.replicate (4294967296 * 8192 + 1) 0)).world.trace "10.0.0.2:8000")).exit = .nil ∧
    (Download true "10.0.0.2:8000"
      ((transferDropAck "10.0.0.2:8000" "10.0.0.1:8000" 4294967295
        (List.replicate (4294967296 * 8192 + 1) 0)).world.trace "10.0.0.2:8000")).state.file
      ≠ List.replicate (4294967296 * 8192 + 1) 0 := by
  have hn := numChunks_zeros_succ 4294967296
  have hno := EOF_not_mem_chunks_zeros (4294967296 * 8192 + 1)
  obtain ⟨h1, h2, h3⟩ := transferDropAck_wrap "10.0.0.2:8000" "10.0.0.1:8000" 4294967295
    (List.replicate (4294967296 * 8192 + 1) 0) (by norm_num) hno (by rw [hn])
  exact ⟨hno, by rw [hn]; omega, h1, h2, h3⟩

end udp
